import Mathlib

/-!
# Shallow embedding of the Shark File System (SFS)

This file embeds, in Lean, the data model and operations of the SFS
educational file system: the on-disk block layout and superblock
(sfs-disk.h), the engine (sfs-disk.c: sfs_format / sfs_mount /
sfs_unmount; sfs_threads.h: allocateBlocks, freeBlocks,
addOpenFileEntry, createFile, sfs_open, sfs_close, sfs_read,
sfs_write, sfs_remove, sfs_list), and the consistency checker
(sfs-fsck.c).

Modelling conventions:
* The mapped disk image is a `Disk` record whose header fields
  (`btype`, `prev`, `next`) and 500-byte data areas (`data`) are total
  functions from block ids; block 0 is the superblock and its header
  functions are never consulted by the engine (the C code returns NULL
  for id 0 and guards every dereference).
* Machine integers are `Nat`; file sizes are bounded by
  `SFS_MAX_FILE_SIZE = 2^32 - 1` through hypotheses where it matters.
* C strings (file names, magic numbers, block-type tags) are byte
  lists (`List Nat`).
* `malloc` is modelled as always succeeding (the -ENOMEM paths are
  dead in the model).
* Loops whose bound is not structural take explicit fuel; call sites
  pass a fuel that dominates every terminating C execution
  (the walks are bounded by the chain length, itself bounded by the
  block count of the volume in every state the theorems quantify
  over).
-/

namespace SFS

/-! ## Constants (sfs-disk.h, sfs_threads.h) -/

def SFS_BLOCK_SIZE : Nat := 512
def BLOCK_DATA_SIZE : Nat := 500
def SFS_FILE_NAME_SIZE_LIMIT : Nat := 24
def DIR_ENTRIES_PER_BLOCK : Nat := 15
def FILE_COUNT_LIMIT : Nat := DIR_ENTRIES_PER_BLOCK
def OPEN_FILE_LIMIT : Nat := 32
def SFS_MAX_FILE_SIZE : Nat := 2 ^ 32 - 1
def SFS_MAX_DISK_SIZE : Nat := 2 ^ 32 * 512

/-- Block type tag of an unallocated block. C literal: SFU followed by 0xF5. -/
def SFS_BLOCK_TYPE_FREE : List Nat := [0x53, 0x46, 0x55, 0xF5]
/-- Block type tag of a file-contents block. C literal: SFF followed by 0xE6. -/
def SFS_BLOCK_TYPE_FILE : List Nat := [0x53, 0x46, 0x46, 0xE6]
/-- Block type tag of a directory block. C literal: SFD followed by 0xE4. -/
def SFS_BLOCK_TYPE_DIR : List Nat := [0x53, 0x46, 0x44, 0xE4]
/-- The 8-byte magic number of an SFS disk image, including the NUL. -/
def SFS_DISK_MAGIC : List Nat := [0x53, 0x46, 0x53, 0xB2, 0xB1, 0xB3, 0x01, 0x00]

/-! errno values used by the engine (Linux numbering). -/

def ENOENT : Int := 2
def EBADF : Int := 9
def ENOMEM : Int := 12
def EBUSY : Int := 16
def EINVAL : Int := 22
def EMFILE : Int := 24
def EFBIG : Int := 27
def ENOSPC : Int := 28
def ENAMETOOLONG : Int := 36
def ENOSYS : Int := 38
def ENOMEDIUM : Int := 123

/-! ## On-disk data model (sfs-disk.h) -/

/-- A 32-byte directory entry: first block id, size, 24-byte name. -/
structure DirEntry where
  firstBlock : Nat
  size : Nat
  name : List Nat
  deriving DecidableEq

/-- The mapped disk image.  The superblock fields (`magic`, `nBlocks`,
`freelist`, `nextRootdir`, `files`) are block 0; every other block id is
mapped to its 12-byte header (`btype`, `prev`, `next`) and its 500-byte
data area (`data b i` is byte `i` of block `b`). -/
@[ext]
structure Disk where
  magic : List Nat
  nBlocks : Nat
  freelist : Nat
  nextRootdir : Nat
  files : Nat → DirEntry
  btype : Nat → List Nat
  prev : Nat → Nat
  next : Nat → Nat
  data : Nat → Nat → Nat

/-- setBlockType (sfs-disk.c): overwrite a block's 4-byte type tag. -/
def Disk.setType (d : Disk) (b : Nat) (t : List Nat) : Disk :=
  { d with btype := fun x => if x = b then t else d.btype x }

def Disk.setPrev (d : Disk) (b v : Nat) : Disk :=
  { d with prev := fun x => if x = b then v else d.prev x }

def Disk.setNext (d : Disk) (b v : Nat) : Disk :=
  { d with next := fun x => if x = b then v else d.next x }

def Disk.setFreelist (d : Disk) (v : Nat) : Disk :=
  { d with freelist := v }

def Disk.setFile (d : Disk) (i : Nat) (e : DirEntry) : Disk :=
  { d with files := fun x => if x = i then e else d.files x }

/-- memcpy into the data area of block `b` at offset `off`. -/
def memcpyToBlock (d : Disk) (b off : Nat) (bytes : List Nat) : Disk :=
  { d with data := fun x i =>
      if x = b ∧ off ≤ i ∧ i < off + bytes.length then bytes.getD (i - off) 0
      else d.data x i }

/-- memcpy out of the data area of block `b`: `n` bytes from offset `off`. -/
def readFromBlock (d : Disk) (b off n : Nat) : List Nat :=
  (List.range n).map (fun i => d.data b (off + i))

/-! ## In-memory tables (sfs_threads.h) -/

/-- A v-node table entry (struct sfs_mem_file_t).  The C struct holds a
pointer to the on-disk directory entry; here `fileEntryIdx` is the
directory index, and the entry is read as `disk.files fileEntryIdx`. -/
structure MemFile where
  refCount : Nat
  fileEntryIdx : Nat
  deriving DecidableEq

/-- An open file descriptor (struct sfs_mem_filedesc_t).  The C struct
points at its v-node; `fileEntryIdx` is that v-node's directory index
(the pointer target is `openFileTable fileEntryIdx`). -/
structure FileDesc where
  fileEntryIdx : Nat
  startBlock : Nat
  currBlock : Nat
  currPos : Nat
  deriving DecidableEq

/-- Whole engine state: the mapped image (if mounted), the v-node table
(`openFileTable`, FILE_COUNT_LIMIT slots) and the descriptor table
(`descTable`, OPEN_FILE_LIMIT slots).  `mounted` models
`diskBlocks != NULL`; the static tables survive unmount, as in C. -/
@[ext]
structure FS where
  disk : Disk
  mounted : Bool
  openFileTable : Nat → Option MemFile
  descTable : Nat → Option FileDesc

/-! ## Internal subroutines (sfs_threads.h) -/

/-- roundUp: round SIZE up to a multiple of N, except roundUp 0 n = n
(the C body first replaces a zero SIZE by 1). -/
def roundUp (size n : Nat) : Nat :=
  n * (((if size = 0 then 1 else size) + (n - 1)) / n)

/-- sizeMin: the smaller of two quantities. -/
def sizeMin (a b : Nat) : Nat := if a < b then a else b

/-- The C string stored in a fixed-size char array: the bytes before
the first NUL. -/
def cstrOf (l : List Nat) : List Nat := l.takeWhile (fun c => c != 0)

/-- The walk in allocateBlocks that advances `last_alloc_blk` by
`k` next-links (the C for-loop runs k = n_blocks - 1 iterations),
returning `none` when the free list runs out short. -/
def findLastAlloc (d : Disk) (id : Nat) : Nat → Option Nat
  | 0 => some id
  | k + 1 => if d.next id = 0 then none else findLastAlloc d (d.next id) k

/-- The retag loop at the end of allocateBlocks: walk the detached
chain from `id` setting every block's type to `tag`, stopping at the
block whose next link is 0.  `fuel` dominates the chain length. -/
def retagLoop (d : Disk) (id : Nat) (tag : List Nat) : Nat → Disk
  | 0 => d
  | fuel + 1 =>
    let d1 := d.setType id tag
    if d1.next id = 0 then d1 else retagLoop d1 (d1.next id) tag fuel

/-- allocateBlocks (sfs_threads.h): detach the first `n` blocks of the
free list, retag them, and return (first block id, new disk); returns
(0, unchanged disk) when `n = 0` or fewer than `n` blocks are free. -/
def allocateBlocks (d : Disk) (n : Nat) (tag : List Nat) : Nat × Disk :=
  if d.freelist = 0 ∨ n = 0 then (0, d)
  else
    let first := d.freelist
    match findLastAlloc d first (n - 1) with
    | none => (0, d)
    | some last =>
      let nextFree := d.next last
      let d1 := if nextFree ≠ 0 then (d.setPrev nextFree 0).setNext last 0 else d
      let d2 := d1.setFreelist nextFree
      let d3 := retagLoop d2 first tag n
      (first, d3)

/-- The walk in freeBlocks: set each block's type to FREE following
next links, returning the disk and the id of the last block of the
chain (the block whose next link is 0). -/
def freeLoop (d : Disk) (id : Nat) : Nat → Disk × Nat
  | 0 => (d, id)
  | fuel + 1 =>
    let d1 := d.setType id SFS_BLOCK_TYPE_FREE
    if d1.next id = 0 then (d1, id) else freeLoop d1 (d1.next id) fuel

/-- freeBlocks (sfs_threads.h): detach the chain starting at `first`
from anything before it, retype every block of the chain to FREE, and
splice the whole stretch onto the front of the free list. -/
def freeBlocks (d : Disk) (first : Nat) (fuel : Nat) : Disk :=
  let d0 :=
    if d.prev first ≠ 0 then (d.setNext (d.prev first) 0).setPrev first 0 else d
  let r := freeLoop d0 first fuel
  let d2 := r.1.setNext r.2 r.1.freelist
  d2.setFreelist first

/-! ## Volume lifecycle (sfs-disk.c) -/

/-- The all-zero image produced by open(O_TRUNC) + ftruncate. -/
def zeroDisk : Disk :=
  { magic := List.replicate 8 0
    nBlocks := 0
    freelist := 0
    nextRootdir := 0
    files := fun _ => { firstBlock := 0, size := 0, name := List.replicate 24 0 }
    btype := fun _ => List.replicate 4 0
    prev := fun _ => 0
    next := fun _ => 0
    data := fun _ _ => 0 }

/-- One iteration of the block-threading loop in sfs_format. -/
def formatStep (n : Nat) (d : Disk) (idx : Nat) : Disk :=
  ((d.setType idx SFS_BLOCK_TYPE_FREE).setPrev idx (idx - 1)).setNext idx
    (if idx + 1 = n then 0 else idx + 1)

/-- The image produced by the success path of sfs_format on a fresh
zeroed file of `n` blocks: magic and superblock fields written, then
blocks 1 .. n-1 threaded into the free list. -/
def formatDisk (n : Nat) : Disk :=
  let d0 := { zeroDisk with magic := SFS_DISK_MAGIC, nBlocks := n, freelist := 1 }
  (List.range' 1 (n - 1)).foldl (formatStep n) d0

/-- sfs_format (sfs-disk.c).  `pagesize` is the host page size; the
host I/O failure paths (open/ftruncate/mmap) are not modelled. -/
def sfs_format (fs : FS) (diskSize pagesize : Nat) : Int × FS :=
  if diskSize = 0 ∨ diskSize % pagesize ≠ 0 then (-EINVAL, fs)
  else if diskSize > SFS_MAX_DISK_SIZE then (-EFBIG, fs)
  else if fs.mounted then (-EBUSY, fs)
  else (0, { fs with mounted := true, disk := formatDisk (diskSize / SFS_BLOCK_SIZE) })

/-- sfs_mount (sfs-disk.c).  The image size of a well-formed volume is
512 * nBlocks; the host I/O failure paths are not modelled. -/
def sfs_mount (fs : FS) (pagesize : Nat) : Int × FS :=
  if fs.mounted then (-EBUSY, fs)
  else if SFS_BLOCK_SIZE * fs.disk.nBlocks > SFS_MAX_DISK_SIZE then (-EFBIG, fs)
  else if (SFS_BLOCK_SIZE * fs.disk.nBlocks) % pagesize ≠ 0 then (-EINVAL, fs)
  else if fs.disk.magic ≠ SFS_DISK_MAGIC then (-EINVAL, fs)
  else (0, { fs with mounted := true })

/-- sfs_unmount (sfs-disk.c).  The open-descriptor guard is commented
out in the source; unmount always succeeds and does not clear the
static tables. -/
def sfs_unmount (fs : FS) : Int × FS :=
  (0, { fs with mounted := false })

/-! ## Open-file tables (sfs_threads.h) -/

/-- addOpenFileEntry: allocate a descriptor (first free slot) and a
v-node (creating it with refCount 0 if absent, then incrementing). -/
def addOpenFileEntry (fs : FS) (entryIndex : Nat) : Int × FS :=
  match (List.range OPEN_FILE_LIMIT).find? (fun i => (fs.descTable i).isNone) with
  | none => (-EMFILE, fs)
  | some fd =>
    let mk : MemFile × FS :=
      match fs.openFileTable entryIndex with
      | some f => (f, fs)
      | none =>
        let f : MemFile := { refCount := 0, fileEntryIdx := entryIndex }
        (f, { fs with openFileTable := fun i => if i = entryIndex then some f else fs.openFileTable i })
    let mf := mk.1
    let fs1 := mk.2
    let mf1 : MemFile := { mf with refCount := mf.refCount + 1 }
    let fs2 := { fs1 with openFileTable := fun i => if i = entryIndex then some mf1 else fs1.openFileTable i }
    let firstB := (fs2.disk.files entryIndex).firstBlock
    let dsc : FileDesc :=
      { fileEntryIdx := entryIndex, startBlock := firstB, currBlock := firstB, currPos := 0 }
    (Int.ofNat fd, { fs2 with descTable := fun i => if i = fd then some dsc else fs2.descTable i })

/-- createFile: allocate one FILE block, fill the free directory slot
`emptyIndex` (name NUL-padded to 24 bytes), then open it. -/
def createFile (fs : FS) (fileName : List Nat) (emptyIndex : Nat) : Int × FS :=
  let r := allocateBlocks fs.disk 1 SFS_BLOCK_TYPE_FILE
  if r.1 = 0 then (-ENOSPC, { fs with disk := r.2 })
  else
    let e : DirEntry :=
      { firstBlock := r.1
        size := 0
        name := fileName ++ List.replicate (SFS_FILE_NAME_SIZE_LIMIT - fileName.length) 0 }
    addOpenFileEntry { fs with disk := r.2.setFile emptyIndex e } emptyIndex

/-! ## API functions (sfs_threads.h) -/

/-- sfs_open: name-length check, medium check, then a single scan of
the 15 directory slots for the first live entry with a matching name
(opening it) or, failing that, the first unused slot (creating there). -/
def sfs_open (fs : FS) (fileName : List Nat) : Int × FS :=
  if fileName.length + 1 > SFS_FILE_NAME_SIZE_LIMIT then (-ENAMETOOLONG, fs)
  else if ¬ fs.mounted then (-ENOMEDIUM, fs)
  else
    match (List.range FILE_COUNT_LIMIT).find?
        (fun i => ((fs.disk.files i).firstBlock != 0) && (cstrOf (fs.disk.files i).name == fileName)) with
    | some i => addOpenFileEntry fs i
    | none =>
      match (List.range FILE_COUNT_LIMIT).find? (fun i => (fs.disk.files i).firstBlock == 0) with
      | some emptyIndex => createFile fs fileName emptyIndex
      | none => (-ENOSPC, fs)

/-- sfs_close: tolerant of bad fds (note the C guard is
`fd < 0 || fd > OPEN_FILE_LIMIT`, so 32 itself passes the guard);
release the descriptor, decrement the v-node, release it at zero. -/
def sfs_close (fs : FS) (fd : Int) : FS :=
  if fd < 0 ∨ fd > OPEN_FILE_LIMIT then fs
  else
    match fs.descTable fd.toNat with
    | none => fs
    | some tFile =>
      let fs1 := { fs with descTable := fun i => if i = fd.toNat then none else fs.descTable i }
      match fs.openFileTable tFile.fileEntryIdx with
      | none => fs1
      | some mf =>
        let mf1 : MemFile := { mf with refCount := mf.refCount - 1 }
        if mf1.refCount > 0 then
          { fs1 with openFileTable := fun i => if i = tFile.fileEntryIdx then some mf1 else fs1.openFileTable i }
        else
          { fs1 with openFileTable := fun i => if i = mf.fileEntryIdx then none else fs1.openFileTable i }

/-- The chunked copy loop shared by sfs_read: copy `chunk` bytes of
block `blkId` from offset `blockPos`, then whole blocks (up to 500
bytes each) following next links, until `toRead` bytes are produced.
Returns the bytes and the id of the block holding the final position. -/
def readLoop (d : Disk) (blkId blockPos chunk toRead : Nat) : List Nat × Nat :=
  let bytes := readFromBlock d blkId blockPos chunk
  if toRead - chunk = 0 then (bytes, blkId)
  else
    let toRead1 := toRead - chunk
    let r := readLoop d (d.next blkId) 0 (sizeMin BLOCK_DATA_SIZE toRead1) toRead1
    (bytes ++ r.1, r.2)
termination_by 2 * toRead + (if chunk = 0 then 1 else 0)
decreasing_by
  all_goals simp only [sizeMin, BLOCK_DATA_SIZE]
  all_goals repeat' split
  all_goals omega

/-- sfs_read: read min(size - pos, len) bytes from the current
position, advancing the descriptor.  Returns (result, bytes, state). -/
def sfs_read (fs : FS) (fd : Int) (len : Nat) : Int × List Nat × FS :=
  if fd < 0 ∨ fd > OPEN_FILE_LIMIT then (-EBADF, [], fs)
  else
    match fs.descTable fd.toNat with
    | none => (-EBADF, [], fs)
    | some tFile =>
      let fileSize := (fs.disk.files tFile.fileEntryIdx).size
      let currPos := tFile.currPos
      let totalToRead := sizeMin (fileSize - currPos) len
      let blockPos := currPos % BLOCK_DATA_SIZE
      let chunk := sizeMin (roundUp currPos BLOCK_DATA_SIZE - currPos) totalToRead
      let r := readLoop fs.disk tFile.currBlock blockPos chunk totalToRead
      let tFile1 := { tFile with currBlock := r.2, currPos := currPos + totalToRead }
      (Int.ofNat totalToRead, r.1,
        { fs with descTable := fun i => if i = fd.toNat then some tFile1 else fs.descTable i })

/-- The chunked copy loop of sfs_write: copy `chunk` bytes of `buf`
into block `blkId` at `blockPos`, then whole blocks following next
links; when a next link of 0 is met with bytes still to write, splice
the freshly allocated chain `firstNew` onto the tail (at most once).
Returns the disk and the id of the block holding the final position. -/
def writeLoop (d : Disk) (blkId blockPos : Nat) (buf : List Nat) (chunk : Nat) (firstNew : Nat) :
    Disk × Nat :=
  let d1 := memcpyToBlock d blkId blockPos (buf.take chunk)
  if (buf.drop chunk).length = 0 then (d1, blkId)
  else
    let nid := d1.next blkId
    if nid = 0 then
      let d2 := (d1.setNext blkId firstNew).setPrev firstNew blkId
      writeLoop d2 firstNew 0 (buf.drop chunk)
        (sizeMin BLOCK_DATA_SIZE (buf.drop chunk).length) 0
    else
      writeLoop d1 nid 0 (buf.drop chunk)
        (sizeMin BLOCK_DATA_SIZE (buf.drop chunk).length) firstNew
termination_by 2 * buf.length + (if chunk = 0 then 1 else 0)
decreasing_by
  all_goals simp only [sizeMin, BLOCK_DATA_SIZE, List.length_drop] at *
  all_goals repeat' split
  all_goals omega

/-- sfs_write: all-or-nothing write of `buf` at the current position.
The growth step allocates `(newAlloc - alloc) / 500` FILE blocks up
front (failing EFBIG/ENOSPC with no state change); the copy loop then
traverses the chain, splicing the new blocks at the old tail. -/
def sfs_write (fs : FS) (fd : Int) (buf : List Nat) : Int × FS :=
  if fd < 0 ∨ fd > OPEN_FILE_LIMIT then (-EBADF, fs)
  else
    match fs.descTable fd.toNat with
    | none => (-EBADF, fs)
    | some tFile =>
      let fileSize := (fs.disk.files tFile.fileEntryIdx).size
      let currPos := tFile.currPos
      let fileAllocSize := roundUp fileSize BLOCK_DATA_SIZE
      let endPos := buf.length + currPos
      let grow : Except Int (Nat × Disk) :=
        if endPos > fileAllocSize then
          let fileNewAllocSize := roundUp endPos BLOCK_DATA_SIZE
          if fileNewAllocSize > SFS_MAX_FILE_SIZE then .error (-EFBIG)
          else
            let addlBlocks := (fileNewAllocSize - fileAllocSize) / BLOCK_DATA_SIZE
            let r := allocateBlocks fs.disk addlBlocks SFS_BLOCK_TYPE_FILE
            if r.1 = 0 then .error (-ENOSPC) else .ok (r.1, r.2)
        else .ok (0, fs.disk)
      match grow with
      | .error e => (e, fs)
      | .ok fn =>
        let blockPos := currPos % BLOCK_DATA_SIZE
        let chunk := sizeMin (roundUp currPos BLOCK_DATA_SIZE - currPos) buf.length
        let r := writeLoop fn.2 tFile.currBlock blockPos buf chunk fn.1
        let tFile1 := { tFile with currBlock := r.2, currPos := endPos }
        let d3 :=
          if endPos > fileSize then
            r.1.setFile tFile.fileEntryIdx { r.1.files tFile.fileEntryIdx with size := endPos }
          else r.1
        (Int.ofNat buf.length,
          { fs with disk := d3,
                    descTable := fun i => if i = fd.toNat then some tFile1 else fs.descTable i })

/-- sfs_getpos: unimplemented in the reviewed source. -/
def sfs_getpos (_fs : FS) (_fd : Int) : Int := -ENOSYS

/-- sfs_seek: unimplemented in the reviewed source. -/
def sfs_seek (_fs : FS) (_fd : Int) (_delta : Int) : Int := -ENOSYS

/-- sfs_remove: scan for the first live matching entry; BUSY if a
v-node exists for it, else clear the entry and free its chain. -/
def sfs_remove (fs : FS) (name : List Nat) : Int × FS :=
  if name.length + 1 > SFS_FILE_NAME_SIZE_LIMIT then (-ENAMETOOLONG, fs)
  else if ¬ fs.mounted then (-ENOMEDIUM, fs)
  else
    match (List.range FILE_COUNT_LIMIT).find?
        (fun i => ((fs.disk.files i).firstBlock != 0) && (cstrOf (fs.disk.files i).name == name)) with
    | none => (-ENOENT, fs)
    | some i =>
      if (fs.openFileTable i).isSome then (-EBUSY, fs)
      else
        let firstB := (fs.disk.files i).firstBlock
        let d1 := fs.disk.setFile i { fs.disk.files i with firstBlock := 0 }
        (0, { fs with disk := freeBlocks d1 firstB d1.nBlocks })

/-- sfs_rename: unimplemented in the reviewed source. -/
def sfs_rename (_fs : FS) (_old _new : List Nat) : Int := -ENOSYS

/-- sfs_list: advance from the cookie slot to the next live entry;
returns (status, new cookie, name bytes).  Does not modify the state. -/
def sfs_list (fs : FS) (cookie : Nat) (filenameSpace : Nat) : Int × Nat × List Nat :=
  if filenameSpace = 0 then (-EINVAL, cookie, [])
  else if ¬ fs.mounted then (-ENOMEDIUM, cookie, [])
  else
    match (List.range FILE_COUNT_LIMIT).find?
        (fun i => decide (cookie ≤ i) && ((fs.disk.files i).firstBlock != 0)) with
    | some i =>
      let nm := cstrOf (fs.disk.files i).name
      if nm.length + 1 > filenameSpace then (-ENAMETOOLONG, cookie, [])
      else (0, i + 1, nm ++ [0])
    | none => (1, 0, [])

/-! ## The consistency checker (sfs-fsck.c)

The checker maps the image read-only and walks every list, marking a
bytemap (one code per block).  The command-line front end, verbose
diagnostics, and host I/O are not modelled; `sfs_fsck` returns the
exit status (0 = clean, 1 = at least one error).  The size check of
check_superblock compares `n_blocks * 512` with the image size, which
for images produced by this engine is `n_blocks * 512` by
construction, so it is not modelled separately. -/

def B_end_of_disk : Nat := 0x00
def B_unvisited : Nat := 0x01
def B_corrupt : Nat := 0x02
def B_super : Nat := 0x03
def B_free : Nat := 0x04
def B_rootdir : Nat := 0x05
def B_file0 : Nat := 0x06

/-- The on-disk type tag check_blocklist expects for a bytemap code. -/
def expectedTag (listType : Nat) : List Nat :=
  if listType = B_free then SFS_BLOCK_TYPE_FREE
  else if listType = B_rootdir then SFS_BLOCK_TYPE_DIR
  else SFS_BLOCK_TYPE_FILE

/-- check_blocklist (sfs-fsck.c): walk next links from `curId` marking
the bytemap.  Returns (status, bytemap, blocks walked).  Out-of-range,
circular and cross-list errors abort the walk; a wrong type tag marks
the block corrupt and continues; a prev-pointer mismatch reports and
continues.  `fuel` dominates the walk length (the bytemap marking
bounds every terminating walk by the block count). -/
def checkBlocklistLoop (d : Disk) (listType : Nat) :
    Nat → Nat → Nat → (Nat → Nat) → Nat → Nat → Nat × (Nat → Nat) × Nat
  | 0, _, _, bm, nAcc, _ => (1, bm, nAcc)
  | fuel + 1, curId, prevId, bm, nAcc, status =>
    if curId = 0 then (status, bm, nAcc)
    else if curId > d.nBlocks then (1, bm, nAcc)
    else if bm curId = listType then (1, bm, nAcc)
    else if bm curId ≠ B_unvisited then (1, bm, nAcc)
    else
      let typeOk := d.btype curId == expectedTag listType
      let bm1 := fun i => if i = curId then (if typeOk then listType else B_corrupt) else bm i
      let status1 := if typeOk then status else 1
      let status2 := if d.prev curId ≠ prevId then 1 else status1
      checkBlocklistLoop d listType fuel (d.next curId) curId bm1 (nAcc + 1) status2

/-- check_superblock: validate the magic, build the initial bytemap,
and walk the free list and the extended root-directory chain.  Returns
`none` on a fatal error (nonzero exit), else the bytemap. -/
def check_superblock (d : Disk) : Option (Nat → Nat) :=
  if d.magic ≠ SFS_DISK_MAGIC then none
  else
    let bm0 : Nat → Nat := fun i =>
      if i = 0 then B_super else if i < d.nBlocks then B_unvisited else B_end_of_disk
    let r1 := checkBlocklistLoop d B_free (d.nBlocks + 2) d.freelist 0 bm0 0 0
    if r1.1 ≠ 0 then none
    else
      let r2 := checkBlocklistLoop d B_rootdir (d.nBlocks + 2) d.nextRootdir 0 r1.2.1 0 0
      if r2.1 ≠ 0 then none else some r2.2.1

/-- The name validation of check_directory_entries: a live entry's
24-byte name field must hold exactly one non-NUL run, started at byte
0, terminated by NULs; at least one non-NUL, at least one NUL. -/
def nameScan : List Nat → Bool → Bool → Bool × Bool × Bool
  | [], sawNonnul, sawNul => (false, sawNonnul, sawNul)
  | c :: rest, sawNonnul, sawNul =>
    if c ≠ 0 then
      if sawNul then (true, sawNonnul, sawNul) else nameScan rest true sawNul
    else nameScan rest sawNonnul true

/-- True when the fsck name check reports an error for this name field. -/
def nameErr (name : List Nat) : Bool :=
  let r := nameScan name false false
  r.1 || !r.2.1 || !r.2.2

/-- One directory slot of check_directory_entries: skip unused slots;
check the name, walk the file chain under a fresh tag, and compare the
chain length to ceil(max(size,1)/500). -/
def checkDirEntryStep (d : Disk) (acc : Nat × (Nat → Nat) × Nat) (i : Nat) :
    Nat × (Nat → Nat) × Nat :=
  let status := acc.1
  let bm := acc.2.1
  let tag := acc.2.2
  let e := d.files i
  if e.firstBlock = 0 then (status, bm, tag)
  else
    let nerr : Nat := if nameErr e.name then 1 else 0
    let r := checkBlocklistLoop d tag (d.nBlocks + 2) e.firstBlock 0 bm 0 0
    let status1 := max status (max nerr r.1)
    let status2 :=
      if r.1 = 0 then
        let expNblocks := if e.size ≠ 0 then (e.size + BLOCK_DATA_SIZE - 1) / BLOCK_DATA_SIZE else 1
        if expNblocks ≠ r.2.2 then 1 else status1
      else status1
    let tag1 := (tag + 1) % 256
    (if tag1 = 0 then 1 else status2, r.2.1, tag1)

/-- check_root_directory restricted to the superblock's embedded
directory (the base implementation keeps next_rootdir = 0, and the
free/rootdir walks have already validated the chain). -/
def check_root_directory (d : Disk) (bm : Nat → Nat) : Nat × (Nat → Nat) :=
  let r := (List.range FILE_COUNT_LIMIT).foldl (checkDirEntryStep d) (0, bm, B_file0)
  (r.1, r.2.1)

/-- check_for_lost_blocks: any block still unvisited is an error. -/
def check_for_lost_blocks (d : Disk) (bm : Nat → Nat) : Nat :=
  if (List.range d.nBlocks).any (fun i => bm i == B_unvisited) then 1 else 0

/-- The fsck main routine: exit status when run on image `d`. -/
def sfs_fsck (d : Disk) : Nat :=
  match check_superblock d with
  | none => 1
  | some bm =>
    let r := check_root_directory d bm
    max r.1 (check_for_lost_blocks d r.2)

/-! ## Chains and abstractions used by the theorems -/

/-- `chainFrom d h c` says: following next links from id `h` visits
exactly the blocks of `c` in order and ends at the null id 0. -/
def chainFrom (d : Disk) : Nat → List Nat → Prop
  | h, [] => h = 0
  | h, a :: rest => h = a ∧ a ≠ 0 ∧ chainFrom d (d.next a) rest

instance instDecChainFrom (d : Disk) : (h : Nat) → (c : List Nat) → Decidable (chainFrom d h c)
  | h, [] => inferInstanceAs (Decidable (h = 0))
  | h, a :: rest =>
    have : Decidable (chainFrom d (d.next a) rest) := instDecChainFrom d (d.next a) rest
    inferInstanceAs (Decidable (h = a ∧ a ≠ 0 ∧ chainFrom d (d.next a) rest))

/-- Doubly-linked consistency of one block list `c` (spec I3/P4): the
head's prev is 0; every non-head block is pointed back at by its prev;
every non-tail block is pointed back at by its next. -/
def dllOk (d : Disk) (c : List Nat) : Prop :=
  (c = [] ∨ d.prev (c.headD 0) = 0) ∧
  (∀ b ∈ c, b = c.headD 0 ∨ d.next (d.prev b) = b) ∧
  (∀ b ∈ c, b = c.getLastD 0 ∨ d.prev (d.next b) = b)

instance (d : Disk) (c : List Nat) : Decidable (dllOk d c) := by
  unfold dllOk; infer_instance

/-- Byte `off` of the file contents laid out along chain `c`
(500 data bytes per block). -/
def chainByte (d : Disk) (c : List Nat) (off : Nat) : Nat :=
  d.data (c.getD (off / BLOCK_DATA_SIZE) 0) (off % BLOCK_DATA_SIZE)

/-- The block index within a file chain of the block the descriptor's
currBlock points at when the position is `pos`: the read/write loops
leave currBlock at the block holding byte pos - 1 (the block just
finished) when pos is a positive multiple of 500. -/
def posBlockIdx (pos : Nat) : Nat :=
  if pos = 0 then 0 else (pos - 1) / BLOCK_DATA_SIZE

/-- The engine state before any call: nothing mounted, empty tables. -/
def initFS : FS :=
  { disk := zeroDisk
    mounted := false
    openFileTable := fun _ => none
    descTable := fun _ => none }

/-- A state whose descriptor table, extended beyond its 32 real slots,
holds a (garbage) descriptor record at index 32: indices ≥ 32 of the
model's total function stand for the memory adjacent to the C array
openFileDescTable[OPEN_FILE_LIMIT]. -/
def fsBeyondTable : FS :=
  { initFS with descTable := fun i =>
      if i = 32 then some { fileEntryIdx := 0, startBlock := 1, currBlock := 1, currPos := 0 }
      else none }

/-- Number of open descriptors whose v-node reference is directory
index `i` (the claim P5 count). -/
def cntRefs (t : Nat → Option FileDesc) (i : Nat) : Nat :=
  (List.range OPEN_FILE_LIMIT).countP (fun fd =>
    match t fd with
    | some dsc => dsc.fileEntryIdx == i
    | none => false)

/-- The v-node refcount invariant (spec I7/P5): a v-node exists at
index i iff some descriptor references i, and then its refCount is
exactly the number of such descriptors. -/
def refInv (fs : FS) : Prop :=
  ∀ i : Nat,
    ((fs.openFileTable i).isSome ↔ 0 < cntRefs fs.descTable i) ∧
    (∀ mf, fs.openFileTable i = some mf → mf.refCount = cntRefs fs.descTable i)

/-- Auxiliary well-formedness carried through the induction: v-nodes
sit in the slot named by their own index, and no descriptor lives
beyond the 32 table slots. -/
def tablesWf (fs : FS) : Prop :=
  (∀ i mf, fs.openFileTable i = some mf → mf.fileEntryIdx = i) ∧
  (∀ fd, OPEN_FILE_LIMIT ≤ fd → fs.descTable fd = none) ∧
  refInv fs

/-- One API call, with its arguments (used to quantify over call
sequences). -/
inductive Op where
  | format (diskSize pagesize : Nat)
  | mount (pagesize : Nat)
  | unmount
  | openF (name : List Nat)
  | close (fd : Int)
  | read (fd : Int) (len : Nat)
  | write (fd : Int) (buf : List Nat)
  | remove (name : List Nat)
  | list (cookie cap : Nat)
  | getpos (fd : Int)
  | seek (fd : Int) (delta : Int)
  | rename (oldName newName : List Nat)

/-- The state after one API call (results discarded).  sfs_list,
sfs_getpos, sfs_seek and sfs_rename do not modify the engine state
(the last three are unimplemented stubs returning -ENOSYS). -/
def applyOp (fs : FS) : Op → FS
  | .format ds ps => (sfs_format fs ds ps).2
  | .mount ps => (sfs_mount fs ps).2
  | .unmount => (sfs_unmount fs).2
  | .openF nm => (sfs_open fs nm).2
  | .close fd => sfs_close fs fd
  | .read fd len => (sfs_read fs fd len).2.2
  | .write fd buf => (sfs_write fs fd buf).2
  | .remove nm => (sfs_remove fs nm).2
  | .list _ _ => fs
  | .getpos _ => fs
  | .seek _ _ => fs
  | .rename _ _ => fs

/-- The state after a sequence of API calls. -/
def applyOps (fs : FS) : List Op → FS
  | [] => fs
  | op :: ops => applyOps (applyOp fs op) ops

/-! Concrete scenario used by C1 and C2: a freshly formatted 4 KiB
volume (8 blocks), then open("a") which creates the file in block 1,
close, and remove("a"), which frees block 1 onto the non-empty free
list headed at block 2. -/

def fsAfterFormat : FS := (sfs_format initFS 4096 4096).2
def fsAfterOpen : FS := (sfs_open fsAfterFormat [97]).2
def fsAfterClose : FS := sfs_close fsAfterOpen 0
def fsAfterRemove : FS := (sfs_remove fsAfterClose [97]).2

/-! ## Theorems -/

/-- C1: the claimed invariant is FALSE on the code.  On a freshly
formatted 4 KiB volume, the successful sequence format; open("a");
close; remove("a") leaves the free list as the chain 1 → 2 → … → 7,
but doubly-linked consistency fails on it: freeBlocks splices the
freed chain onto the front of the free list without updating the old
head's prev pointer, so block 2 still has prev = 0 while sitting in
the middle of the list. -/
theorem remove_breaks_dll_consistency :
    (sfs_format initFS 4096 4096).1 = 0 ∧
    (sfs_open fsAfterFormat [97]).1 = 0 ∧
    (sfs_remove fsAfterClose [97]).1 = 0 ∧
    chainFrom fsAfterRemove.disk fsAfterRemove.disk.freelist [1, 2, 3, 4, 5, 6, 7] ∧
    fsAfterRemove.disk.next 1 = 2 ∧ fsAfterRemove.disk.prev 2 = 0 ∧
    ¬ dllOk fsAfterRemove.disk [1, 2, 3, 4, 5, 6, 7] := by
  decide

/-- C8: the claimed fd validation is FALSE on the code.  The guard in
sfs_close / sfs_read / sfs_write is `fd < 0 || fd > OPEN_FILE_LIMIT`,
so fd = 32 passes it although the descriptor table has only
OPEN_FILE_LIMIT = 32 slots (valid indices 0..31): the call then
accesses table index 32, one past the end of the C array.  In the
model (where index 32 stands for the adjacent out-of-bounds memory,
here holding garbage that looks like a descriptor) sfs_read and
sfs_write at fd = 32 do not return -EBADF, and sfs_close at fd = 32
writes to index 32. -/
theorem fd_guard_admits_32 :
    OPEN_FILE_LIMIT = 32 ∧
    (¬ ((32 : Int) < 0 ∨ (32 : Int) > (OPEN_FILE_LIMIT : Int))) ∧
    (sfs_read fsBeyondTable 32 5).1 = 0 ∧
    (sfs_write fsBeyondTable 32 []).1 = 0 ∧
    (sfs_close fsBeyondTable 32).descTable 32 = none ∧
    fsBeyondTable.descTable 32 ≠ none := by
  decide

/-- formatStep writes exactly the free-list header of its own block. -/
theorem formatStep_self (n : Nat) (d : Disk) (i : Nat) :
    (formatStep n d i).btype i = SFS_BLOCK_TYPE_FREE ∧
    (formatStep n d i).prev i = i - 1 ∧
    (formatStep n d i).next i = (if i + 1 = n then 0 else i + 1) := by
  simp [formatStep, Disk.setType, Disk.setPrev, Disk.setNext]

/-- formatStep leaves every other block's header untouched. -/
theorem formatStep_other (n : Nat) (d : Disk) (a i : Nat) (h : i ≠ a) :
    (formatStep n d a).btype i = d.btype i ∧
    (formatStep n d a).prev i = d.prev i ∧
    (formatStep n d a).next i = d.next i := by
  simp [formatStep, Disk.setType, Disk.setPrev, Disk.setNext, h]

/-- The format loop does not modify the superblock or any data area. -/
theorem formatFold_scalars (n : Nat) (l : List Nat) (d : Disk) :
    (l.foldl (formatStep n) d).magic = d.magic ∧
    (l.foldl (formatStep n) d).nBlocks = d.nBlocks ∧
    (l.foldl (formatStep n) d).freelist = d.freelist ∧
    (l.foldl (formatStep n) d).nextRootdir = d.nextRootdir ∧
    (l.foldl (formatStep n) d).files = d.files ∧
    (l.foldl (formatStep n) d).data = d.data := by
  induction l generalizing d with
  | nil => exact ⟨rfl, rfl, rfl, rfl, rfl, rfl⟩
  | cons a l ih => simpa only [List.foldl_cons] using ih (formatStep n d a)

/-- Block headers after the format loop: blocks in the processed range
carry the free-list threading, all others are untouched. -/
theorem formatFold_blocks (n : Nat) (l : List Nat) (d : Disk) (i : Nat) :
    (i ∈ l →
      (l.foldl (formatStep n) d).btype i = SFS_BLOCK_TYPE_FREE ∧
      (l.foldl (formatStep n) d).prev i = i - 1 ∧
      (l.foldl (formatStep n) d).next i = (if i + 1 = n then 0 else i + 1)) ∧
    (i ∉ l →
      (l.foldl (formatStep n) d).btype i = d.btype i ∧
      (l.foldl (formatStep n) d).prev i = d.prev i ∧
      (l.foldl (formatStep n) d).next i = d.next i) := by
  induction l generalizing d with
  | nil => simp
  | cons a l ih =>
    simp only [List.foldl_cons]
    constructor
    · intro hmem
      rcases List.mem_cons.mp hmem with ha | hl
      · subst ha
        by_cases hil : i ∈ l
        · exact (ih (formatStep n d i)).1 hil
        · have h2 := (ih (formatStep n d i)).2 hil
          have h3 := formatStep_self n d i
          exact ⟨h2.1.trans h3.1, h2.2.1.trans h3.2.1, h2.2.2.trans h3.2.2⟩
      · exact (ih (formatStep n d a)).1 hl
    · intro hmem
      have hia : i ≠ a := fun h => hmem (h ▸ List.mem_cons_self a l)
      have hil : i ∉ l := fun h => hmem (List.mem_cons_of_mem a h)
      have h2 := (ih (formatStep n d a)).2 hil
      have h3 := formatStep_other n d a i hia
      exact ⟨h2.1.trans h3.1, h2.2.1.trans h3.2.1, h2.2.2.trans h3.2.2⟩

/-- The image built by the success path of format. -/
theorem formatDisk_spec (n : Nat) :
    (formatDisk n).nBlocks = n ∧
    (formatDisk n).freelist = 1 ∧
    (formatDisk n).nextRootdir = 0 ∧
    ∀ i, 1 ≤ i → i < n →
      (formatDisk n).btype i = SFS_BLOCK_TYPE_FREE ∧
      (formatDisk n).prev i = i - 1 ∧
      (formatDisk n).next i = (if i + 1 = n then 0 else i + 1) := by
  unfold formatDisk
  have hs := formatFold_scalars n (List.range' 1 (n - 1))
    { zeroDisk with magic := SFS_DISK_MAGIC, nBlocks := n, freelist := 1 }
  refine ⟨hs.2.1, hs.2.2.1, hs.2.2.2.1.trans rfl, ?_⟩
  intro i h1 h2
  have hm : i ∈ List.range' 1 (n - 1) := by
    rw [List.mem_range'_1]; omega
  exact (formatFold_blocks n (List.range' 1 (n - 1)) _ i).1 hm

/-- C4: after a successful sfs_format(path, size) the superblock has
n_blocks = size/512, freelist = 1, next_rootdir = 0, and each block id
i in [1, n_blocks) is typed FREE with prev = i-1 and next = i+1,
except the last, whose next is 0. -/
theorem sfs_format_success_layout (fs : FS) (diskSize pagesize : Nat)
    (h : (sfs_format fs diskSize pagesize).1 = 0) :
    (sfs_format fs diskSize pagesize).2.disk.nBlocks = diskSize / 512 ∧
    (sfs_format fs diskSize pagesize).2.disk.freelist = 1 ∧
    (sfs_format fs diskSize pagesize).2.disk.nextRootdir = 0 ∧
    ∀ i, 1 ≤ i → i < diskSize / 512 →
      (sfs_format fs diskSize pagesize).2.disk.btype i = SFS_BLOCK_TYPE_FREE ∧
      (sfs_format fs diskSize pagesize).2.disk.prev i = i - 1 ∧
      (sfs_format fs diskSize pagesize).2.disk.next i =
        (if i + 1 = diskSize / 512 then 0 else i + 1) := by
  unfold sfs_format at h ⊢
  by_cases h1 : diskSize = 0 ∨ diskSize % pagesize ≠ 0
  · rw [if_pos h1] at h; simp [EINVAL] at h
  · rw [if_neg h1] at h ⊢
    by_cases h2 : diskSize > SFS_MAX_DISK_SIZE
    · rw [if_pos h2] at h; simp [EFBIG] at h
    · rw [if_neg h2] at h ⊢
      by_cases h3 : fs.mounted = true
      · rw [if_pos h3] at h; simp [EBUSY] at h
      · rw [if_neg h3] at h ⊢
        simpa only [SFS_BLOCK_SIZE] using formatDisk_spec (diskSize / 512)

/-- C4 witness: the 4 KiB scenario (S1): 8 blocks, freelist = 1,
block 1 has prev 0 / next 2, block 7 has prev 6 / next 0, all FREE. -/
theorem sfs_format_success_layout_witness :
    (sfs_format initFS 4096 4096).1 = 0 ∧
    ((sfs_format initFS 4096 4096).2.disk.nBlocks = 4096 / 512 ∧
     (sfs_format initFS 4096 4096).2.disk.freelist = 1 ∧
     (sfs_format initFS 4096 4096).2.disk.nextRootdir = 0 ∧
     ∀ i, 1 ≤ i → i < 4096 / 512 →
       (sfs_format initFS 4096 4096).2.disk.btype i = SFS_BLOCK_TYPE_FREE ∧
       (sfs_format initFS 4096 4096).2.disk.prev i = i - 1 ∧
       (sfs_format initFS 4096 4096).2.disk.next i =
         (if i + 1 = 4096 / 512 then 0 else i + 1)) :=
  ⟨by decide, sfs_format_success_layout initFS 4096 4096 (by decide)⟩

/-- sizeMin with a zero second argument. -/
theorem sizeMin_zero (a : Nat) : sizeMin a 0 = 0 := by
  simp [sizeMin]

/-- A zero-length read loop copies nothing and stays on its block. -/
theorem readLoop_zero (d : Disk) (b bp : Nat) : readLoop d b bp 0 0 = ([], b) := by
  rw [readLoop]; simp [readFromBlock]

/-- memcpy of zero bytes leaves the disk unchanged. -/
theorem memcpyToBlock_nil (d : Disk) (b off : Nat) : memcpyToBlock d b off [] = d := by
  unfold memcpyToBlock
  have h : (fun x i =>
      if x = b ∧ off ≤ i ∧ i < off + ([] : List Nat).length then ([] : List Nat).getD (i - off) 0
      else d.data x i) = d.data := by
    funext x i
    rw [if_neg]
    rintro ⟨_, h1, h2⟩
    simp only [List.length_nil, Nat.add_zero] at h2
    omega
  rw [h]

/-- A zero-length write loop leaves the disk unchanged and stays on
its block. -/
theorem writeLoop_nil (d : Disk) (b bp ch fn : Nat) :
    writeLoop d b bp [] ch fn = (d, b) := by
  rw [writeLoop]
  simp [memcpyToBlock_nil]

/-- File size never exceeds its own block-granular roundup. -/
theorem le_roundUp (a n : Nat) (hn : 0 < n) : a ≤ roundUp a n := by
  unfold roundUp
  by_cases h0 : a = 0
  · simp [h0]
  · rw [if_neg h0]
    have hd := Nat.div_add_mod (a + (n - 1)) n
    have hm : (a + (n - 1)) % n < n := Nat.mod_lt _ hn
    omega

/-- roundUp by a positive modulus is positive. -/
theorem roundUp_pos (a n : Nat) (hn : 0 < n) : 0 < roundUp a n := by
  unfold roundUp
  have h1 : 1 ≤ (if a = 0 then 1 else a) := by split <;> omega
  have hd := Nat.div_add_mod ((if a = 0 then 1 else a) + (n - 1)) n
  have hm : ((if a = 0 then 1 else a) + (n - 1)) % n < n := Nat.mod_lt _ hn
  rcases Nat.eq_zero_or_pos (((if a = 0 then 1 else a) + (n - 1)) / n) with h | h
  · omega
  · have := Nat.mul_le_mul_left n h
    omega

/-- C10: a zero-length read and a zero-length write on a valid open
descriptor both return 0 and leave the entire engine state (volume
bytes, directory entry, descriptor position and current block)
unchanged; in particular a zero-length write allocates nothing even
at end of file. -/
theorem zero_length_read_write_noop (fs : FS) (fd : Int) (tFile : FileDesc)
    (hfd0 : 0 ≤ fd)
    (hfd : fd < (OPEN_FILE_LIMIT : Int))
    (hdesc : fs.descTable fd.toNat = some tFile)
    (hpos : tFile.currPos ≤ (fs.disk.files tFile.fileEntryIdx).size) :
    sfs_read fs fd 0 = (0, [], fs) ∧
    sfs_write fs fd [] = (0, fs) := by
  have hguard : ¬ (fd < 0 ∨ fd > (OPEN_FILE_LIMIT : Int)) := by
    simp only [OPEN_FILE_LIMIT] at *
    omega
  constructor
  · unfold sfs_read
    rw [if_neg hguard, hdesc]
    dsimp only
    simp only [sizeMin_zero, readLoop_zero, Nat.add_zero, Prod.mk.injEq]
    refine ⟨by trivial, by trivial, ?_⟩
    refine FS.ext rfl rfl rfl ?_
    funext i
    dsimp only
    by_cases hi : i = fd.toNat
    · rw [if_pos hi, hi, hdesc]
    · rw [if_neg hi]
  · unfold sfs_write
    rw [if_neg hguard, hdesc]
    dsimp only
    simp only [List.length_nil, Nat.zero_add, List.take_nil, List.drop_nil, sizeMin_zero]
    have hgrow : ¬ (tFile.currPos >
        roundUp ((fs.disk.files tFile.fileEntryIdx).size) BLOCK_DATA_SIZE) := by
      have := le_roundUp ((fs.disk.files tFile.fileEntryIdx).size) BLOCK_DATA_SIZE (by decide)
      omega
    rw [if_neg hgrow]
    dsimp only
    simp only [writeLoop_nil]
    have hsz : ¬ (tFile.currPos > (fs.disk.files tFile.fileEntryIdx).size) := by omega
    rw [if_neg hsz]
    simp only [Prod.mk.injEq]
    refine ⟨by trivial, ?_⟩
    refine FS.ext rfl rfl rfl ?_
    funext i
    dsimp only
    by_cases hi : i = fd.toNat
    · rw [if_pos hi, hi, hdesc]
    · rw [if_neg hi]

/-- C10 witness: on the concrete state with file "a" open at
descriptor 0 (position 0), both zero-length calls are no-ops. -/
theorem zero_length_read_write_noop_witness :
    ((0 : Int) ≤ 0 ∧ (0 : Int) < (OPEN_FILE_LIMIT : Int) ∧
     fsAfterOpen.descTable (0 : Int).toNat =
       some { fileEntryIdx := 0, startBlock := 1, currBlock := 1, currPos := 0 } ∧
     (0 : Nat) ≤ (fsAfterOpen.disk.files 0).size) ∧
    (sfs_read fsAfterOpen 0 0 = (0, [], fsAfterOpen) ∧
     sfs_write fsAfterOpen 0 [] = (0, fsAfterOpen)) :=
  ⟨⟨by decide, by decide, by decide, by decide⟩,
   zero_length_read_write_noop fsAfterOpen 0
     { fileEntryIdx := 0, startBlock := 1, currBlock := 1, currPos := 0 }
     (by decide) (by decide) (by decide) (by decide)⟩

/-! ### Chain lemmas -/

/-- Every block on a chain has a nonzero id. -/
theorem chainFrom_ne_zero (d : Disk) :
    ∀ (c : List Nat) (h : Nat), chainFrom d h c → ∀ b ∈ c, b ≠ 0 := by
  intro c
  induction c with
  | nil => intro h _ b hb; cases hb
  | cons a l ih =>
    intro h hc b hb
    obtain ⟨-, ha, hrest⟩ := hc
    rcases List.mem_cons.mp hb with rfl | hb
    · exact ha
    · exact ih _ hrest b hb

/-- A chain only depends on the next links of its own blocks. -/
theorem chainFrom_congr (d d2 : Disk) :
    ∀ (c : List Nat) (h : Nat),
      (∀ b ∈ c, d2.next b = d.next b) → chainFrom d h c → chainFrom d2 h c := by
  intro c
  induction c with
  | nil => intro h _ hc; exact hc
  | cons a l ih =>
    intro h hnext hc
    obtain ⟨h1, ha, hrest⟩ := hc
    refine ⟨h1, ha, ?_⟩
    rw [hnext a (List.mem_cons_self a l)]
    exact ih _ (fun b hb => hnext b (List.mem_cons_of_mem a hb)) hrest

/-- Following the next link of the k-th chain block reaches the
(k+1)-th block, or 0 past the end. -/
theorem chainFrom_getD_next (d : Disk) :
    ∀ (c : List Nat) (h k : Nat), chainFrom d h c → k < c.length →
      d.next (c.getD k 0) = c.getD (k + 1) 0 := by
  intro c
  induction c with
  | nil => intro h k _ hk; simp at hk
  | cons a l ih =>
    intro h k hc hk
    obtain ⟨-, ha, hrest⟩ := hc
    cases k with
    | zero =>
      cases l with
      | nil =>
        simp only [List.getD_cons_zero]
        exact hrest
      | cons b l2 =>
        simp only [List.getD_cons_zero, List.getD_cons_succ]
        exact hrest.1
    | succ k2 =>
      simp only [List.getD_cons_succ]
      exact ih (d.next a) k2 hrest (by simpa using hk)

/-- Every suffix of a chain is a chain, rooted at the id the previous
block points at (or the null id 0 past the end). -/
theorem chainFrom_drop (d : Disk) :
    ∀ (c : List Nat) (h n : Nat), chainFrom d h c →
      chainFrom d (c.getD n 0) (c.drop n) := by
  intro c
  induction c with
  | nil =>
    intro h n hc
    simp only [List.drop_nil]
    show List.getD [] n 0 = 0
    simp
  | cons a l ih =>
    intro h n hc
    obtain ⟨-, ha, hrest⟩ := hc
    cases n with
    | zero =>
      simp only [List.getD_cons_zero, List.drop_zero]
      exact ⟨rfl, ha, hrest⟩
    | succ n2 =>
      simp only [List.getD_cons_succ, List.drop_succ_cons]
      exact ih (d.next a) n2 hrest

/-- An element read by getD inside the first n positions lands in
`take n`. -/
theorem getD_mem_take :
    ∀ (l : List Nat) (n k : Nat), k < n → k < l.length → l.getD k 0 ∈ l.take n := by
  intro l
  induction l with
  | nil => intro n k _ hk; simp at hk
  | cons a l ih =>
    intro n k hkn hk
    cases n with
    | zero => omega
    | succ n2 =>
      cases k with
      | zero => simp
      | succ k2 =>
        simp only [List.getD_cons_succ, List.take_succ_cons]
        exact List.mem_cons_of_mem a (ih n2 k2 (by omega) (by simpa using hk))

/-- The walk of allocateBlocks lands on the k-th free-list block when
the free list is long enough. -/
theorem findLastAlloc_some (d : Disk) :
    ∀ (k : Nat) (c : List Nat) (a : Nat),
      chainFrom d a (a :: c) → k < (a :: c).length →
      findLastAlloc d a k = some ((a :: c).getD k 0) := by
  intro k
  induction k with
  | zero => intro c a _ _; simp [findLastAlloc]
  | succ k2 ih =>
    intro c a hc hk
    obtain ⟨-, ha, hrest⟩ := hc
    cases c with
    | nil => simp at hk
    | cons b c2 =>
      have hb : d.next a = b := hrest.1
      unfold findLastAlloc
      rw [hb, if_neg hrest.2.1]
      simp only [List.getD_cons_succ]
      exact ih c2 b (hb ▸ hrest) (by simpa using hk)

/-- The walk of allocateBlocks runs out when the free list is shorter
than requested. -/
theorem findLastAlloc_short (d : Disk) :
    ∀ (c : List Nat) (a k : Nat),
      chainFrom d a (a :: c) → (a :: c).length ≤ k →
      findLastAlloc d a k = none := by
  intro c
  induction c with
  | nil =>
    intro a k hc hk
    obtain ⟨-, ha, hrest⟩ := hc
    cases k with
    | zero => simp at hk
    | succ k2 =>
      unfold findLastAlloc
      rw [if_pos (show d.next a = 0 from hrest)]
  | cons b c2 ih =>
    intro a k hc hk
    obtain ⟨-, ha, hrest⟩ := hc
    have hb : d.next a = b := hrest.1
    cases k with
    | zero => simp at hk
    | succ k2 =>
      unfold findLastAlloc
      rw [hb, if_neg hrest.2.1]
      exact ih b k2 (hb ▸ hrest) (by simpa using hk)

/-- The retag loop of allocateBlocks rewrites exactly the type tags of
the chain it walks. -/
theorem retagLoop_eq (tag : List Nat) :
    ∀ (c : List Nat) (a : Nat) (d : Disk) (fuel : Nat),
      chainFrom d a (a :: c) → (a :: c).length ≤ fuel →
      retagLoop d a tag fuel =
        { d with btype := fun b => if b ∈ a :: c then tag else d.btype b } := by
  intro c
  induction c with
  | nil =>
    intro a d fuel hc hf
    obtain ⟨-, ha, hrest⟩ := hc
    cases fuel with
    | zero => simp at hf
    | succ f =>
      unfold retagLoop
      rw [if_pos (show (d.setType a tag).next a = 0 from hrest)]
      refine Disk.ext rfl rfl rfl rfl rfl ?_ rfl rfl rfl
      funext b
      simp [Disk.setType]
  | cons bb c2 ih =>
    intro a d fuel hc hf
    obtain ⟨-, ha, hrest⟩ := hc
    have hb : d.next a = bb := hrest.1
    cases fuel with
    | zero => simp at hf
    | succ f =>
      unfold retagLoop
      rw [if_neg (show ¬ (d.setType a tag).next a = 0 by
        show ¬ d.next a = 0
        rw [hb]; exact hrest.2.1)]
      rw [show (d.setType a tag).next a = bb from hb]
      have hc2 : chainFrom (d.setType a tag) bb (bb :: c2) :=
        chainFrom_congr d (d.setType a tag) _ _ (fun b _ => rfl) (hb ▸ hrest)
      rw [ih bb (d.setType a tag) f hc2 (by simpa using hf)]
      refine Disk.ext rfl rfl rfl rfl rfl ?_ rfl rfl rfl
      funext b
      dsimp only
      by_cases h1 : b ∈ bb :: c2
      · rw [if_pos h1, if_pos (List.mem_cons_of_mem a h1)]
      · by_cases h2 : b = a
        · rw [if_neg h1, if_pos (by rw [h2]; exact List.mem_cons_self a (bb :: c2))]
          show (if b = a then tag else d.btype b) = tag
          rw [if_pos h2]
        · rw [if_neg h1, if_neg (by
            intro hmem
            rcases List.mem_cons.mp hmem with h | h
            · exact h2 h
            · exact h1 h)]
          show (if b = a then tag else d.btype b) = d.btype b
          rw [if_neg h2]

/-- getD past the end of the list yields the default. -/
theorem getD_of_length_le :
    ∀ (l : List Nat) (n : Nat), l.length ≤ n → l.getD n 0 = 0 := by
  intro l
  induction l with
  | nil => intro n _; simp
  | cons a l ih =>
    intro n hn
    cases n with
    | zero => simp at hn
    | succ m => simp only [List.getD_cons_succ]; exact ih m (by simpa using hn)

/-- getD inside the list is a member. -/
theorem getD_mem (l : List Nat) (k : Nat) (hk : k < l.length) : l.getD k 0 ∈ l := by
  have := getD_mem_take l l.length k hk hk
  rwa [List.take_length] at this

/-- Cutting a chain after its n-th block: if a disk agrees with `d` on
every next link except the (n-1)-th chain block, whose next it nulls,
then the first n blocks form a chain on the new disk. -/
theorem chainFrom_take_cut (d d1 : Disk) :
    ∀ (ids : List Nat) (h n : Nat),
      chainFrom d h ids → ids.Nodup → n ≠ 0 → n ≤ ids.length →
      (∀ b, b ≠ ids.getD (n - 1) 0 → d1.next b = d.next b) →
      d1.next (ids.getD (n - 1) 0) = 0 →
      chainFrom d1 h (ids.take n) := by
  intro ids
  induction ids with
  | nil =>
    intro h n _ _ hn0 hlen _ _
    simp at hlen
    omega
  | cons a l ih =>
    intro h n hc hnd hn0 hlen hother hlast
    obtain ⟨h1, ha, hrest⟩ := hc
    cases n with
    | zero => exact absurd rfl hn0
    | succ m =>
      cases m with
      | zero =>
        simp only [List.take_succ_cons, List.take_zero]
        refine ⟨h1, ha, ?_⟩
        show d1.next a = 0
        simpa using hlast
      | succ m2 =>
        simp only [List.take_succ_cons]
        have hm : m2 < l.length := by
          simp only [List.length_cons] at hlen
          omega
        have hmem : l.getD m2 0 ∈ l := getD_mem l m2 hm
        have hne : a ≠ l.getD m2 0 := fun he => (List.nodup_cons.mp hnd).1 (he ▸ hmem)
        refine ⟨h1, ha, ?_⟩
        rw [hother a (by simpa using hne)]
        exact ih (d.next a) (m2 + 1) hrest (List.nodup_cons.mp hnd).2 (by omega)
          (by omega) (fun b hb => hother b (by simpa using hb)) (by simpa using hlast)

/-- allocateBlocks when it takes the whole free list: the free list
head becomes 0 and exactly the old free blocks are retagged. -/
theorem allocateBlocks_eq_all (d : Disk) (n : Nat) (tag : List Nat) (ids : List Nat)
    (hch : chainFrom d d.freelist ids) (hn0 : n ≠ 0) (hlen : n = ids.length) :
    allocateBlocks d n tag =
      (d.freelist,
       { d with freelist := 0, btype := fun b => if b ∈ ids then tag else d.btype b }) := by
  cases ids with
  | nil => rw [hlen] at hn0; exact absurd rfl hn0
  | cons a l =>
    obtain ⟨h1, ha, hrest⟩ := hch
    have hch2 : chainFrom d a (a :: l) := ⟨rfl, ha, hrest⟩
    unfold allocateBlocks
    rw [if_neg (by push_neg; exact ⟨by rw [h1]; exact ha, hn0⟩)]
    have hfl : findLastAlloc d d.freelist (n - 1) = some ((a :: l).getD (n - 1) 0) := by
      rw [h1]
      exact findLastAlloc_some d (n - 1) l a hch2
        (by simp only [List.length_cons] at hlen ⊢; omega)
    dsimp only
    rw [hfl]
    dsimp only
    have hn1 : n - 1 + 1 = n := Nat.succ_pred_eq_of_pos (Nat.pos_of_ne_zero hn0)
    have hnf : d.next ((a :: l).getD (n - 1) 0) = 0 := by
      rw [chainFrom_getD_next d (a :: l) d.freelist (n - 1) ⟨h1, ha, hrest⟩
        (by simp only [List.length_cons] at hlen ⊢; omega), hn1, hlen]
      exact getD_of_length_le (a :: l) (a :: l).length (le_refl _)
    rw [hnf, if_neg (by simp)]
    have hch3 : chainFrom (d.setFreelist 0) a (a :: l) :=
      chainFrom_congr d (d.setFreelist 0) (a :: l) a (fun b _ => rfl) hch2
    rw [h1, retagLoop_eq tag l a (d.setFreelist 0) n hch3 (by rw [hlen])]
    rfl

/-- allocateBlocks when part of the free list remains: the first n
free blocks are detached and retagged, the residual head's prev is
nulled and becomes the new free list head. -/
theorem allocateBlocks_eq_part (d : Disk) (n : Nat) (tag : List Nat) (ids : List Nat)
    (hch : chainFrom d d.freelist ids) (hnd : ids.Nodup) (hn0 : n ≠ 0)
    (hlen : n < ids.length) :
    allocateBlocks d n tag =
      (d.freelist,
       { d with
           freelist := ids.getD n 0,
           prev := fun b => if b = ids.getD n 0 then 0 else d.prev b,
           next := fun b => if b = ids.getD (n - 1) 0 then 0 else d.next b,
           btype := fun b => if b ∈ ids.take n then tag else d.btype b }) := by
  cases ids with
  | nil => simp at hlen
  | cons a l =>
    obtain ⟨h1, ha, hrest⟩ := hch
    have hch2 : chainFrom d a (a :: l) := ⟨rfl, ha, hrest⟩
    unfold allocateBlocks
    rw [if_neg (by push_neg; exact ⟨by rw [h1]; exact ha, hn0⟩)]
    have hfl : findLastAlloc d d.freelist (n - 1) = some ((a :: l).getD (n - 1) 0) := by
      rw [h1]
      exact findLastAlloc_some d (n - 1) l a hch2
        (by simp only [List.length_cons] at hlen ⊢; omega)
    dsimp only
    rw [hfl]
    dsimp only
    have hn1 : n - 1 + 1 = n := Nat.succ_pred_eq_of_pos (Nat.pos_of_ne_zero hn0)
    have hnf : d.next ((a :: l).getD (n - 1) 0) = (a :: l).getD n 0 := by
      rw [chainFrom_getD_next d (a :: l) d.freelist (n - 1) ⟨h1, ha, hrest⟩
        (by simp only [List.length_cons] at hlen ⊢; omega), hn1]
    have hnz : (a :: l).getD n 0 ≠ 0 :=
      chainFrom_ne_zero d (a :: l) d.freelist ⟨h1, ha, hrest⟩ _ (getD_mem (a :: l) n hlen)
    rw [hnf, if_pos hnz]
    have hcut : chainFrom
        ((((d.setPrev ((a :: l).getD n 0) 0).setNext ((a :: l).getD (n - 1) 0) 0).setFreelist
          ((a :: l).getD n 0))) a ((a :: l).take n) := by
      refine chainFrom_take_cut d _ (a :: l) a n hch2 hnd hn0 (by omega) ?_ ?_
      · intro b hb
        show (if b = (a :: l).getD (n - 1) 0 then 0 else d.next b) = d.next b
        rw [if_neg hb]
      · show (if (a :: l).getD (n - 1) 0 = (a :: l).getD (n - 1) 0 then 0 else _) = 0
        rw [if_pos rfl]
    have htk : ((a :: l).take n).length ≤ n := by
      simp [List.length_take]
    cases htake : (a :: l).take n with
    | nil =>
      exfalso
      have : ((a :: l).take n).length = n := by
        rw [List.length_take]
        simp only [List.length_cons] at hlen ⊢
        omega
      rw [htake] at this
      simp at this
      omega
    | cons a2 l2 =>
      have ha2 : a2 = a := by
        have hta : (a :: l).take n = a :: (l.take (n - 1)) := by
          cases n with
          | zero => exact absurd rfl hn0
          | succ m => simp [List.take_succ_cons]
        rw [hta] at htake
        exact ((List.cons.injEq _ _ _ _).mp htake).1.symm
      subst ha2
      rw [htake] at hcut htk
      rw [h1]
      rw [retagLoop_eq tag l2 a2 _ n hcut htk]
      rw [← htake]
      rfl

/-- allocateBlocks failure: too few free blocks, or n = 0, leaves the
disk untouched (bit for bit) and returns 0. -/
theorem allocateBlocks_fail (d : Disk) (n : Nat) (tag : List Nat) (ids : List Nat)
    (hch : chainFrom d d.freelist ids) (h : ids.length < n ∨ n = 0) :
    allocateBlocks d n tag = (0, d) := by
  unfold allocateBlocks
  rcases h with hlt | rfl
  · cases ids with
    | nil => rw [if_pos (Or.inl (show d.freelist = 0 from hch))]
    | cons a l =>
      obtain ⟨h1, ha, hrest⟩ := hch
      by_cases hz : d.freelist = 0 ∨ n = 0
      · rw [if_pos hz]
      · rw [if_neg hz]
        have hnone : findLastAlloc d d.freelist (n - 1) = none := by
          rw [h1]
          exact findLastAlloc_short d l a (n - 1) ⟨rfl, ha, hrest⟩
            (by simp only [List.length_cons] at hlt ⊢; omega)
        dsimp only
        rw [hnone]
  · rw [if_pos (Or.inr rfl)]

/-- C3: allocateBlocks(n, tag) is all-or-nothing.  With the free list
being the chain `ids`: if n = 0 or fewer than n blocks are free it
returns 0 with the whole disk bit-for-bit unchanged; otherwise it
returns the old free-list head, the first n free blocks form the
detached chain (the last one's next nulled) all retagged to `tag`,
no other block's type changes, and the residual free list is the
remaining blocks in their old order with the new head's prev nulled. -/
theorem allocateBlocks_all_or_nothing (d : Disk) (n : Nat) (tag : List Nat)
    (ids : List Nat)
    (hch : chainFrom d d.freelist ids) (hnd : ids.Nodup) :
    ((n = 0 ∨ ids.length < n) → allocateBlocks d n tag = (0, d)) ∧
    (n ≠ 0 → n ≤ ids.length →
      ((allocateBlocks d n tag).1 = d.freelist ∧
       chainFrom (allocateBlocks d n tag).2 d.freelist (ids.take n) ∧
       (allocateBlocks d n tag).2.next (ids.getD (n - 1) 0) = 0 ∧
       (∀ b ∈ ids.take n, (allocateBlocks d n tag).2.btype b = tag) ∧
       (∀ b, b ∉ ids.take n → (allocateBlocks d n tag).2.btype b = d.btype b) ∧
       (allocateBlocks d n tag).2.freelist = ids.getD n 0 ∧
       chainFrom (allocateBlocks d n tag).2 (ids.getD n 0) (ids.drop n) ∧
       (n < ids.length → (allocateBlocks d n tag).2.prev (ids.getD n 0) = 0) ∧
       (allocateBlocks d n tag).2.data = d.data ∧
       (allocateBlocks d n tag).2.files = d.files)) := by
  constructor
  · intro h
    exact allocateBlocks_fail d n tag ids hch h.symm
  · intro hn0 hle
    have hn1 : n - 1 + 1 = n := Nat.succ_pred_eq_of_pos (Nat.pos_of_ne_zero hn0)
    rcases Nat.lt_or_ge n ids.length with hlt | hge
    · rw [allocateBlocks_eq_part d n tag ids hch hnd hn0 hlt]
      have hlastmem : ids.getD (n - 1) 0 ∈ ids.take n :=
        getD_mem_take ids n (n - 1) (by omega) (by omega)
      have hdisj := List.disjoint_take_drop hnd (le_refl n)
      refine ⟨rfl, ?_, ?_, ?_, ?_, rfl, ?_, ?_, rfl, rfl⟩
      · refine chainFrom_take_cut d _ ids d.freelist n hch hnd hn0 (by omega) ?_ ?_
        · intro b hb
          show (if b = ids.getD (n - 1) 0 then 0 else d.next b) = d.next b
          rw [if_neg hb]
        · show (if ids.getD (n - 1) 0 = ids.getD (n - 1) 0 then 0 else _) = 0
          rw [if_pos rfl]
      · show (if ids.getD (n - 1) 0 = ids.getD (n - 1) 0 then 0 else _) = 0
        rw [if_pos rfl]
      · intro b hb
        show (if b ∈ ids.take n then tag else d.btype b) = tag
        rw [if_pos hb]
      · intro b hb
        show (if b ∈ ids.take n then tag else d.btype b) = d.btype b
        rw [if_neg hb]
      · refine chainFrom_congr d _ (ids.drop n) (ids.getD n 0) ?_
          (chainFrom_drop d ids d.freelist n hch)
        intro b hb
        show (if b = ids.getD (n - 1) 0 then 0 else d.next b) = d.next b
        rw [if_neg ?_]
        intro he
        rw [he] at hb
        exact hdisj hlastmem hb
      · intro _
        show (if ids.getD n 0 = ids.getD n 0 then 0 else _) = 0
        rw [if_pos rfl]
    · have heq : n = ids.length := by omega
      rw [allocateBlocks_eq_all d n tag ids hch hn0 heq]
      refine ⟨rfl, ?_, ?_, ?_, ?_, ?_, ?_, ?_, rfl, rfl⟩
      · rw [heq, List.take_length]
        exact chainFrom_congr d _ ids d.freelist (fun b _ => rfl) hch
      · show d.next (ids.getD (n - 1) 0) = 0
        rw [chainFrom_getD_next d ids d.freelist (n - 1) hch (by omega), hn1, heq]
        exact getD_of_length_le ids ids.length (le_refl _)
      · intro b hb
        rw [heq, List.take_length] at hb
        show (if b ∈ ids then tag else d.btype b) = tag
        rw [if_pos hb]
      · intro b hb
        rw [heq, List.take_length] at hb
        show (if b ∈ ids then tag else d.btype b) = d.btype b
        rw [if_neg hb]
      · exact (getD_of_length_le ids n (le_of_eq heq.symm)).symm
      · rw [heq, List.drop_length]
        show ids.getD ids.length 0 = 0
        exact getD_of_length_le ids ids.length (le_refl _)
      · intro hlt2
        exact absurd heq (Nat.ne_of_lt hlt2)

/-- C3 witness: allocating 2 blocks from the freshly formatted 4 KiB
volume (free list 1..7). -/
theorem allocateBlocks_all_or_nothing_witness :
    chainFrom fsAfterFormat.disk fsAfterFormat.disk.freelist [1, 2, 3, 4, 5, 6, 7] ∧
    List.Nodup [1, 2, 3, 4, 5, 6, 7] ∧
    (allocateBlocks fsAfterFormat.disk 2 SFS_BLOCK_TYPE_FILE).1 =
      fsAfterFormat.disk.freelist ∧
    (allocateBlocks fsAfterFormat.disk 2 SFS_BLOCK_TYPE_FILE).2.freelist =
      [1, 2, 3, 4, 5, 6, 7].getD 2 0 :=
  ⟨by decide, by decide,
   (((allocateBlocks_all_or_nothing fsAfterFormat.disk 2 SFS_BLOCK_TYPE_FILE
      [1, 2, 3, 4, 5, 6, 7] (by decide) (by decide)).2 (by decide) (by decide))).1,
   (((allocateBlocks_all_or_nothing fsAfterFormat.disk 2 SFS_BLOCK_TYPE_FILE
      [1, 2, 3, 4, 5, 6, 7] (by decide) (by decide)).2 (by decide) (by decide))).2.2.2.2.2.1⟩

/-- The default-carrying last element of a chain list is a member of
the list extended by the default. -/
theorem getLastD_mem_cons :
    ∀ (l : List Nat) (a : Nat), l.getLastD a ∈ a :: l := by
  intro l
  induction l with
  | nil => intro a; exact List.mem_cons_self a []
  | cons b l ih =>
    intro a
    rw [List.getLastD_cons]
    exact List.mem_cons_of_mem a (ih b)

/-- The free loop of freeBlocks retypes exactly the chain it walks and
reports the chain's last block. -/
theorem freeLoop_eq :
    ∀ (c : List Nat) (a : Nat) (d : Disk) (fuel : Nat),
      chainFrom d a (a :: c) → (a :: c).length ≤ fuel →
      freeLoop d a fuel =
        ({ d with btype := fun b =>
            if b ∈ a :: c then SFS_BLOCK_TYPE_FREE else d.btype b },
         c.getLastD a) := by
  intro c
  induction c with
  | nil =>
    intro a d fuel hc hf
    obtain ⟨-, ha, hrest⟩ := hc
    cases fuel with
    | zero => simp at hf
    | succ f =>
      unfold freeLoop
      rw [if_pos (show (d.setType a SFS_BLOCK_TYPE_FREE).next a = 0 from hrest)]
      refine Prod.ext ?_ rfl
      show d.setType a SFS_BLOCK_TYPE_FREE = _
      refine Disk.ext rfl rfl rfl rfl rfl ?_ rfl rfl rfl
      funext b
      simp [Disk.setType]
  | cons bb c2 ih =>
    intro a d fuel hc hf
    obtain ⟨-, ha, hrest⟩ := hc
    have hb : d.next a = bb := hrest.1
    cases fuel with
    | zero => simp at hf
    | succ f =>
      unfold freeLoop
      rw [if_neg (show ¬ (d.setType a SFS_BLOCK_TYPE_FREE).next a = 0 by
        show ¬ d.next a = 0
        rw [hb]; exact hrest.2.1)]
      rw [show (d.setType a SFS_BLOCK_TYPE_FREE).next a = bb from hb]
      have hc2 : chainFrom (d.setType a SFS_BLOCK_TYPE_FREE) bb (bb :: c2) :=
        chainFrom_congr d (d.setType a SFS_BLOCK_TYPE_FREE) _ _ (fun b _ => rfl) (hb ▸ hrest)
      rw [ih bb (d.setType a SFS_BLOCK_TYPE_FREE) f hc2 (by simpa using hf)]
      rw [List.getLastD_cons]
      refine Prod.ext ?_ rfl
      show _ = _
      refine Disk.ext rfl rfl rfl rfl rfl ?_ rfl rfl rfl
      funext b
      dsimp only
      by_cases h1 : b ∈ bb :: c2
      · rw [if_pos h1, if_pos (List.mem_cons_of_mem a h1)]
      · by_cases h2 : b = a
        · rw [if_neg h1, if_pos (by rw [h2]; exact List.mem_cons_self a (bb :: c2))]
          show (if b = a then SFS_BLOCK_TYPE_FREE else d.btype b) = SFS_BLOCK_TYPE_FREE
          rw [if_pos h2]
        · rw [if_neg h1, if_neg (by
            intro hmem
            rcases List.mem_cons.mp hmem with h | h
            · exact h2 h
            · exact h1 h)]
          show (if b = a then SFS_BLOCK_TYPE_FREE else d.btype b) = d.btype b
          rw [if_neg h2]

/-- freeBlocks on a chain whose head has no predecessor: every chain
block becomes FREE, the chain's last block is linked to the old free
list head, and the chain head becomes the free list head.  (Note what
is absent: the old free-list head's prev is NOT updated.) -/
theorem freeBlocks_eq (d : Disk) (first : Nat) (c : List Nat) (fuel : Nat)
    (hch : chainFrom d first (first :: c)) (hprev : d.prev first = 0)
    (hfuel : (first :: c).length ≤ fuel) :
    freeBlocks d first fuel =
      { d with
          freelist := first,
          btype := fun b =>
            if b ∈ first :: c then SFS_BLOCK_TYPE_FREE else d.btype b,
          next := fun b =>
            if b = c.getLastD first then d.freelist else d.next b } := by
  unfold freeBlocks
  rw [if_neg (show ¬ d.prev first ≠ 0 from fun h => h hprev)]
  dsimp only
  rw [freeLoop_eq c first d fuel hch hfuel]
  rfl

/-- Relinking the last block of a chain onto the head of a second
chain concatenates them. -/
theorem chainFrom_tail_relink (d2 dold : Disk) :
    ∀ (c1 : List Nat) (a : Nat) (c2 : List Nat) (g : Nat),
      chainFrom dold a (a :: c1) →
      (a :: c1).Nodup →
      (∀ b ∈ a :: c1, b ≠ c1.getLastD a → d2.next b = dold.next b) →
      d2.next (c1.getLastD a) = g →
      chainFrom d2 g c2 →
      chainFrom d2 a ((a :: c1) ++ c2) := by
  intro c1
  induction c1 with
  | nil =>
    intro a c2 g hc hnd hsame hlast hc2
    obtain ⟨-, ha, -⟩ := hc
    refine ⟨rfl, ha, ?_⟩
    rw [show ([] : List Nat).getLastD a = a from rfl] at hlast
    rw [hlast]
    exact hc2
  | cons bb c1x ih =>
    intro a c2 g hc hnd hsame hlast hc2
    obtain ⟨-, ha, hrest⟩ := hc
    have hb : dold.next a = bb := hrest.1
    refine ⟨rfl, ha, ?_⟩
    have hane : a ≠ (bb :: c1x).getLastD a := by
      rw [List.getLastD_cons]
      intro he
      exact (List.nodup_cons.mp hnd).1 (he ▸ getLastD_mem_cons c1x bb)
    rw [hsame a (List.mem_cons_self _ _) hane, hb]
    refine ih bb c2 g (hb ▸ hrest) (List.nodup_cons.mp hnd).2 ?_ ?_ hc2
    · intro b hbm hbne
      refine hsame b (List.mem_cons_of_mem a hbm) ?_
      rw [List.getLastD_cons]
      exact hbne
    · rw [List.getLastD_cons] at hlast
      exact hlast

/-- C7: sfs_remove.  With the name lookup finding index `idx`
(hypothesis hfind; `none` means no live entry matches): a missing name
yields -ENOENT with the state untouched; an open file (v-node present)
yields -EBUSY with the state untouched byte for byte; otherwise the
entry's first_block is zeroed, every block of the file's chain is
retyped FREE, and the whole chain is returned to the front of the free
list, returning 0. -/
theorem sfs_remove_spec (fs : FS) (nm : List Nat)
    (hname : ¬ (nm.length + 1 > SFS_FILE_NAME_SIZE_LIMIT))
    (hmnt : fs.mounted = true) :
    (((List.range FILE_COUNT_LIMIT).find?
        (fun i => ((fs.disk.files i).firstBlock != 0) &&
          (cstrOf (fs.disk.files i).name == nm)) = none) →
      sfs_remove fs nm = (-ENOENT, fs)) ∧
    (∀ idx,
      ((List.range FILE_COUNT_LIMIT).find?
        (fun i => ((fs.disk.files i).firstBlock != 0) &&
          (cstrOf (fs.disk.files i).name == nm)) = some idx) →
      (((fs.openFileTable idx).isSome → sfs_remove fs nm = (-EBUSY, fs)) ∧
       (∀ (ids freeIds : List Nat),
         fs.openFileTable idx = none →
         chainFrom fs.disk ((fs.disk.files idx).firstBlock) ids →
         ids.Nodup →
         ids ≠ [] →
         fs.disk.prev ((fs.disk.files idx).firstBlock) = 0 →
         ids.length ≤ fs.disk.nBlocks →
         chainFrom fs.disk fs.disk.freelist freeIds →
         (∀ b ∈ ids, b ∉ freeIds) →
         ((sfs_remove fs nm).1 = 0 ∧
          ((sfs_remove fs nm).2.disk.files idx).firstBlock = 0 ∧
          (∀ b ∈ ids, (sfs_remove fs nm).2.disk.btype b = SFS_BLOCK_TYPE_FREE) ∧
          (sfs_remove fs nm).2.disk.freelist = (fs.disk.files idx).firstBlock ∧
          chainFrom (sfs_remove fs nm).2.disk
            ((fs.disk.files idx).firstBlock) (ids ++ freeIds))))) := by
  have hm2 : ¬ (¬ fs.mounted = true) := fun h => h hmnt
  constructor
  · intro hnone
    unfold sfs_remove
    rw [if_neg hname, if_neg hm2, hnone]
  · intro idx hfind
    constructor
    · intro hopen
      unfold sfs_remove
      rw [if_neg hname, if_neg hm2, hfind]
      dsimp only
      rw [if_pos hopen]
    · intro ids freeIds hnone hch hnd hne hprev hfuel hfree hdisj
      unfold sfs_remove
      rw [if_neg hname, if_neg hm2, hfind]
      dsimp only
      rw [if_neg (show ¬ (fs.openFileTable idx).isSome = true by rw [hnone]; simp)]
      cases ids with
      | nil => exact absurd rfl hne
      | cons a tl =>
        have hfb : (fs.disk.files idx).firstBlock = a := hch.1
        set d1 := fs.disk.setFile idx
          { fs.disk.files idx with firstBlock := 0 } with hd1
        have hch1 : chainFrom d1 ((fs.disk.files idx).firstBlock) (a :: tl) :=
          chainFrom_congr fs.disk d1 _ _ (fun b _ => rfl) hch
        have hprev1 : d1.prev ((fs.disk.files idx).firstBlock) = 0 := hprev
        have hfb2 : freeBlocks d1 ((fs.disk.files idx).firstBlock) d1.nBlocks =
            { d1 with
                freelist := (fs.disk.files idx).firstBlock,
                btype := fun b =>
                  if b ∈ (fs.disk.files idx).firstBlock :: tl then SFS_BLOCK_TYPE_FREE
                  else d1.btype b,
                next := fun b =>
                  if b = tl.getLastD ((fs.disk.files idx).firstBlock) then d1.freelist
                  else d1.next b } := by
          rw [hfb] at hch1 hprev1 ⊢
          exact freeBlocks_eq d1 a tl d1.nBlocks hch1 hprev1
            (by simpa [List.length_cons] using hfuel)
        rw [hfb2]
        refine ⟨rfl, ?_, ?_, rfl, ?_⟩
        · show (if idx = idx then _ else fs.disk.files idx).firstBlock = 0
          rw [if_pos rfl]
        · intro b hb
          rw [← hfb] at hb
          show (if b ∈ (fs.disk.files idx).firstBlock :: tl then _ else _) =
            SFS_BLOCK_TYPE_FREE
          rw [if_pos hb]
        · show chainFrom _ ((fs.disk.files idx).firstBlock) ((a :: tl) ++ freeIds)
          rw [hfb]
          have hlastmem : tl.getLastD a ∈ a :: tl := getLastD_mem_cons tl a
          refine chainFrom_tail_relink _ fs.disk tl a freeIds fs.disk.freelist
            (hfb ▸ hch) hnd ?_ ?_ ?_
          · intro b hbm hbne
            show (if b = tl.getLastD a then d1.freelist else d1.next b) = fs.disk.next b
            rw [if_neg hbne]
            rfl
          · show (if tl.getLastD a = tl.getLastD a then d1.freelist else d1.next (tl.getLastD a)) =
              fs.disk.freelist
            rw [if_pos rfl]
            rfl
          · refine chainFrom_congr fs.disk _ freeIds fs.disk.freelist ?_ hfree
            intro b hbm
            have hbn : b ≠ tl.getLastD a := by
              intro he
              rw [he] at hbm
              exact hdisj _ hlastmem hbm
            show (if b = tl.getLastD a then d1.freelist else d1.next b) = fs.disk.next b
            rw [if_neg hbn]
            rfl
        

/-- C7 witness: removing "a" on the concrete volume where it is the
only file (its chain is block 1) with free list 2..7; also the EBUSY
branch on the state where "a" is open. -/
theorem sfs_remove_spec_witness :
    (¬ (([97] : List Nat).length + 1 > SFS_FILE_NAME_SIZE_LIMIT) ∧
     fsAfterClose.mounted = true ∧
     fsAfterClose.openFileTable 0 = none ∧
     fsAfterOpen.openFileTable 0 = some { refCount := 1, fileEntryIdx := 0 }) ∧
    (sfs_remove fsAfterClose [97]).1 = 0 ∧
    sfs_remove fsAfterOpen [97] = (-EBUSY, fsAfterOpen) :=
  ⟨⟨by decide, by decide, by decide, by decide⟩,
   ((((sfs_remove_spec fsAfterClose [97] (by decide) (by decide)).2 0
      (by decide)).2 [1] [2, 3, 4, 5, 6, 7] (by decide) (by decide) (by decide)
      (by decide) (by decide) (by decide) (by decide) (by decide))).1,
   ((sfs_remove_spec fsAfterOpen [97] (by decide) (by decide)).2 0 (by decide)).1
     (by decide)⟩

/-! ### Descriptor counting lemmas (for the v-node refcount invariant) -/

/-- Changing a predicate at one element of a duplicate-free list
shifts countP by the difference at that element. -/
theorem countP_pointwise (p p2 : Nat → Bool) :
    ∀ (l : List Nat) (fd : Nat), l.Nodup → fd ∈ l →
      (∀ x ∈ l, x ≠ fd → p2 x = p x) →
      l.countP p2 + (if p fd then 1 else 0) =
        l.countP p + (if p2 fd then 1 else 0) := by
  intro l
  induction l with
  | nil => intro fd _ hm; cases hm
  | cons a l ih =>
    intro fd hnd hm hsame
    rw [List.countP_cons, List.countP_cons]
    by_cases hfa : a = fd
    · subst hfa
      have hcong : l.countP p2 = l.countP p :=
        List.countP_congr (fun x hx => by
          rw [hsame x (List.mem_cons_of_mem a hx)
            (fun he => (List.nodup_cons.mp hnd).1 (he ▸ hx))])
      rw [hcong]
      omega
    · have hm2 : fd ∈ l := by
        rcases List.mem_cons.mp hm with he | h2
        · exact absurd he.symm hfa
        · exact h2
      have hpa : p2 a = p a := hsame a (List.mem_cons_self a l) (fun he => hfa he)
      have hih := ih fd (List.nodup_cons.mp hnd).2 hm2
        (fun x hx hxf => hsame x (List.mem_cons_of_mem a hx) hxf)
      rw [hpa]
      omega

/-- Adding a descriptor in a previously free slot bumps the count of
its directory index by one. -/
theorem cntRefs_add (t : Nat → Option FileDesc) (fd : Nat) (dsc : FileDesc) (i : Nat)
    (hfd : fd < OPEN_FILE_LIMIT) (hnone : t fd = none) :
    cntRefs (fun j => if j = fd then some dsc else t j) i =
      cntRefs t i + (if dsc.fileEntryIdx = i then 1 else 0) := by
  unfold cntRefs
  have hkey := countP_pointwise
    (fun fd2 => match t fd2 with
      | some d2 => d2.fileEntryIdx == i
      | none => false)
    (fun fd2 => match (if fd2 = fd then some dsc else t fd2) with
      | some d2 => d2.fileEntryIdx == i
      | none => false)
    (List.range OPEN_FILE_LIMIT) fd (List.nodup_range _)
    (List.mem_range.mpr hfd)
    (fun x _ hxf => by simp [hxf])
  simp only [hnone] at hkey
  by_cases hdi : dsc.fileEntryIdx = i
  · simp [hdi] at hkey ⊢
    omega
  · simp [hdi, beq_eq_false_iff_ne.mpr hdi] at hkey ⊢
    omega

/-- Dropping the descriptor of a slot lowers the count of its
directory index by one. -/
theorem cntRefs_remove (t : Nat → Option FileDesc) (fd : Nat) (dsc : FileDesc) (i : Nat)
    (hfd : fd < OPEN_FILE_LIMIT) (hsome : t fd = some dsc) :
    cntRefs (fun j => if j = fd then none else t j) i +
      (if dsc.fileEntryIdx = i then 1 else 0) = cntRefs t i := by
  unfold cntRefs
  have hkey := countP_pointwise
    (fun fd2 => match t fd2 with
      | some d2 => d2.fileEntryIdx == i
      | none => false)
    (fun fd2 => match (if fd2 = fd then none else t fd2) with
      | some d2 => d2.fileEntryIdx == i
      | none => false)
    (List.range OPEN_FILE_LIMIT) fd (List.nodup_range _)
    (List.mem_range.mpr hfd)
    (fun x _ hxf => by simp [hxf])
  simp only [hsome] at hkey
  by_cases hdi : dsc.fileEntryIdx = i
  · simp [hdi] at hkey ⊢
    omega
  · simp [hdi, beq_eq_false_iff_ne.mpr hdi] at hkey ⊢
    omega

/-- Replacing a slot's descriptor without changing its directory index
leaves every count unchanged. -/
theorem cntRefs_modify (t : Nat → Option FileDesc) (fd : Nat) (dsc dsc2 : FileDesc) (i : Nat)
    (hfd : fd < OPEN_FILE_LIMIT) (hsome : t fd = some dsc)
    (hidx : dsc2.fileEntryIdx = dsc.fileEntryIdx) :
    cntRefs (fun j => if j = fd then some dsc2 else t j) i = cntRefs t i := by
  unfold cntRefs
  have hkey := countP_pointwise
    (fun fd2 => match t fd2 with
      | some d2 => d2.fileEntryIdx == i
      | none => false)
    (fun fd2 => match (if fd2 = fd then some dsc2 else t fd2) with
      | some d2 => d2.fileEntryIdx == i
      | none => false)
    (List.range OPEN_FILE_LIMIT) fd (List.nodup_range _)
    (List.mem_range.mpr hfd)
    (fun x _ hxf => by simp [hxf])
  simp [hsome, hidx] at hkey ⊢
  omega

/-- A slot holding a descriptor for index i makes the count positive. -/
theorem cntRefs_pos (t : Nat → Option FileDesc) (fd : Nat) (dsc : FileDesc) (i : Nat)
    (hfd : fd < OPEN_FILE_LIMIT) (hsome : t fd = some dsc)
    (hidx : dsc.fileEntryIdx = i) : 0 < cntRefs t i := by
  unfold cntRefs
  refine List.countP_pos_iff.mpr ⟨fd, List.mem_range.mpr hfd, ?_⟩
  rw [hsome]
  simp [hidx]

/-! ### Table well-formedness preservation -/

/-- States with the same tables share table well-formedness. -/
theorem tablesWf_of_tables_eq (fs fs2 : FS)
    (h1 : fs2.openFileTable = fs.openFileTable)
    (h2 : fs2.descTable = fs.descTable) (h : tablesWf fs) : tablesWf fs2 := by
  obtain ⟨hal, hhi, hinv⟩ := h
  refine ⟨?_, ?_, ?_⟩
  · intro i mf hm
    rw [h1] at hm
    exact hal i mf hm
  · intro fd hfd
    rw [h2]
    exact hhi fd hfd
  · intro i
    rw [h1, h2]
    exact hinv i

/-- addOpenFileEntry with an existing v-node: bump its refCount, add a
descriptor in the first free slot. -/
theorem addOpenFileEntry_eq_found (fs : FS) (e fd : Nat) (mf : MemFile)
    (hfd : (List.range OPEN_FILE_LIMIT).find? (fun i => (fs.descTable i).isNone) = some fd)
    (hvn : fs.openFileTable e = some mf) :
    addOpenFileEntry fs e =
      (Int.ofNat fd,
       { fs with
           openFileTable := fun i =>
             if i = e then some { refCount := mf.refCount + 1, fileEntryIdx := mf.fileEntryIdx }
             else fs.openFileTable i,
           descTable := fun i =>
             if i = fd then some
               { fileEntryIdx := e, startBlock := (fs.disk.files e).firstBlock,
                 currBlock := (fs.disk.files e).firstBlock, currPos := 0 }
             else fs.descTable i }) := by
  unfold addOpenFileEntry
  rw [hfd]
  dsimp only
  rw [hvn]

/-- addOpenFileEntry with no v-node yet: create it with refCount 1,
add a descriptor in the first free slot. -/
theorem addOpenFileEntry_eq_new (fs : FS) (e fd : Nat)
    (hfd : (List.range OPEN_FILE_LIMIT).find? (fun i => (fs.descTable i).isNone) = some fd)
    (hvn : fs.openFileTable e = none) :
    addOpenFileEntry fs e =
      (Int.ofNat fd,
       { fs with
           openFileTable := fun i =>
             if i = e then some { refCount := 1, fileEntryIdx := e }
             else fs.openFileTable i,
           descTable := fun i =>
             if i = fd then some
               { fileEntryIdx := e, startBlock := (fs.disk.files e).firstBlock,
                 currBlock := (fs.disk.files e).firstBlock, currPos := 0 }
             else fs.descTable i }) := by
  unfold addOpenFileEntry
  rw [hfd]
  dsimp only
  rw [hvn]
  dsimp only
  refine Prod.ext rfl ?_
  refine FS.ext rfl rfl ?_ rfl
  funext i
  dsimp only
  by_cases hie : i = e
  · simp only [if_pos hie]
  · simp only [if_neg hie]

/-- addOpenFileEntry preserves table well-formedness. -/
theorem addOpenFileEntry_wf (fs : FS) (e : Nat) (h : tablesWf fs) :
    tablesWf (addOpenFileEntry fs e).2 := by
  obtain ⟨hal, hhi, hinv⟩ := h
  cases hfd : (List.range OPEN_FILE_LIMIT).find? (fun i => (fs.descTable i).isNone) with
  | none =>
    have hr : (addOpenFileEntry fs e).2 = fs := by
      unfold addOpenFileEntry
      rw [hfd]
    rw [hr]
    exact ⟨hal, hhi, hinv⟩
  | some fd =>
    have hfdlt : fd < OPEN_FILE_LIMIT := List.mem_range.mp (List.mem_of_find?_eq_some hfd)
    have hfdnone : fs.descTable fd = none :=
      Option.isNone_iff_eq_none.mp (by simpa using List.find?_some hfd)
    cases hvn : fs.openFileTable e with
    | some mf =>
      rw [addOpenFileEntry_eq_found fs e fd mf hfd hvn]
      have hidx : mf.fileEntryIdx = e := hal e mf hvn
      have hcnt : ∀ i, cntRefs (fun j =>
          if j = fd then some
            ({ fileEntryIdx := e, startBlock := (fs.disk.files e).firstBlock,
               currBlock := (fs.disk.files e).firstBlock, currPos := 0 } : FileDesc)
          else fs.descTable j) i =
          cntRefs fs.descTable i + (if e = i then 1 else 0) := fun i =>
        cntRefs_add fs.descTable fd _ i hfdlt hfdnone
      refine ⟨?_, ?_, ?_⟩
      · intro i m hm
        dsimp only at hm
        by_cases hie : i = e
        · rw [if_pos hie] at hm
          injection hm with hm2
          rw [← hm2]
          show mf.fileEntryIdx = i
          rw [hidx, hie]
        · rw [if_neg hie] at hm
          exact hal i m hm
      · intro g hg
        dsimp only
        rw [if_neg (by omega)]
        exact hhi g hg
      · intro i
        dsimp only
        rw [hcnt i]
        by_cases hie : i = e
        · rw [if_pos hie, if_pos (by rw [hie])]
          constructor
          · simp
          · intro m hm
            injection hm with hm2
            rw [← hm2]
            show mf.refCount + 1 = _
            rw [(hinv e).2 mf hvn, hie]
        · rw [if_neg hie, if_neg (fun he => hie he.symm)]
          constructor
          · simpa using (hinv i).1
          · intro m hm
            simpa using (hinv i).2 m hm
    | none =>
      rw [addOpenFileEntry_eq_new fs e fd hfd hvn]
      have hcnt : ∀ i, cntRefs (fun j =>
          if j = fd then some
            ({ fileEntryIdx := e, startBlock := (fs.disk.files e).firstBlock,
               currBlock := (fs.disk.files e).firstBlock, currPos := 0 } : FileDesc)
          else fs.descTable j) i =
          cntRefs fs.descTable i + (if e = i then 1 else 0) := fun i =>
        cntRefs_add fs.descTable fd _ i hfdlt hfdnone
      have hzero : cntRefs fs.descTable e = 0 := by
        by_contra hnz
        have : (fs.openFileTable e).isSome := (hinv e).1.mpr (by omega)
        rw [hvn] at this
        simp at this
      refine ⟨?_, ?_, ?_⟩
      · intro i m hm
        dsimp only at hm
        by_cases hie : i = e
        · rw [if_pos hie] at hm
          injection hm with hm2
          rw [← hm2]
          show e = i
          rw [hie]
        · rw [if_neg hie] at hm
          exact hal i m hm
      · intro g hg
        dsimp only
        rw [if_neg (by omega)]
        exact hhi g hg
      · intro i
        dsimp only
        rw [hcnt i]
        by_cases hie : i = e
        · rw [if_pos hie, if_pos (by rw [hie])]
          constructor
          · simp
          · intro m hm
            injection hm with hm2
            rw [← hm2]
            show 1 = _
            rw [hie, hzero]
        · rw [if_neg hie, if_neg (fun he => hie he.symm)]
          constructor
          · simpa using (hinv i).1
          · intro m hm
            simpa using (hinv i).2 m hm

/-- sfs_close preserves table well-formedness. -/
theorem sfs_close_wf (fs : FS) (fd : Int) (h : tablesWf fs) :
    tablesWf (sfs_close fs fd) := by
  obtain ⟨hal, hhi, hinv⟩ := h
  unfold sfs_close
  split
  · exact ⟨hal, hhi, hinv⟩
  · cases hdt : fs.descTable fd.toNat with
    | none => exact ⟨hal, hhi, hinv⟩
    | some tFile =>
      dsimp only
      have hlt : fd.toNat < OPEN_FILE_LIMIT := by
        by_contra hge
        rw [hhi fd.toNat (by omega)] at hdt
        exact Option.noConfusion hdt
      have hposcnt : 0 < cntRefs fs.descTable tFile.fileEntryIdx :=
        cntRefs_pos fs.descTable fd.toNat tFile _ hlt hdt rfl
      have hvs : (fs.openFileTable tFile.fileEntryIdx).isSome :=
        (hinv _).1.mpr hposcnt
      cases hvn : fs.openFileTable tFile.fileEntryIdx with
      | none => rw [hvn] at hvs; simp at hvs
      | some mf =>
        dsimp only
        have hidx : mf.fileEntryIdx = tFile.fileEntryIdx := hal _ mf hvn
        have hrc : mf.refCount = cntRefs fs.descTable tFile.fileEntryIdx :=
          (hinv _).2 mf hvn
        have hcnt : ∀ i, cntRefs (fun j => if j = fd.toNat then none else fs.descTable j) i +
            (if tFile.fileEntryIdx = i then 1 else 0) = cntRefs fs.descTable i := fun i =>
          cntRefs_remove fs.descTable fd.toNat tFile i hlt hdt
        split
        · next hpos =>
          refine ⟨?_, ?_, ?_⟩
          · intro i m hm
            dsimp only at hm
            by_cases hie : i = tFile.fileEntryIdx
            · rw [if_pos hie] at hm
              injection hm with hm2
              rw [← hm2]
              show mf.fileEntryIdx = i
              rw [hidx, hie]
            · rw [if_neg hie] at hm
              exact hal i m hm
          · intro g hg
            dsimp only
            rw [if_neg (by omega)]
            exact hhi g hg
          · intro i
            dsimp only
            by_cases hie : i = tFile.fileEntryIdx
            · rw [if_pos hie]
              have hc := hcnt i
              rw [if_pos (by rw [hie])] at hc
              rw [← hie] at hrc
              constructor
              · simp only [Option.isSome_some, true_iff]
                omega
              · intro m hm
                injection hm with hm2
                rw [← hm2]
                show mf.refCount - 1 = _
                omega
            · rw [if_neg hie]
              have hc := hcnt i
              rw [if_neg (fun he => hie he.symm)] at hc
              constructor
              · rw [show cntRefs (fun j => if j = fd.toNat then none else fs.descTable j) i =
                  cntRefs fs.descTable i by omega]
                exact (hinv i).1
              · intro m hm
                rw [show cntRefs (fun j => if j = fd.toNat then none else fs.descTable j) i =
                  cntRefs fs.descTable i by omega]
                exact (hinv i).2 m hm
        · next hpos =>
          refine ⟨?_, ?_, ?_⟩
          · intro i m hm
            dsimp only at hm
            by_cases hie : i = mf.fileEntryIdx
            · rw [if_pos hie] at hm
              exact Option.noConfusion hm
            · rw [if_neg hie] at hm
              exact hal i m hm
          · intro g hg
            dsimp only
            rw [if_neg (by omega)]
            exact hhi g hg
          · intro i
            dsimp only
            by_cases hie : i = mf.fileEntryIdx
            · rw [if_pos hie]
              have hc := hcnt i
              rw [if_pos (by rw [hie, hidx])] at hc
              rw [← hidx, ← hie] at hrc
              constructor
              · simp only [Option.isSome_none, Bool.false_eq_true, false_iff]
                omega
              · intro m hm
                exact Option.noConfusion hm
            · rw [if_neg hie]
              have hc := hcnt i
              rw [if_neg (fun he => hie (by omega))] at hc
              constructor
              · rw [show cntRefs (fun j => if j = fd.toNat then none else fs.descTable j) i =
                  cntRefs fs.descTable i by omega]
                exact (hinv i).1
              · intro m hm
                rw [show cntRefs (fun j => if j = fd.toNat then none else fs.descTable j) i =
                  cntRefs fs.descTable i by omega]
                exact (hinv i).2 m hm

/-- Replacing one descriptor by another for the same directory index
(a position update, as read and write do) preserves well-formedness. -/
theorem tablesWf_desc_modify (fs : FS) (fdn : Nat) (tFile tFile2 : FileDesc)
    (hdt : fs.descTable fdn = some tFile)
    (hidx : tFile2.fileEntryIdx = tFile.fileEntryIdx)
    (h : tablesWf fs) :
    tablesWf { fs with descTable := fun i => if i = fdn then some tFile2 else fs.descTable i } := by
  obtain ⟨hal, hhi, hinv⟩ := h
  have hlt : fdn < OPEN_FILE_LIMIT := by
    by_contra hge
    rw [hhi fdn (by omega)] at hdt
    exact Option.noConfusion hdt
  have hcnt : ∀ i, cntRefs (fun j => if j = fdn then some tFile2 else fs.descTable j) i =
      cntRefs fs.descTable i := fun i =>
    cntRefs_modify fs.descTable fdn tFile tFile2 i hlt hdt hidx
  refine ⟨hal, ?_, ?_⟩
  · intro g hg
    dsimp only
    rw [if_neg (by omega)]
    exact hhi g hg
  · intro i
    dsimp only
    rw [hcnt i]
    exact hinv i

/-- sfs_read preserves table well-formedness. -/
theorem sfs_read_wf (fs : FS) (fd : Int) (len : Nat) (h : tablesWf fs) :
    tablesWf (sfs_read fs fd len).2.2 := by
  unfold sfs_read
  split
  · exact h
  · cases hdt : fs.descTable fd.toNat with
    | none => exact h
    | some tFile =>
      dsimp only
      exact tablesWf_desc_modify fs fd.toNat tFile _ hdt rfl h

/-- sfs_write preserves table well-formedness. -/
theorem sfs_write_wf (fs : FS) (fd : Int) (buf : List Nat) (h : tablesWf fs) :
    tablesWf (sfs_write fs fd buf).2 := by
  unfold sfs_write
  split
  · exact h
  · cases hdt : fs.descTable fd.toNat with
    | none => exact h
    | some tFile =>
      dsimp only
      split
      · exact h
      · exact tablesWf_desc_modify fs fd.toNat tFile _ hdt rfl h

/-- createFile preserves table well-formedness. -/
theorem createFile_wf (fs : FS) (nm : List Nat) (e : Nat) (h : tablesWf fs) :
    tablesWf (createFile fs nm e).2 := by
  unfold createFile
  dsimp only
  split
  · exact tablesWf_of_tables_eq fs _ rfl rfl h
  · exact addOpenFileEntry_wf _ e (tablesWf_of_tables_eq fs _ rfl rfl h)

/-- sfs_open preserves table well-formedness. -/
theorem sfs_open_wf (fs : FS) (nm : List Nat) (h : tablesWf fs) :
    tablesWf (sfs_open fs nm).2 := by
  unfold sfs_open
  split
  · exact h
  · split
    · exact h
    · split
      · next i _ => exact addOpenFileEntry_wf fs i h
      · split
        · next e _ => exact createFile_wf fs nm e h
        · exact h

/-- sfs_remove preserves table well-formedness. -/
theorem sfs_remove_wf (fs : FS) (nm : List Nat) (h : tablesWf fs) :
    tablesWf (sfs_remove fs nm).2 := by
  unfold sfs_remove
  split
  · exact h
  · split
    · exact h
    · split
      · exact h
      · split
        · exact h
        · exact tablesWf_of_tables_eq fs _ rfl rfl h

/-- sfs_format preserves table well-formedness. -/
theorem sfs_format_wf (fs : FS) (ds ps : Nat) (h : tablesWf fs) :
    tablesWf (sfs_format fs ds ps).2 := by
  unfold sfs_format
  repeat' split
  all_goals exact tablesWf_of_tables_eq fs _ rfl rfl h

/-- sfs_mount preserves table well-formedness. -/
theorem sfs_mount_wf (fs : FS) (ps : Nat) (h : tablesWf fs) :
    tablesWf (sfs_mount fs ps).2 := by
  unfold sfs_mount
  repeat' split
  all_goals exact tablesWf_of_tables_eq fs _ rfl rfl h

/-- sfs_unmount preserves table well-formedness. -/
theorem sfs_unmount_wf (fs : FS) (h : tablesWf fs) :
    tablesWf (sfs_unmount fs).2 :=
  tablesWf_of_tables_eq fs _ rfl rfl h

/-- Every single API call preserves table well-formedness. -/
theorem applyOp_wf (fs : FS) (op : Op) (h : tablesWf fs) : tablesWf (applyOp fs op) := by
  cases op with
  | format ds ps => exact sfs_format_wf fs ds ps h
  | mount ps => exact sfs_mount_wf fs ps h
  | unmount => exact sfs_unmount_wf fs h
  | openF nm => exact sfs_open_wf fs nm h
  | close fd => exact sfs_close_wf fs fd h
  | read fd len => exact sfs_read_wf fs fd len h
  | write fd buf => exact sfs_write_wf fs fd buf h
  | remove nm => exact sfs_remove_wf fs nm h
  | list c cap => exact h
  | getpos fd => exact h
  | seek fd delta => exact h
  | rename a b => exact h

/-- Well-formedness holds along any sequence of API calls. -/
theorem applyOps_wf (ops : List Op) : ∀ (fs : FS), tablesWf fs → tablesWf (applyOps fs ops) := by
  induction ops with
  | nil => intro fs h; exact h
  | cons op ops ih => intro fs h; exact ih (applyOp fs op) (applyOp_wf fs op h)

/-- The pristine engine state is well-formed. -/
theorem initFS_wf : tablesWf initFS := by
  refine ⟨?_, ?_, ?_⟩
  · intro i mf hm
    exact Option.noConfusion hm
  · intro fd _
    rfl
  · intro i
    have hz : cntRefs initFS.descTable i = 0 := by
      unfold cntRefs
      refine List.countP_eq_zero.mpr ?_
      intro a _
      show ¬ (false = true)
      simp
    constructor
    · rw [hz]
      simp [initFS]
    · intro mf hm
      exact Option.noConfusion hm

/-- getD after drop is getD at the shifted index. -/
theorem getD_drop :
    ∀ (l : List Nat) (n k : Nat), (l.drop n).getD k 0 = l.getD (n + k) 0 := by
  intro l
  induction l with
  | nil => intro n k; simp
  | cons a t ih =>
    intro n k
    cases n with
    | zero => simp
    | succ m =>
      simp only [List.drop_succ_cons]
      rw [ih m k]
      show t.getD (m + k) 0 = (a :: t).getD (m + 1 + k) 0
      rw [show m + 1 + k = (m + k) + 1 by omega]
      simp only [List.getD_cons_succ]

/-- getD inside the taken prefix is getD of the list. -/
theorem getD_take :
    ∀ (l : List Nat) (n k : Nat), k < n → (l.take n).getD k 0 = l.getD k 0 := by
  intro l
  induction l with
  | nil => intro n k _; simp
  | cons a t ih =>
    intro n k hk
    cases n with
    | zero => omega
    | succ m =>
      simp only [List.take_succ_cons]
      cases k with
      | zero => simp
      | succ j =>
        simp only [List.getD_cons_succ]
        exact ih m j (by omega)

/-- getD of an append, inside the first part. -/
theorem getD_append :
    ∀ (l1 l2 : List Nat) (k : Nat), k < l1.length ->
      (l1 ++ l2).getD k 0 = l1.getD k 0 := by
  intro l1
  induction l1 with
  | nil => intro l2 k hk; simp at hk
  | cons a t ih =>
    intro l2 k hk
    cases k with
    | zero => simp
    | succ j =>
      simp only [List.cons_append, List.getD_cons_succ]
      exact ih l2 j (by simpa using hk)

/-- getD of an append, inside the second part. -/
theorem getD_append_right :
    ∀ (l1 l2 : List Nat) (j : Nat),
      (l1 ++ l2).getD (l1.length + j) 0 = l2.getD j 0 := by
  intro l1
  induction l1 with
  | nil => intro l2 j; simp
  | cons a t ih =>
    intro l2 j
    simp only [List.cons_append, List.length_cons]
    rw [show t.length + 1 + j = (t.length + j) + 1 by omega]
    simp only [List.getD_cons_succ]
    exact ih l2 j

/-- getD of a mapped range. -/
theorem getD_map_range (f : Nat → Nat) :
    ∀ (n j : Nat), j < n → ((List.range n).map f).getD j 0 = f j := by
  intro n
  induction n with
  | zero => intro j hj; omega
  | succ m ih =>
    intro j hj
    rw [List.range_succ, List.map_append]
    by_cases hjm : j < m
    · rw [getD_append _ _ j (by simpa using hjm)]
      exact ih j hjm
    · have hje : j = m := by omega
      subst hje
      have hl : ((List.range j).map f).length = j := by simp
      calc ((List.range j).map f ++ [j].map f).getD j 0
          = ((List.range j).map f ++ [j].map f).getD (((List.range j).map f).length + 0) 0 := by
            rw [hl, Nat.add_zero]
        _ = ([j].map f).getD 0 0 := getD_append_right _ _ 0
        _ = f j := rfl

/-- find? only depends on the predicate values on the list. -/
theorem find?_congr (p q : Nat → Bool) :
    ∀ (l : List Nat), (∀ x ∈ l, p x = q x) → l.find? p = l.find? q := by
  intro l
  induction l with
  | nil => intro _; rfl
  | cons a t ih =>
    intro h
    show List.find? p (a :: t) = List.find? q (a :: t)
    rw [List.find?_cons, List.find?_cons, h a (List.mem_cons_self a t),
      ih (fun x hx => h x (List.mem_cons_of_mem a hx))]

/-- The first-chunk size of the copy loops: the distance from the
position to the end of its block. -/
theorem roundUp_sub_pos (pos : Nat) (h : pos % BLOCK_DATA_SIZE ≠ 0 ∨ pos = 0) :
    roundUp pos BLOCK_DATA_SIZE - pos = BLOCK_DATA_SIZE - pos % BLOCK_DATA_SIZE := by
  unfold roundUp
  simp only [BLOCK_DATA_SIZE] at *
  rcases h with h | h
  · rw [if_neg (by omega)]
    omega
  · subst h
    norm_num

/-- roundUp of a positive multiple is itself. -/
theorem roundUp_multiple (pos : Nat) (h0 : pos ≠ 0) (hm : pos % BLOCK_DATA_SIZE = 0) :
    roundUp pos BLOCK_DATA_SIZE = pos := by
  unfold roundUp
  simp only [BLOCK_DATA_SIZE] at *
  rw [if_neg h0]
  omega

/-- sizeMin with a zero first argument. -/
theorem sizeMin_zero_left (b : Nat) : sizeMin 0 b = 0 := by
  unfold sizeMin
  split <;> omega

/-- One unfolding of the write loop at a block boundary (zero first
chunk): the loop advances to the next block, splicing the new chain
when the old one has run out. -/
theorem writeLoop_chunk_zero (d : Disk) (b fn : Nat) (buf : List Nat) (hbuf : buf ≠ []) :
    writeLoop d b 0 buf 0 fn =
      if d.next b = 0 then
        writeLoop ((d.setNext b fn).setPrev fn b) fn 0 buf
          (sizeMin BLOCK_DATA_SIZE buf.length) 0
      else writeLoop d (d.next b) 0 buf (sizeMin BLOCK_DATA_SIZE buf.length) fn := by
  rw [writeLoop]
  simp only [List.take_zero, List.drop_zero, memcpyToBlock_nil]
  rw [if_neg (by simpa using hbuf)]

/-- memcpy into a block leaves every other block's data untouched. -/
theorem memcpyToBlock_data_other (d : Disk) (b off : Nat) (bytes : List Nat) (x p : Nat)
    (h : x ≠ b) : (memcpyToBlock d b off bytes).data x p = d.data x p := by
  unfold memcpyToBlock
  dsimp only
  rw [if_neg (by rintro ⟨ h1, -, -⟩; exact h h1)]

/-- memcpy into a block writes the copied bytes at their offsets. -/
theorem memcpyToBlock_data_at (d : Disk) (b off : Nat) (bytes : List Nat) (p : Nat)
    (h1 : off ≤ p) (h2 : p < off + bytes.length) :
    (memcpyToBlock d b off bytes).data b p = bytes.getD (p - off) 0 := by
  unfold memcpyToBlock
  dsimp only
  rw [if_pos ⟨ rfl, h1, h2⟩]

/-- The write loop along a chain long enough for the whole buffer: no
header is touched, no block off the chain is touched, the loop ends on
the block holding the last byte written, and byte k of the buffer
lands at chain position blockPos + k (block (blockPos + k) / 500,
offset (blockPos + k) % 500). -/
theorem writeLoop_spec :
    ∀ (c : List Nat) (d : Disk) (blkId blockPos fn : Nat) (buf : List Nat) (dw : Disk) (lb : Nat),
      chainFrom d blkId c → c ≠ [] → c.Nodup →
      blockPos < BLOCK_DATA_SIZE →
      blockPos + buf.length ≤ BLOCK_DATA_SIZE * c.length →
      writeLoop d blkId blockPos buf (sizeMin (BLOCK_DATA_SIZE - blockPos) buf.length) fn = (dw, lb) →
      lb = c.getD ((blockPos + buf.length - 1) / BLOCK_DATA_SIZE) 0 ∧
      dw.magic = d.magic ∧ dw.nBlocks = d.nBlocks ∧ dw.freelist = d.freelist ∧
      dw.nextRootdir = d.nextRootdir ∧ dw.files = d.files ∧ dw.btype = d.btype ∧
      dw.prev = d.prev ∧ dw.next = d.next ∧
      (∀ b p, b ∉ c → dw.data b p = d.data b p) ∧
      (∀ k, k < buf.length →
        dw.data (c.getD ((blockPos + k) / BLOCK_DATA_SIZE) 0) ((blockPos + k) % BLOCK_DATA_SIZE) =
          buf.getD k 0) := by
  intro c
  induction c with
  | nil => intro d blkId blockPos fn buf dw lb hch hne; exact absurd rfl hne
  | cons a c2 ih =>
    intro d blkId blockPos fn buf dw lb hch _ hnd hbp hcap hw
    obtain ⟨ hb, ha0, hrest⟩ := hch
    subst hb
    rw [writeLoop] at hw
    dsimp only at hw
    by_cases hsm : BLOCK_DATA_SIZE - blockPos < buf.length
    · -- first chunk fills the block; the loop continues on the tail
      have hchunk : sizeMin (BLOCK_DATA_SIZE - blockPos) buf.length =
          BLOCK_DATA_SIZE - blockPos := by
        unfold sizeMin; rw [if_pos hsm]
      rw [hchunk] at hw
      cases c2 with
      | nil =>
        exfalso
        simp only [BLOCK_DATA_SIZE, List.length_cons, List.length_nil] at hcap hsm hbp
        omega
      | cons b2 c3 =>
        have hnext_a : d.next blkId = b2 := hrest.1
        have hb2 : b2 ≠ 0 := hrest.2.1
        rw [if_neg (by
          simp only [List.length_drop, BLOCK_DATA_SIZE] at hsm ⊢
          omega)] at hw
        rw [show (memcpyToBlock d blkId blockPos (buf.take (BLOCK_DATA_SIZE - blockPos))).next = d.next
          from rfl] at hw
        rw [hnext_a, if_neg hb2] at hw
        have hch2 : chainFrom (memcpyToBlock d blkId blockPos (buf.take (BLOCK_DATA_SIZE - blockPos)))
            b2 (b2 :: c3) :=
          chainFrom_congr d _ (b2 :: c3) b2 (fun b _ => rfl) (hnext_a ▸ hrest)
        have hcap2 : 0 + (buf.drop (BLOCK_DATA_SIZE - blockPos)).length ≤
            BLOCK_DATA_SIZE * (b2 :: c3).length := by
          simp only [List.length_drop, List.length_cons, BLOCK_DATA_SIZE] at hcap ⊢
          omega
        obtain ⟨ h1, h2, h3, h4, h5, h6, h7, h8, h9, hframe, hcontent⟩ :=
          ih _ b2 0 fn (buf.drop (BLOCK_DATA_SIZE - blockPos)) dw lb hch2
            (List.cons_ne_nil b2 c3) (List.nodup_cons.mp hnd).2 (by decide) hcap2 hw
        have hane : blkId ∉ b2 :: c3 := (List.nodup_cons.mp hnd).1
        refine ⟨ ?_, h2, h3, h4, h5, h6, h7, h8, h9, ?_, ?_⟩
        · rw [h1]
          rw [show (blockPos + buf.length - 1) / BLOCK_DATA_SIZE =
              ((0 + (buf.drop (BLOCK_DATA_SIZE - blockPos)).length - 1) / BLOCK_DATA_SIZE) + 1 by
            simp only [List.length_drop, BLOCK_DATA_SIZE] at hsm hbp ⊢
            omega]
          simp only [List.getD_cons_succ]
        · intro b p hbc
          rw [hframe b p (fun hm => hbc (List.mem_cons_of_mem blkId hm))]
          exact memcpyToBlock_data_other d blkId blockPos _ b p
            (fun he => hbc (by rw [he]; exact List.mem_cons_self blkId (b2 :: c3)))
        · intro k hk
          by_cases hkc : k < BLOCK_DATA_SIZE - blockPos
          · -- byte lands in the first block
            rw [show (blockPos + k) / BLOCK_DATA_SIZE = 0 by
                simp only [BLOCK_DATA_SIZE] at hbp hkc ⊢; omega,
              show (blockPos + k) % BLOCK_DATA_SIZE = blockPos + k by
                simp only [BLOCK_DATA_SIZE] at hbp hkc ⊢; omega]
            simp only [List.getD_cons_zero]
            rw [hframe blkId (blockPos + k) hane]
            rw [memcpyToBlock_data_at d blkId blockPos _ (blockPos + k) (by omega) (by
              rw [List.length_take]
              simp only [BLOCK_DATA_SIZE] at hsm hkc ⊢
              omega)]
            rw [show blockPos + k - blockPos = k by omega]
            exact getD_take buf (BLOCK_DATA_SIZE - blockPos) k hkc
          · -- byte lands further down the chain
            have hc := hcontent (k - (BLOCK_DATA_SIZE - blockPos)) (by
              simp only [List.length_drop]; omega)
            simp only [Nat.zero_add] at hc
            rw [getD_drop] at hc
            rw [show BLOCK_DATA_SIZE - blockPos + (k - (BLOCK_DATA_SIZE - blockPos)) = k by
              simp only [BLOCK_DATA_SIZE] at hbp hkc ⊢; omega] at hc
            rw [show (blockPos + k) / BLOCK_DATA_SIZE =
                ((k - (BLOCK_DATA_SIZE - blockPos)) / BLOCK_DATA_SIZE) + 1 by
              simp only [BLOCK_DATA_SIZE] at hbp hkc ⊢; omega,
              show (blockPos + k) % BLOCK_DATA_SIZE =
                (k - (BLOCK_DATA_SIZE - blockPos)) % BLOCK_DATA_SIZE by
              simp only [BLOCK_DATA_SIZE] at hbp hkc ⊢; omega]
            simp only [List.getD_cons_succ]
            exact hc
    · -- the whole buffer fits in the current block
      have hchunk : sizeMin (BLOCK_DATA_SIZE - blockPos) buf.length = buf.length := by
        unfold sizeMin; rw [if_neg hsm]
      rw [hchunk, List.take_length, List.drop_length] at hw
      simp only [List.length_nil, if_pos] at hw
      injection hw with hw1 hw2
      subst hw1
      subst hw2
      refine ⟨ ?_, rfl, rfl, rfl, rfl, rfl, rfl, rfl, rfl, ?_, ?_⟩
      · rw [show (blockPos + buf.length - 1) / BLOCK_DATA_SIZE = 0 by
          simp only [BLOCK_DATA_SIZE] at hbp hsm ⊢; omega]
        simp only [List.getD_cons_zero]
      · intro b p hbc
        exact memcpyToBlock_data_other d blkId blockPos buf b p
          (fun he => hbc (by rw [he]; exact List.mem_cons_self blkId c2))
      · intro k hk
        rw [show (blockPos + k) / BLOCK_DATA_SIZE = 0 by
            simp only [BLOCK_DATA_SIZE] at hbp hsm ⊢; omega,
          show (blockPos + k) % BLOCK_DATA_SIZE = blockPos + k by
            simp only [BLOCK_DATA_SIZE] at hbp hsm ⊢; omega]
        simp only [List.getD_cons_zero]
        rw [memcpyToBlock_data_at d blkId blockPos buf (blockPos + k) (by omega) (by omega)]
        rw [show blockPos + k - blockPos = k by omega]

/-- The write loop when the old chain runs out mid-write: the loop
splices the pre-allocated chain `newc` onto the old tail (next of the
old last block, prev of the new first block) and continues; byte k of
the buffer lands at position blockPos + k of the combined chain. -/
theorem writeLoop_splice_spec :
    ∀ (oldc newc : List Nat) (d : Disk) (blkId blockPos : Nat) (buf : List Nat)
      (dw : Disk) (lb : Nat),
      chainFrom d blkId oldc → oldc ≠ [] → oldc.Nodup →
      chainFrom d (newc.getD 0 0) newc → newc.Nodup →
      (∀ b ∈ oldc, b ∉ newc) →
      blockPos < BLOCK_DATA_SIZE →
      BLOCK_DATA_SIZE * oldc.length < blockPos + buf.length →
      blockPos + buf.length ≤ BLOCK_DATA_SIZE * (oldc.length + newc.length) →
      writeLoop d blkId blockPos buf (sizeMin (BLOCK_DATA_SIZE - blockPos) buf.length)
        (newc.getD 0 0) = (dw, lb) →
      lb = (oldc ++ newc).getD ((blockPos + buf.length - 1) / BLOCK_DATA_SIZE) 0 ∧
      dw.magic = d.magic ∧ dw.nBlocks = d.nBlocks ∧ dw.freelist = d.freelist ∧
      dw.nextRootdir = d.nextRootdir ∧ dw.files = d.files ∧ dw.btype = d.btype ∧
      dw.next = (fun b => if b = oldc.getD (oldc.length - 1) 0 then newc.getD 0 0
        else d.next b) ∧
      dw.prev = (fun b => if b = newc.getD 0 0 then oldc.getD (oldc.length - 1) 0
        else d.prev b) ∧
      (∀ b p, b ∉ oldc ++ newc → dw.data b p = d.data b p) ∧
      (∀ k, k < buf.length →
        dw.data ((oldc ++ newc).getD ((blockPos + k) / BLOCK_DATA_SIZE) 0)
          ((blockPos + k) % BLOCK_DATA_SIZE) = buf.getD k 0) := by
  intro oldc
  induction oldc with
  | nil => intro newc d blkId blockPos buf dw lb hch hne; exact absurd rfl hne
  | cons a oldc2 ih =>
    intro newc d blkId blockPos buf dw lb hch _ hnd hchn hndn hdisj hbp hneed hcap hw
    obtain ⟨ hb, ha0, hrest⟩ := hch
    subst hb
    have hsm : BLOCK_DATA_SIZE - blockPos < buf.length := by
      simp only [BLOCK_DATA_SIZE, List.length_cons] at hneed hbp ⊢
      omega
    have hchunk : sizeMin (BLOCK_DATA_SIZE - blockPos) buf.length =
        BLOCK_DATA_SIZE - blockPos := by
      unfold sizeMin; rw [if_pos hsm]
    have hnn : newc ≠ [] := by
      intro he
      rw [he] at hcap
      simp only [BLOCK_DATA_SIZE, List.length_cons, List.length_nil] at hcap hneed
      omega
    have hbin : blkId ∉ newc := hdisj blkId (List.mem_cons_self blkId oldc2)
    rw [writeLoop] at hw
    dsimp only at hw
    rw [hchunk] at hw
    rw [if_neg (by
      simp only [List.length_drop, BLOCK_DATA_SIZE] at hsm ⊢
      omega)] at hw
    rw [show (memcpyToBlock d blkId blockPos (buf.take (BLOCK_DATA_SIZE - blockPos))).next = d.next
      from rfl] at hw
    cases oldc2 with
    | nil =>
      -- the current block is the old tail: splice here
      have hlast : d.next blkId = 0 := hrest
      rw [hlast, if_pos rfl] at hw
      have hch2 : chainFrom (((memcpyToBlock d blkId blockPos
          (buf.take (BLOCK_DATA_SIZE - blockPos))).setNext blkId (newc.getD 0 0)).setPrev
            (newc.getD 0 0) blkId) (newc.getD 0 0) newc := by
        refine chainFrom_congr d _ newc (newc.getD 0 0) ?_ hchn
        intro b hbm
        show (if b = blkId then newc.getD 0 0 else d.next b) = d.next b
        rw [if_neg (fun he => hbin (by rw [← he]; exact hbm))]
      have hcap2 : 0 + (buf.drop (BLOCK_DATA_SIZE - blockPos)).length ≤
          BLOCK_DATA_SIZE * newc.length := by
        simp only [List.length_drop, List.length_cons, List.length_nil, BLOCK_DATA_SIZE]
          at hcap ⊢
        omega
      obtain ⟨ h1, h2, h3, h4, h5, h6, h7, h8, h9, hframe, hcontent⟩ :=
        writeLoop_spec newc _ (newc.getD 0 0) 0 0 (buf.drop (BLOCK_DATA_SIZE - blockPos)) dw lb
          hch2 hnn hndn (by decide) hcap2 hw
      refine ⟨ ?_, h2, h3, h4, h5, h6, h7, ?_, ?_, ?_, ?_⟩
      · rw [h1]
        rw [show (blockPos + buf.length - 1) / BLOCK_DATA_SIZE =
            ((0 + (buf.drop (BLOCK_DATA_SIZE - blockPos)).length - 1) / BLOCK_DATA_SIZE) + 1 by
          simp only [List.length_drop, BLOCK_DATA_SIZE] at hsm hbp ⊢
          omega]
        simp only [List.cons_append, List.nil_append, List.getD_cons_succ]
      · exact h9
      · exact h8
      · intro b p hbc
        have hb1 : b ≠ blkId := by
          intro he
          refine hbc ?_
          rw [he]
          exact List.mem_append_left _ (List.mem_cons_self blkId [])
        have hb2 : b ∉ newc := fun hm => hbc (List.mem_append_right _ hm)
        rw [hframe b p hb2]
        exact memcpyToBlock_data_other d blkId blockPos _ b p hb1
      · intro k hk
        by_cases hkc : k < BLOCK_DATA_SIZE - blockPos
        · rw [show (blockPos + k) / BLOCK_DATA_SIZE = 0 by
              simp only [BLOCK_DATA_SIZE] at hbp hkc ⊢; omega,
            show (blockPos + k) % BLOCK_DATA_SIZE = blockPos + k by
              simp only [BLOCK_DATA_SIZE] at hbp hkc ⊢; omega]
          simp only [List.cons_append, List.nil_append, List.getD_cons_zero]
          rw [hframe blkId (blockPos + k) hbin]
          rw [show (((memcpyToBlock d blkId blockPos
              (buf.take (BLOCK_DATA_SIZE - blockPos))).setNext blkId (newc.getD 0 0)).setPrev
                (newc.getD 0 0) blkId).data = (memcpyToBlock d blkId blockPos
              (buf.take (BLOCK_DATA_SIZE - blockPos))).data from rfl]
          rw [memcpyToBlock_data_at d blkId blockPos _ (blockPos + k) (by omega) (by
            rw [List.length_take]
            simp only [BLOCK_DATA_SIZE] at hsm hkc ⊢
            omega)]
          rw [show blockPos + k - blockPos = k by omega]
          exact getD_take buf (BLOCK_DATA_SIZE - blockPos) k hkc
        · have hc := hcontent (k - (BLOCK_DATA_SIZE - blockPos)) (by
            simp only [List.length_drop]; omega)
          simp only [Nat.zero_add] at hc
          rw [getD_drop] at hc
          rw [show BLOCK_DATA_SIZE - blockPos + (k - (BLOCK_DATA_SIZE - blockPos)) = k by
            simp only [BLOCK_DATA_SIZE] at hbp hkc ⊢; omega] at hc
          rw [show (blockPos + k) / BLOCK_DATA_SIZE =
              ((k - (BLOCK_DATA_SIZE - blockPos)) / BLOCK_DATA_SIZE) + 1 by
            simp only [BLOCK_DATA_SIZE] at hbp hkc ⊢; omega,
            show (blockPos + k) % BLOCK_DATA_SIZE =
              (k - (BLOCK_DATA_SIZE - blockPos)) % BLOCK_DATA_SIZE by
            simp only [BLOCK_DATA_SIZE] at hbp hkc ⊢; omega]
          simp only [List.cons_append, List.nil_append, List.getD_cons_succ]
          exact hc
    | cons a2 rest =>
      -- not yet at the old tail: walk on
      have hnext_a : d.next blkId = a2 := hrest.1
      have ha2 : a2 ≠ 0 := hrest.2.1
      rw [hnext_a, if_neg ha2] at hw
      have hch2 : chainFrom (memcpyToBlock d blkId blockPos
          (buf.take (BLOCK_DATA_SIZE - blockPos))) a2 (a2 :: rest) :=
        chainFrom_congr d _ (a2 :: rest) a2 (fun b _ => rfl) (hnext_a ▸ hrest)
      have hchn2 : chainFrom (memcpyToBlock d blkId blockPos
          (buf.take (BLOCK_DATA_SIZE - blockPos))) (newc.getD 0 0) newc :=
        chainFrom_congr d _ newc (newc.getD 0 0) (fun b _ => rfl) hchn
      have hneed2 : BLOCK_DATA_SIZE * (a2 :: rest).length <
          0 + (buf.drop (BLOCK_DATA_SIZE - blockPos)).length := by
        simp only [List.length_drop, List.length_cons, BLOCK_DATA_SIZE] at hneed hbp ⊢
        omega
      have hcap2 : 0 + (buf.drop (BLOCK_DATA_SIZE - blockPos)).length ≤
          BLOCK_DATA_SIZE * ((a2 :: rest).length + newc.length) := by
        simp only [List.length_drop, List.length_cons, BLOCK_DATA_SIZE] at hcap ⊢
        omega
      obtain ⟨ h1, h2, h3, h4, h5, h6, h7, h8, h9, hframe, hcontent⟩ :=
        ih newc _ a2 0 (buf.drop (BLOCK_DATA_SIZE - blockPos)) dw lb hch2
          (List.cons_ne_nil a2 rest) (List.nodup_cons.mp hnd).2 hchn2 hndn
          (fun b hbm => hdisj b (List.mem_cons_of_mem blkId hbm)) (by decide) hneed2 hcap2 hw
      have hane : blkId ∉ (a2 :: rest) ++ newc := by
        intro hm
        rcases List.mem_append.mp hm with hm | hm
        · exact (List.nodup_cons.mp hnd).1 hm
        · exact hbin hm
      have hlasteq : (blkId :: a2 :: rest).getD ((blkId :: a2 :: rest).length - 1) 0 =
          (a2 :: rest).getD ((a2 :: rest).length - 1) 0 := by
        simp only [List.length_cons]
        rw [show rest.length + 1 + 1 - 1 = (rest.length + 1 - 1) + 1 by omega]
        simp only [List.getD_cons_succ]
      refine ⟨ ?_, h2, h3, h4, h5, h6, h7, ?_, ?_, ?_, ?_⟩
      · rw [h1]
        rw [show (blockPos + buf.length - 1) / BLOCK_DATA_SIZE =
            ((0 + (buf.drop (BLOCK_DATA_SIZE - blockPos)).length - 1) / BLOCK_DATA_SIZE) + 1 by
          simp only [List.length_drop, BLOCK_DATA_SIZE] at hsm hbp ⊢
          omega]
        simp only [List.cons_append, List.getD_cons_succ]
      · rw [hlasteq]
        exact h8
      · rw [hlasteq]
        exact h9
      · intro b p hbc
        have hb1 : b ≠ blkId := by
          intro he
          refine hbc ?_
          rw [he]
          exact List.mem_append_left _ (List.mem_cons_self blkId (a2 :: rest))
        have hb2 : b ∉ (a2 :: rest) ++ newc := by
          intro hm
          rcases List.mem_append.mp hm with hm | hm
          · exact hbc (List.mem_append_left _ (List.mem_cons_of_mem blkId hm))
          · exact hbc (List.mem_append_right _ hm)
        rw [hframe b p hb2]
        exact memcpyToBlock_data_other d blkId blockPos _ b p hb1
      · intro k hk
        by_cases hkc : k < BLOCK_DATA_SIZE - blockPos
        · rw [show (blockPos + k) / BLOCK_DATA_SIZE = 0 by
              simp only [BLOCK_DATA_SIZE] at hbp hkc ⊢; omega,
            show (blockPos + k) % BLOCK_DATA_SIZE = blockPos + k by
              simp only [BLOCK_DATA_SIZE] at hbp hkc ⊢; omega]
          simp only [List.cons_append, List.getD_cons_zero]
          rw [hframe blkId (blockPos + k) hane]
          rw [memcpyToBlock_data_at d blkId blockPos _ (blockPos + k) (by omega) (by
            rw [List.length_take]
            simp only [BLOCK_DATA_SIZE] at hsm hkc ⊢
            omega)]
          rw [show blockPos + k - blockPos = k by omega]
          exact getD_take buf (BLOCK_DATA_SIZE - blockPos) k hkc
        · have hc := hcontent (k - (BLOCK_DATA_SIZE - blockPos)) (by
            simp only [List.length_drop]; omega)
          simp only [Nat.zero_add] at hc
          rw [getD_drop] at hc
          rw [show BLOCK_DATA_SIZE - blockPos + (k - (BLOCK_DATA_SIZE - blockPos)) = k by
            simp only [BLOCK_DATA_SIZE] at hbp hkc ⊢; omega] at hc
          rw [show (blockPos + k) / BLOCK_DATA_SIZE =
              ((k - (BLOCK_DATA_SIZE - blockPos)) / BLOCK_DATA_SIZE) + 1 by
            simp only [BLOCK_DATA_SIZE] at hbp hkc ⊢; omega,
            show (blockPos + k) % BLOCK_DATA_SIZE =
              (k - (BLOCK_DATA_SIZE - blockPos)) % BLOCK_DATA_SIZE by
            simp only [BLOCK_DATA_SIZE] at hbp hkc ⊢; omega]
          simp only [List.cons_append, List.getD_cons_succ]
          exact hc

/-- The read loop along a chain long enough for the request: the bytes
produced are exactly the chain bytes from position blockPos on, and the
loop ends on the block holding the last byte read. -/
theorem readLoop_spec :
    ∀ (c : List Nat) (d : Disk) (blkId blockPos toRead : Nat),
      chainFrom d blkId c → c ≠ [] →
      blockPos < BLOCK_DATA_SIZE →
      blockPos + toRead ≤ BLOCK_DATA_SIZE * c.length →
      (readLoop d blkId blockPos (sizeMin (BLOCK_DATA_SIZE - blockPos) toRead) toRead).1 =
        (List.range toRead).map (fun k =>
          d.data (c.getD ((blockPos + k) / BLOCK_DATA_SIZE) 0)
            ((blockPos + k) % BLOCK_DATA_SIZE)) ∧
      (readLoop d blkId blockPos (sizeMin (BLOCK_DATA_SIZE - blockPos) toRead) toRead).2 =
        c.getD ((blockPos + toRead - 1) / BLOCK_DATA_SIZE) 0 := by
  intro c
  induction c with
  | nil => intro d blkId blockPos toRead hch hne; exact absurd rfl hne
  | cons a c2 ih =>
    intro d blkId blockPos toRead hch _ hbp hcap
    obtain ⟨ hb, ha0, hrest⟩ := hch
    subst hb
    by_cases hsm : BLOCK_DATA_SIZE - blockPos < toRead
    · -- the request continues past the current block
      have hchunk : sizeMin (BLOCK_DATA_SIZE - blockPos) toRead = BLOCK_DATA_SIZE - blockPos := by
        unfold sizeMin; rw [if_pos hsm]
      have hne2 : c2 ≠ [] := by
        intro he
        rw [he] at hcap
        simp only [BLOCK_DATA_SIZE, List.length_cons, List.length_nil] at hcap hsm
        omega
      have hcap2 : 0 + (toRead - (BLOCK_DATA_SIZE - blockPos)) ≤
          BLOCK_DATA_SIZE * c2.length := by
        simp only [BLOCK_DATA_SIZE, List.length_cons] at hcap ⊢
        omega
      obtain ⟨ ih1, ih2⟩ := ih d (d.next blkId) 0 (toRead - (BLOCK_DATA_SIZE - blockPos))
        hrest hne2 (by decide) hcap2
      simp only [Nat.sub_zero] at ih1 ih2
      have hr : readLoop d blkId blockPos (sizeMin (BLOCK_DATA_SIZE - blockPos) toRead) toRead =
          (readFromBlock d blkId blockPos (BLOCK_DATA_SIZE - blockPos) ++
            (readLoop d (d.next blkId) 0
              (sizeMin BLOCK_DATA_SIZE (toRead - (BLOCK_DATA_SIZE - blockPos)))
              (toRead - (BLOCK_DATA_SIZE - blockPos))).1,
           (readLoop d (d.next blkId) 0
              (sizeMin BLOCK_DATA_SIZE (toRead - (BLOCK_DATA_SIZE - blockPos)))
              (toRead - (BLOCK_DATA_SIZE - blockPos))).2) := by
        rw [readLoop]
        dsimp only
        rw [hchunk, if_neg (by simp only [BLOCK_DATA_SIZE] at hsm ⊢; omega)]
      rw [hr]
      dsimp only
      constructor
      · rw [ih1]
        conv_rhs => rw [show toRead =
          (BLOCK_DATA_SIZE - blockPos) + (toRead - (BLOCK_DATA_SIZE - blockPos)) by
            simp only [BLOCK_DATA_SIZE] at hsm ⊢; omega]
        rw [List.range_add, List.map_append]
        congr 1
        · unfold readFromBlock
          refine List.map_congr_left ?_
          intro k hk
          have hk2 : k < BLOCK_DATA_SIZE - blockPos := List.mem_range.mp hk
          rw [show (blockPos + k) / BLOCK_DATA_SIZE = 0 by
              simp only [BLOCK_DATA_SIZE] at hbp hk2 ⊢; omega,
            show (blockPos + k) % BLOCK_DATA_SIZE = blockPos + k by
              simp only [BLOCK_DATA_SIZE] at hbp hk2 ⊢; omega]
          simp only [List.getD_cons_zero]
        · rw [List.map_map]
          refine List.map_congr_left ?_
          intro j hj
          have hj2 : j < toRead - (BLOCK_DATA_SIZE - blockPos) := List.mem_range.mp hj
          show d.data (c2.getD ((0 + j) / BLOCK_DATA_SIZE) 0) ((0 + j) % BLOCK_DATA_SIZE) = _
          simp only [Nat.zero_add, Function.comp]
          rw [show (blockPos + ((BLOCK_DATA_SIZE - blockPos) + j)) / BLOCK_DATA_SIZE =
              (j / BLOCK_DATA_SIZE) + 1 by
            simp only [BLOCK_DATA_SIZE] at hbp ⊢; omega,
            show (blockPos + ((BLOCK_DATA_SIZE - blockPos) + j)) % BLOCK_DATA_SIZE =
              j % BLOCK_DATA_SIZE by
            simp only [BLOCK_DATA_SIZE] at hbp ⊢; omega]
          simp only [List.getD_cons_succ]
      · rw [ih2]
        rw [show (blockPos + toRead - 1) / BLOCK_DATA_SIZE =
            ((0 + (toRead - (BLOCK_DATA_SIZE - blockPos)) - 1) / BLOCK_DATA_SIZE) + 1 by
          simp only [BLOCK_DATA_SIZE] at hbp hsm ⊢; omega]
        simp only [List.getD_cons_succ]
    · -- the whole request fits in the current block
      have hchunk : sizeMin (BLOCK_DATA_SIZE - blockPos) toRead = toRead := by
        unfold sizeMin; rw [if_neg hsm]
      have hr : readLoop d blkId blockPos (sizeMin (BLOCK_DATA_SIZE - blockPos) toRead) toRead =
          (readFromBlock d blkId blockPos toRead, blkId) := by
        rw [readLoop]
        dsimp only
        rw [hchunk, if_pos (Nat.sub_self toRead)]
      rw [hr]
      constructor
      · show readFromBlock d blkId blockPos toRead = _
        unfold readFromBlock
        refine List.map_congr_left ?_
        intro k hk
        have hk2 : k < toRead := List.mem_range.mp hk
        rw [show (blockPos + k) / BLOCK_DATA_SIZE = 0 by
            simp only [BLOCK_DATA_SIZE] at hbp hsm hk2 ⊢; omega,
          show (blockPos + k) % BLOCK_DATA_SIZE = blockPos + k by
            simp only [BLOCK_DATA_SIZE] at hbp hsm hk2 ⊢; omega]
        simp only [List.getD_cons_zero]
      · show blkId = _
        rw [show (blockPos + toRead - 1) / BLOCK_DATA_SIZE = 0 by
          simp only [BLOCK_DATA_SIZE] at hbp hsm ⊢; omega]
        simp only [List.getD_cons_zero]

/-- Splicing a second chain onto the tail of a first: when a disk
links the last block of `oldc` to the head of `newc`, leaves the other
next links of `oldc` alone and carries `newc` as a chain, the
concatenation is a chain. -/
theorem chainFrom_splice :
    ∀ (oldc : List Nat) (newc : List Nat) (d2 d : Disk) (h : Nat),
      chainFrom d h oldc → oldc ≠ [] → oldc.Nodup →
      chainFrom d2 (newc.getD 0 0) newc → newc ≠ [] →
      (∀ b ∈ oldc, b ∉ newc) →
      (∀ b, b ∈ oldc → b ≠ oldc.getD (oldc.length - 1) 0 → d2.next b = d.next b) →
      d2.next (oldc.getD (oldc.length - 1) 0) = newc.getD 0 0 →
      chainFrom d2 h (oldc ++ newc) := by
  intro oldc
  induction oldc with
  | nil => intro newc d2 d h _ hne; exact absurd rfl hne
  | cons a oldc2 ih =>
    intro newc d2 d h hch _ hnd hchn hnn hdisj hother hlast
    obtain ⟨ hb, ha0, hrest⟩ := hch
    cases oldc2 with
    | nil =>
      refine ⟨ hb, ha0, ?_⟩
      show chainFrom d2 (d2.next a) newc
      rw [show ([a] : List Nat).getD (([a] : List Nat).length - 1) 0 = a from rfl] at hlast
      rw [hlast]
      cases newc with
      | nil => exact absurd rfl hnn
      | cons n0 newc2 => exact hchn
    | cons a2 rest =>
      refine ⟨ hb, ha0, ?_⟩
      have hmem : (a2 :: rest).getD ((a2 :: rest).length - 1) 0 ∈ a2 :: rest :=
        getD_mem (a2 :: rest) ((a2 :: rest).length - 1) (by simp)
      have hane : a ≠ (a :: a2 :: rest).getD ((a :: a2 :: rest).length - 1) 0 := by
        have : (a :: a2 :: rest).getD ((a :: a2 :: rest).length - 1) 0 =
            (a2 :: rest).getD ((a2 :: rest).length - 1) 0 := by
          simp only [List.length_cons]
          rw [show rest.length + 1 + 1 - 1 = (rest.length + 1 - 1) + 1 by omega]
          simp only [List.getD_cons_succ]
        rw [this]
        intro he
        exact (List.nodup_cons.mp hnd).1 (he ▸ hmem)
      show chainFrom d2 (d2.next a) ((a2 :: rest) ++ newc)
      rw [hother a (List.mem_cons_self a (a2 :: rest)) hane, hrest.1]
      refine ih newc d2 d a2 (hrest.1 ▸ hrest) (List.cons_ne_nil a2 rest)
        (List.nodup_cons.mp hnd).2 hchn hnn
        (fun b hbm => hdisj b (List.mem_cons_of_mem a hbm)) ?_ ?_
      · intro b hbm hbne
        refine hother b (List.mem_cons_of_mem a hbm) ?_
        intro he
        rw [he] at hbm hbne
        revert hbm
        simp only [List.length_cons]
        rw [show rest.length + 1 + 1 - 1 = (rest.length + 1 - 1) + 1 by omega]
        simp only [List.getD_cons_succ]
        intro hbm
        exact hbne rfl
      · rw [show (a2 :: rest).getD ((a2 :: rest).length - 1) 0 =
            (a :: a2 :: rest).getD ((a :: a2 :: rest).length - 1) 0 by
          simp only [List.length_cons]
          rw [show rest.length + 1 + 1 - 1 = (rest.length + 1 - 1) + 1 by omega]
          simp only [List.getD_cons_succ]]
        exact hlast

/-- drop distributes over append when the count stays inside the
first part. -/
theorem drop_append :
    ∀ (l1 l2 : List Nat) (q : Nat), q ≤ l1.length →
      (l1 ++ l2).drop q = l1.drop q ++ l2 := by
  intro l1
  induction l1 with
  | nil =>
    intro l2 q hq
    simp only [List.length_nil, Nat.le_zero] at hq
    subst hq
    simp
  | cons a t ih =>
    intro l2 q hq
    cases q with
    | zero => simp
    | succ m =>
      simp only [List.cons_append, List.drop_succ_cons]
      exact ih l2 m (by simpa using hq)

/-- allocateBlocks on a sufficient free list: the detached prefix is a
chain from the old head, and nothing else of the disk changes (data,
directory, superblock scalars; headers outside the free list). -/
theorem allocateBlocks_chain_spec (d : Disk) (n : Nat) (tag : List Nat) (freeIds : List Nat)
    (hch : chainFrom d d.freelist freeIds) (hnd : freeIds.Nodup)
    (hn0 : n ≠ 0) (hle : n ≤ freeIds.length) :
    (allocateBlocks d n tag).1 = d.freelist ∧
    chainFrom (allocateBlocks d n tag).2 d.freelist (freeIds.take n) ∧
    (allocateBlocks d n tag).2.magic = d.magic ∧
    (allocateBlocks d n tag).2.nBlocks = d.nBlocks ∧
    (allocateBlocks d n tag).2.nextRootdir = d.nextRootdir ∧
    (allocateBlocks d n tag).2.files = d.files ∧
    (allocateBlocks d n tag).2.data = d.data ∧
    (∀ b, b ∉ freeIds → (allocateBlocks d n tag).2.next b = d.next b) ∧
    (∀ b, b ∉ freeIds → (allocateBlocks d n tag).2.prev b = d.prev b) := by
  rcases Nat.lt_or_ge n freeIds.length with hlt | hge
  · rw [allocateBlocks_eq_part d n tag freeIds hch hnd hn0 hlt]
    have hmem1 : freeIds.getD (n - 1) 0 ∈ freeIds := getD_mem freeIds (n - 1) (by omega)
    have hmem2 : freeIds.getD n 0 ∈ freeIds := getD_mem freeIds n hlt
    refine ⟨ rfl, ?_, rfl, rfl, rfl, rfl, rfl, ?_, ?_⟩
    · refine chainFrom_take_cut d _ freeIds d.freelist n hch hnd hn0 (by omega) ?_ ?_
      · intro b hb
        show (if b = freeIds.getD (n - 1) 0 then 0 else d.next b) = d.next b
        rw [if_neg hb]
      · show (if freeIds.getD (n - 1) 0 = freeIds.getD (n - 1) 0 then 0 else _) = 0
        rw [if_pos rfl]
    · intro b hb
      show (if b = freeIds.getD (n - 1) 0 then 0 else d.next b) = d.next b
      rw [if_neg (fun he => hb (by rw [he]; exact hmem1))]
    · intro b hb
      show (if b = freeIds.getD n 0 then 0 else d.prev b) = d.prev b
      rw [if_neg (fun he => hb (by rw [he]; exact hmem2))]
  · have hlen : n = freeIds.length := by omega
    rw [allocateBlocks_eq_all d n tag freeIds hch hn0 hlen]
    refine ⟨ rfl, ?_, rfl, rfl, rfl, rfl, rfl, fun b _ => rfl, fun b _ => rfl⟩
    rw [hlen, List.take_length]
    exact chainFrom_congr d _ freeIds d.freelist (fun b _ => rfl) hch

/-- The write loop entered at chain index q, offset bp of that block:
combined statement of the no-splice and splice cases, concluding with
the combined chain. -/
theorem writeLoop_mid_spec (dA : Disk) (ids newIds : List Nat) (q bp : Nat) (buf : List Nat)
    (dw : Disk) (lbk : Nat)
    (hch : chainFrom dA (ids.getD 0 0) ids) (hnd : ids.Nodup)
    (hchn : chainFrom dA (newIds.getD 0 0) newIds) (hndn : newIds.Nodup)
    (hdisj : ∀ b ∈ ids, b ∉ newIds)
    (hq : q < ids.length) (hbp : bp < BLOCK_DATA_SIZE)
    (hcap : bp + buf.length ≤ BLOCK_DATA_SIZE * ((ids.length - q) + newIds.length))
    (hfit : bp + buf.length ≤ BLOCK_DATA_SIZE * (ids.length - q) → newIds = [])
    (hw : writeLoop dA (ids.getD q 0) bp buf (sizeMin (BLOCK_DATA_SIZE - bp) buf.length)
      (newIds.getD 0 0) = (dw, lbk)) :
    lbk = (ids ++ newIds).getD (q + (bp + buf.length - 1) / BLOCK_DATA_SIZE) 0 ∧
    dw.magic = dA.magic ∧ dw.nBlocks = dA.nBlocks ∧ dw.nextRootdir = dA.nextRootdir ∧
    dw.files = dA.files ∧
    chainFrom dw (ids.getD 0 0) (ids ++ newIds) ∧
    (∀ k, k < buf.length →
      dw.data ((ids ++ newIds).getD (q + (bp + k) / BLOCK_DATA_SIZE) 0)
        ((bp + k) % BLOCK_DATA_SIZE) = buf.getD k 0) := by
  have hsfx := chainFrom_drop dA ids (ids.getD 0 0) q hch
  have hsne : ids.drop q ≠ [] := by
    intro he
    have hl := congrArg List.length he
    simp only [List.length_drop, List.length_nil] at hl
    omega
  have hsnd : (ids.drop q).Nodup := List.Nodup.sublist (List.drop_sublist q ids) hnd
  by_cases hsp : bp + buf.length ≤ BLOCK_DATA_SIZE * (ids.length - q)
  · -- the write fits inside the old chain: no splice
    have hnil : newIds = [] := hfit hsp
    subst hnil
    obtain ⟨ h1, h2, h3, h4, h5, h6, h7, h8, h9, hframe, hcontent⟩ :=
      writeLoop_spec (ids.drop q) dA (ids.getD q 0) bp (([] : List Nat).getD 0 0) buf dw lbk
        hsfx hsne hsnd hbp (by rw [List.length_drop]; omega) hw
    refine ⟨ ?_, h2, h3, h5, h6, ?_, ?_⟩
    · rw [h1, getD_drop, List.append_nil]
    · rw [List.append_nil]
      exact chainFrom_congr dA dw ids (ids.getD 0 0) (fun b _ => by rw [h9]) hch
    · intro k hk
      have hc := hcontent k hk
      rw [getD_drop] at hc
      rw [List.append_nil]
      exact hc
  · -- the old chain runs out: the loop splices the new chain on
    have hneed : BLOCK_DATA_SIZE * (ids.drop q).length < bp + buf.length := by
      rw [List.length_drop]; omega
    have hcap2 : bp + buf.length ≤ BLOCK_DATA_SIZE * ((ids.drop q).length + newIds.length) := by
      rw [List.length_drop]; omega
    obtain ⟨ h1, h2, h3, h4, h5, h6, h7, h8, h9, hframe, hcontent⟩ :=
      writeLoop_splice_spec (ids.drop q) newIds dA (ids.getD q 0) bp buf dw lbk
        hsfx hsne hsnd hchn hndn (fun b hb => hdisj b (List.drop_subset q ids hb))
        hbp hneed hcap2 hw
    have hida : ids.drop q ++ newIds = (ids ++ newIds).drop q :=
      (drop_append ids newIds q (by omega)).symm
    have hlastset : (ids.drop q).getD ((ids.drop q).length - 1) 0 =
        ids.getD (ids.length - 1) 0 := by
      rw [getD_drop, List.length_drop]
      congr 1
      omega
    have hidsne : ids ≠ [] := by
      intro he
      rw [he] at hq
      simp at hq
    have hlmem : ids.getD (ids.length - 1) 0 ∈ ids :=
      getD_mem ids (ids.length - 1) (by omega)
    have hlnotin : ids.getD (ids.length - 1) 0 ∉ newIds := hdisj _ hlmem
    rw [hlastset] at h8 h9
    refine ⟨ ?_, h2, h3, h5, h6, ?_, ?_⟩
    · rw [h1, hida, getD_drop]
    · refine chainFrom_splice ids newIds dw dA (ids.getD 0 0) hch hidsne hnd ?_ ?_ hdisj ?_ ?_
      · refine chainFrom_congr dA dw newIds (newIds.getD 0 0) ?_ hchn
        intro b hb
        rw [h8]
        show (if b = ids.getD (ids.length - 1) 0 then newIds.getD 0 0 else dA.next b) = dA.next b
        rw [if_neg (fun he => hlnotin (by rw [← he]; exact hb))]
      · intro he
        rw [he] at hcap2
        simp only [List.length_drop, List.length_nil, Nat.add_zero] at hcap2
        omega
      · intro b _ hbne
        rw [h8]
        show (if b = ids.getD (ids.length - 1) 0 then newIds.getD 0 0 else dA.next b) = dA.next b
        rw [if_neg hbne]
      · rw [h8]
        show (if ids.getD (ids.length - 1) 0 = ids.getD (ids.length - 1) 0 then newIds.getD 0 0
          else _) = newIds.getD 0 0
        rw [if_pos rfl]
    · intro k hk
      have hc := hcontent k hk
      rw [hida, getD_drop] at hc
      exact hc

/-- The write loop exactly as sfs_write enters it: the current block
named by the descriptor position, the first chunk running to the end
of that block (zero when the position sits at a block boundary).
Concludes on the combined chain ids ++ newIds. -/
theorem writeLoop_entry_spec (dA : Disk) (ids newIds : List Nat) (pos : Nat) (buf : List Nat)
    (dw : Disk) (lbk : Nat)
    (hch : chainFrom dA (ids.getD 0 0) ids) (hnd : ids.Nodup) (hidsne : ids ≠ [])
    (hchn : chainFrom dA (newIds.getD 0 0) newIds) (hndn : newIds.Nodup)
    (hdisj : ∀ b ∈ ids, b ∉ newIds)
    (hpos : pos ≤ BLOCK_DATA_SIZE * ids.length)
    (hbuf : buf ≠ [])
    (hcap : pos + buf.length ≤ BLOCK_DATA_SIZE * (ids.length + newIds.length))
    (hfit : pos + buf.length ≤ BLOCK_DATA_SIZE * ids.length → newIds = [])
    (hw : writeLoop dA (ids.getD (posBlockIdx pos) 0) (pos % BLOCK_DATA_SIZE) buf
      (sizeMin (roundUp pos BLOCK_DATA_SIZE - pos) buf.length) (newIds.getD 0 0) = (dw, lbk)) :
    lbk = (ids ++ newIds).getD (posBlockIdx (pos + buf.length)) 0 ∧
    dw.magic = dA.magic ∧ dw.nBlocks = dA.nBlocks ∧ dw.nextRootdir = dA.nextRootdir ∧
    dw.files = dA.files ∧
    chainFrom dw (ids.getD 0 0) (ids ++ newIds) ∧
    (∀ k, k < buf.length →
      dw.data ((ids ++ newIds).getD ((pos + k) / BLOCK_DATA_SIZE) 0)
        ((pos + k) % BLOCK_DATA_SIZE) = buf.getD k 0) := by
  have hlen0 : 0 < buf.length := List.length_pos.mpr hbuf
  have hil : 0 < ids.length := List.length_pos.mpr hidsne
  by_cases hbd : pos % BLOCK_DATA_SIZE = 0 ∧ pos ≠ 0
  · obtain ⟨ hm0, hp0⟩ := hbd
    have hqb : 1 ≤ pos / BLOCK_DATA_SIZE ∧ pos = BLOCK_DATA_SIZE * (pos / BLOCK_DATA_SIZE) := by
      simp only [BLOCK_DATA_SIZE] at *
      omega
    have hqle : pos / BLOCK_DATA_SIZE ≤ ids.length := by
      simp only [BLOCK_DATA_SIZE] at *
      omega
    have hpbi : posBlockIdx pos = pos / BLOCK_DATA_SIZE - 1 := by
      unfold posBlockIdx
      rw [if_neg hp0]
      simp only [BLOCK_DATA_SIZE] at *
      omega
    rw [hpbi, hm0, roundUp_multiple pos hp0 hm0, Nat.sub_self, sizeMin_zero_left,
      writeLoop_chunk_zero dA (ids.getD (pos / BLOCK_DATA_SIZE - 1) 0) (newIds.getD 0 0) buf hbuf]
      at hw
    have hnext : dA.next (ids.getD (pos / BLOCK_DATA_SIZE - 1) 0) =
        ids.getD (pos / BLOCK_DATA_SIZE) 0 := by
      have hstep := chainFrom_getD_next dA ids (ids.getD 0 0) (pos / BLOCK_DATA_SIZE - 1) hch
        (by simp only [BLOCK_DATA_SIZE] at *; omega)
      rw [show pos / BLOCK_DATA_SIZE - 1 + 1 = pos / BLOCK_DATA_SIZE by omega] at hstep
      exact hstep
    rw [hnext] at hw
    by_cases hqlen : pos / BLOCK_DATA_SIZE < ids.length
    · -- the next block still belongs to the old chain: walk into it
      have hnz : ids.getD (pos / BLOCK_DATA_SIZE) 0 ≠ 0 :=
        chainFrom_ne_zero dA ids _ hch _ (getD_mem ids _ hqlen)
      rw [if_neg hnz] at hw
      obtain ⟨ h1, h2, h3, h4, h5, h6, h7⟩ :=
        writeLoop_mid_spec dA ids newIds (pos / BLOCK_DATA_SIZE) 0 buf dw lbk hch hnd hchn hndn
          hdisj hqlen (by decide)
          (by simp only [BLOCK_DATA_SIZE] at *; omega)
          (by intro hle2; refine hfit ?_; simp only [BLOCK_DATA_SIZE] at *; omega) hw
      refine ⟨ ?_, h2, h3, h4, h5, h6, ?_⟩
      · have hpeq : pos / BLOCK_DATA_SIZE + (0 + buf.length - 1) / BLOCK_DATA_SIZE =
            posBlockIdx (pos + buf.length) := by
          unfold posBlockIdx
          rw [if_neg (by omega)]
          simp only [BLOCK_DATA_SIZE] at *
          omega
        rw [h1, hpeq]
      · intro k hk
        have hc := h7 k hk
        rw [show pos / BLOCK_DATA_SIZE + (0 + k) / BLOCK_DATA_SIZE =
            (pos + k) / BLOCK_DATA_SIZE by
            simp only [BLOCK_DATA_SIZE] at *; omega,
          show (0 + k) % BLOCK_DATA_SIZE = (pos + k) % BLOCK_DATA_SIZE by
            simp only [BLOCK_DATA_SIZE] at *; omega] at hc
        exact hc
    · -- the position sits at the very end of the old chain: splice there
      have hqeq : pos / BLOCK_DATA_SIZE = ids.length := by
        simp only [BLOCK_DATA_SIZE] at *
        omega
      rw [hqeq, getD_of_length_le ids ids.length (le_refl _), if_pos rfl] at hw
      have hnn : newIds ≠ [] := by
        intro he
        rw [he] at hcap
        simp only [List.length_nil, Nat.add_zero, BLOCK_DATA_SIZE] at hcap hqb hqeq
        omega
      have hlmem : ids.getD (ids.length - 1) 0 ∈ ids := getD_mem ids (ids.length - 1) (by omega)
      have hlnotin : ids.getD (ids.length - 1) 0 ∉ newIds := hdisj _ hlmem
      have hch2 : chainFrom ((dA.setNext (ids.getD (ids.length - 1) 0) (newIds.getD 0 0)).setPrev
          (newIds.getD 0 0) (ids.getD (ids.length - 1) 0)) (newIds.getD 0 0) newIds := by
        refine chainFrom_congr dA _ newIds (newIds.getD 0 0) ?_ hchn
        intro b hb
        show (if b = ids.getD (ids.length - 1) 0 then newIds.getD 0 0 else dA.next b) = dA.next b
        rw [if_neg (fun he => hlnotin (by rw [← he]; exact hb))]
      obtain ⟨ h1, h2, h3, h4, h5, h6, h7, h8, h9, hframe, hcontent⟩ :=
        writeLoop_spec newIds _ (newIds.getD 0 0) 0 0 buf dw lbk hch2 hnn hndn (by decide)
          (by simp only [BLOCK_DATA_SIZE] at *; omega) hw
      refine ⟨ ?_, h2, h3, h5, h6, ?_, ?_⟩
      · have hpeq : posBlockIdx (pos + buf.length) =
            ids.length + (0 + buf.length - 1) / BLOCK_DATA_SIZE := by
          unfold posBlockIdx
          rw [if_neg (by omega)]
          simp only [BLOCK_DATA_SIZE] at *
          omega
        rw [h1, hpeq, getD_append_right]
      · refine chainFrom_splice ids newIds dw dA (ids.getD 0 0) hch hidsne hnd ?_ hnn hdisj ?_ ?_
        · refine chainFrom_congr dA dw newIds (newIds.getD 0 0) ?_ hchn
          intro b hb
          rw [h9]
          show (if b = ids.getD (ids.length - 1) 0 then newIds.getD 0 0 else dA.next b) = dA.next b
          rw [if_neg (fun he => hlnotin (by rw [← he]; exact hb))]
        · intro b _ hbne
          rw [h9]
          show (if b = ids.getD (ids.length - 1) 0 then newIds.getD 0 0 else dA.next b) = dA.next b
          rw [if_neg hbne]
        · rw [h9]
          show (if ids.getD (ids.length - 1) 0 = ids.getD (ids.length - 1) 0 then newIds.getD 0 0
            else _) = newIds.getD 0 0
          rw [if_pos rfl]
      · intro k hk
        have hc := hcontent k hk
        simp only [Nat.zero_add] at hc
        rw [show (pos + k) / BLOCK_DATA_SIZE = ids.length + k / BLOCK_DATA_SIZE by
            simp only [BLOCK_DATA_SIZE] at *; omega,
          show (pos + k) % BLOCK_DATA_SIZE = k % BLOCK_DATA_SIZE by
            simp only [BLOCK_DATA_SIZE] at *; omega]
        rw [getD_append_right]
        exact hc
  · -- straight entry: the position is inside its block (or zero)
    have hcase : pos % BLOCK_DATA_SIZE ≠ 0 ∨ pos = 0 := by
      by_cases hp0 : pos = 0
      · exact Or.inr hp0
      · exact Or.inl (fun hm => hbd ⟨ hm, hp0⟩)
    have hpbi : posBlockIdx pos = pos / BLOCK_DATA_SIZE := by
      unfold posBlockIdx
      rcases hcase with hm | hp0
      · rw [if_neg (fun h0 => hm (by rw [h0]; decide))]
        simp only [BLOCK_DATA_SIZE] at *
        omega
      · subst hp0
        rw [if_pos rfl]
        simp only [Nat.zero_div]
    rw [hpbi, roundUp_sub_pos pos hcase] at hw
    have hqlt : pos / BLOCK_DATA_SIZE < ids.length := by
      rcases hcase with hm | hp0
      · simp only [BLOCK_DATA_SIZE] at *
        omega
      · subst hp0
        simp only [Nat.zero_div]
        omega
    obtain ⟨ h1, h2, h3, h4, h5, h6, h7⟩ :=
      writeLoop_mid_spec dA ids newIds (pos / BLOCK_DATA_SIZE) (pos % BLOCK_DATA_SIZE) buf dw lbk
        hch hnd hchn hndn hdisj hqlt (Nat.mod_lt pos (by decide))
        (by simp only [BLOCK_DATA_SIZE] at *; omega)
        (by intro hle2; refine hfit ?_; simp only [BLOCK_DATA_SIZE] at *; omega) hw
    refine ⟨ ?_, h2, h3, h4, h5, h6, ?_⟩
    · have hpeq : pos / BLOCK_DATA_SIZE +
          (pos % BLOCK_DATA_SIZE + buf.length - 1) / BLOCK_DATA_SIZE =
          posBlockIdx (pos + buf.length) := by
        unfold posBlockIdx
        rw [if_neg (by omega)]
        simp only [BLOCK_DATA_SIZE]
        omega
      rw [h1, hpeq]
    · intro k hk
      have hc := h7 k hk
      rw [show pos / BLOCK_DATA_SIZE + (pos % BLOCK_DATA_SIZE + k) / BLOCK_DATA_SIZE =
          (pos + k) / BLOCK_DATA_SIZE by simp only [BLOCK_DATA_SIZE]; omega,
        show (pos % BLOCK_DATA_SIZE + k) % BLOCK_DATA_SIZE = (pos + k) % BLOCK_DATA_SIZE by
          simp only [BLOCK_DATA_SIZE]; omega] at hc
      exact hc

/-- The head id of a nonempty chain is its getD 0. -/
theorem chainFrom_getD_head (d : Disk) (c : List Nat) (h : Nat) (hch : chainFrom d h c)
    (hne : c ≠ []) : chainFrom d (c.getD 0 0) c := by
  cases c with
  | nil => exact absurd rfl hne
  | cons a t =>
    obtain ⟨ h1, h2, h3⟩ := hch
    exact ⟨ rfl, h2, h3⟩

/-- roundUp to 500 never passes a positive multiple of 500 lying at or
above the argument. -/
theorem roundUp_le_multiple (a b : Nat) (hab : a ≤ b) (hb : b % BLOCK_DATA_SIZE = 0)
    (h0 : 0 < b) : roundUp a BLOCK_DATA_SIZE ≤ b := by
  unfold roundUp
  simp only [BLOCK_DATA_SIZE] at *
  split
  · omega
  · omega

/-- roundUp to 500 produces a multiple of 500. -/
theorem roundUp_mod (a : Nat) : roundUp a BLOCK_DATA_SIZE % BLOCK_DATA_SIZE = 0 := by
  unfold roundUp
  simp only [BLOCK_DATA_SIZE]
  omega

/-- The success path of sfs_write, on a valid open descriptor of a
well-formed file chain with a well-formed free list: the call returns
the byte count, advances the descriptor to the end position, grows the
directory size when the end passes the old size, leaves every other
descriptor and directory entry alone, keeps the file chain (extended
by the freshly allocated blocks when the write grows the file), and
stores byte k of the buffer at file offset currPos + k of that chain. -/
theorem sfs_write_success (fs : FS) (fd : Int) (buf : List Nat) (tFile : FileDesc)
    (ids freeIds newIds : List Nat) (addl : Nat)
    (hfd0 : 0 ≤ fd) (hfd : fd < (OPEN_FILE_LIMIT : Int))
    (hdesc : fs.descTable fd.toNat = some tFile)
    (hch : chainFrom fs.disk (fs.disk.files tFile.fileEntryIdx).firstBlock ids)
    (hnd : ids.Nodup)
    (halloc : BLOCK_DATA_SIZE * ids.length =
      roundUp (fs.disk.files tFile.fileEntryIdx).size BLOCK_DATA_SIZE)
    (hposle : tFile.currPos ≤ (fs.disk.files tFile.fileEntryIdx).size)
    (hcb : tFile.currBlock = ids.getD (posBlockIdx tFile.currPos) 0)
    (hfree : chainFrom fs.disk fs.disk.freelist freeIds)
    (hfnd : freeIds.Nodup)
    (hdisj : ∀ b ∈ ids, b ∉ freeIds)
    (hbuf : buf ≠ [])
    (haddl : addl = (roundUp (buf.length + tFile.currPos) BLOCK_DATA_SIZE -
      roundUp (fs.disk.files tFile.fileEntryIdx).size BLOCK_DATA_SIZE) / BLOCK_DATA_SIZE)
    (hnew : newIds = freeIds.take addl)
    (hok : buf.length + tFile.currPos ≤
        roundUp (fs.disk.files tFile.fileEntryIdx).size BLOCK_DATA_SIZE ∨
      (roundUp (buf.length + tFile.currPos) BLOCK_DATA_SIZE ≤ SFS_MAX_FILE_SIZE ∧
        addl ≤ freeIds.length)) :
    (sfs_write fs fd buf).1 = Int.ofNat buf.length ∧
    (sfs_write fs fd buf).2.mounted = fs.mounted ∧
    (sfs_write fs fd buf).2.openFileTable = fs.openFileTable ∧
    (sfs_write fs fd buf).2.disk.magic = fs.disk.magic ∧
    (sfs_write fs fd buf).2.disk.nBlocks = fs.disk.nBlocks ∧
    (sfs_write fs fd buf).2.descTable fd.toNat =
      some { tFile with
               currBlock := (ids ++ newIds).getD (posBlockIdx (buf.length + tFile.currPos)) 0,
               currPos := buf.length + tFile.currPos } ∧
    (∀ i, i ≠ fd.toNat → (sfs_write fs fd buf).2.descTable i = fs.descTable i) ∧
    ((sfs_write fs fd buf).2.disk.files tFile.fileEntryIdx).firstBlock =
      (fs.disk.files tFile.fileEntryIdx).firstBlock ∧
    ((sfs_write fs fd buf).2.disk.files tFile.fileEntryIdx).name =
      (fs.disk.files tFile.fileEntryIdx).name ∧
    ((sfs_write fs fd buf).2.disk.files tFile.fileEntryIdx).size =
      (if buf.length + tFile.currPos > (fs.disk.files tFile.fileEntryIdx).size then
        buf.length + tFile.currPos else (fs.disk.files tFile.fileEntryIdx).size) ∧
    (∀ i, i ≠ tFile.fileEntryIdx →
      (sfs_write fs fd buf).2.disk.files i = fs.disk.files i) ∧
    chainFrom (sfs_write fs fd buf).2.disk
      ((fs.disk.files tFile.fileEntryIdx).firstBlock) (ids ++ newIds) ∧
    (∀ k, k < buf.length →
      chainByte (sfs_write fs fd buf).2.disk (ids ++ newIds) (tFile.currPos + k) =
        buf.getD k 0) ∧
    buf.length + tFile.currPos ≤ BLOCK_DATA_SIZE * (ids ++ newIds).length := by
  subst hnew
  have hguard : ¬ (fd < 0 ∨ fd > (OPEN_FILE_LIMIT : Int)) := by
    simp only [OPEN_FILE_LIMIT] at *
    omega
  have h500 : (0 : Nat) < BLOCK_DATA_SIZE := by decide
  have hlen0 : 0 < buf.length := List.length_pos.mpr hbuf
  have hrupos := roundUp_pos (fs.disk.files tFile.fileEntryIdx).size BLOCK_DATA_SIZE h500
  have hidsne : ids ≠ [] := by
    intro he
    rw [he] at halloc
    simp only [List.length_nil, Nat.mul_zero] at halloc
    omega
  have hil : 0 < ids.length := List.length_pos.mpr hidsne
  have hhead : chainFrom fs.disk (ids.getD 0 0) ids :=
    chainFrom_getD_head fs.disk ids _ hch hidsne
  have hfb : (fs.disk.files tFile.fileEntryIdx).firstBlock = ids.getD 0 0 := by
    cases ids with
    | nil => exact absurd rfl hidsne
    | cons a t => exact hch.1
  have hszle := le_roundUp (fs.disk.files tFile.fileEntryIdx).size BLOCK_DATA_SIZE h500
  have hposle2 : tFile.currPos ≤ BLOCK_DATA_SIZE * ids.length := by omega
  by_cases hgrow : buf.length + tFile.currPos >
      roundUp (fs.disk.files tFile.fileEntryIdx).size BLOCK_DATA_SIZE
  · -- the write grows the file: blocks are allocated up front
    have hok2 : roundUp (buf.length + tFile.currPos) BLOCK_DATA_SIZE ≤ SFS_MAX_FILE_SIZE ∧
        addl ≤ freeIds.length := by
      rcases hok with h | h
      · omega
      · exact h
    have hrue := le_roundUp (buf.length + tFile.currPos) BLOCK_DATA_SIZE h500
    have hrum := roundUp_mod (buf.length + tFile.currPos)
    have hallocm : (BLOCK_DATA_SIZE * ids.length) % BLOCK_DATA_SIZE = 0 := by
      simp only [BLOCK_DATA_SIZE]
      omega
    have haddlm : BLOCK_DATA_SIZE * addl =
        roundUp (buf.length + tFile.currPos) BLOCK_DATA_SIZE -
          roundUp (fs.disk.files tFile.fileEntryIdx).size BLOCK_DATA_SIZE := by
      rw [haddl]
      simp only [BLOCK_DATA_SIZE] at *
      omega
    have haddl1 : 1 ≤ addl := by
      simp only [BLOCK_DATA_SIZE] at haddlm halloc hgrow hrue ⊢
      omega
    obtain ⟨ ha1, ha2, ha3, ha4, ha5, ha6, ha7, ha8, ha9⟩ :=
      allocateBlocks_chain_spec fs.disk addl SFS_BLOCK_TYPE_FILE freeIds hfree hfnd
        (by omega) hok2.2
    have hfrne : freeIds ≠ [] := by
      intro he
      rw [he] at hok2
      simp only [List.length_nil] at hok2
      omega
    have hfl0 : fs.disk.freelist ≠ 0 := by
      cases freeIds with
      | nil => exact absurd rfl hfrne
      | cons f t =>
        obtain ⟨ h1, h2, h3⟩ := hfree
        rw [h1]
        exact h2
    have htkne : freeIds.take addl ≠ [] := by
      intro he
      have hl := congrArg List.length he
      simp only [List.length_take, List.length_nil] at hl
      omega
    have htklen : (freeIds.take addl).length = addl := by
      rw [List.length_take]
      omega
    have hchn : chainFrom (allocateBlocks fs.disk addl SFS_BLOCK_TYPE_FILE).2
        ((freeIds.take addl).getD 0 0) (freeIds.take addl) :=
      chainFrom_getD_head _ _ _ ha2 htkne
    have hfhead : fs.disk.freelist = (freeIds.take addl).getD 0 0 := by
      cases htk : freeIds.take addl with
      | nil => exact absurd htk htkne
      | cons f t =>
        rw [htk] at ha2
        exact ha2.1
    have hchA : chainFrom (allocateBlocks fs.disk addl SFS_BLOCK_TYPE_FILE).2
        (ids.getD 0 0) ids := by
      refine chainFrom_congr fs.disk _ ids (ids.getD 0 0) ?_ hhead
      intro b hb
      exact ha8 b (hdisj b hb)
    have hcapE : tFile.currPos + buf.length ≤
        BLOCK_DATA_SIZE * (ids.length + (freeIds.take addl).length) := by
      rw [htklen]
      simp only [BLOCK_DATA_SIZE] at haddlm halloc hrue ⊢
      omega
    rcases hwl : writeLoop (allocateBlocks fs.disk addl SFS_BLOCK_TYPE_FILE).2 tFile.currBlock
        (tFile.currPos % BLOCK_DATA_SIZE) buf
        (sizeMin (roundUp tFile.currPos BLOCK_DATA_SIZE - tFile.currPos) buf.length)
        (allocateBlocks fs.disk addl SFS_BLOCK_TYPE_FILE).1 with ⟨ dw, lbk⟩
    rw [hcb, ha1, hfhead] at hwl
    obtain ⟨ h1, h2, h3, h4, h5, h6, h7⟩ :=
      writeLoop_entry_spec (allocateBlocks fs.disk addl SFS_BLOCK_TYPE_FILE).2 ids
        (freeIds.take addl) tFile.currPos buf dw lbk hchA hnd hidsne hchn
        (List.Nodup.sublist (List.take_sublist addl freeIds) hfnd)
        (fun b hb hm => hdisj b hb (List.take_subset addl freeIds hm))
        hposle2 hbuf hcapE
        (fun hle2 => absurd hle2 (by simp only [BLOCK_DATA_SIZE] at halloc hgrow ⊢; omega))
        hwl
    have hmain : sfs_write fs fd buf =
        (Int.ofNat buf.length,
         { fs with
             disk := if buf.length + tFile.currPos >
                 (fs.disk.files tFile.fileEntryIdx).size then
                 dw.setFile tFile.fileEntryIdx
                   { dw.files tFile.fileEntryIdx with size := buf.length + tFile.currPos }
               else dw,
             descTable := fun i => if i = fd.toNat then
                 some { tFile with currBlock := lbk, currPos := buf.length + tFile.currPos }
               else fs.descTable i }) := by
      unfold sfs_write
      rw [if_neg hguard, hdesc]
      dsimp only
      rw [if_pos hgrow]
      rw [if_neg (by omega)]
      rw [← haddl]
      rw [if_neg (by rw [ha1]; exact hfl0)]
      dsimp only
      rw [hcb, ha1, hfhead, hwl]
    rw [hmain]
    refine ⟨ rfl, rfl, rfl, ?_, ?_, ?_, ?_, ?_, ?_, ?_, ?_, ?_, ?_, ?_⟩
    · split
      · show dw.magic = fs.disk.magic
        rw [h2, ha3]
      · show dw.magic = fs.disk.magic
        rw [h2, ha3]
    · split
      · show dw.nBlocks = fs.disk.nBlocks
        rw [h3, ha4]
      · show dw.nBlocks = fs.disk.nBlocks
        rw [h3, ha4]
    · dsimp only
      rw [if_pos rfl, h1, Nat.add_comm tFile.currPos buf.length]
    · intro i hi
      dsimp only
      rw [if_neg hi]
    · split
      · show (if tFile.fileEntryIdx = tFile.fileEntryIdx then
            { dw.files tFile.fileEntryIdx with size := buf.length + tFile.currPos }
          else dw.files tFile.fileEntryIdx).firstBlock =
            (fs.disk.files tFile.fileEntryIdx).firstBlock
        rw [if_pos rfl]
        show (dw.files tFile.fileEntryIdx).firstBlock = _
        rw [h5, ha6]
      · show (dw.files tFile.fileEntryIdx).firstBlock = _
        rw [h5, ha6]
    · split
      · show (if tFile.fileEntryIdx = tFile.fileEntryIdx then
            { dw.files tFile.fileEntryIdx with size := buf.length + tFile.currPos }
          else dw.files tFile.fileEntryIdx).name =
            (fs.disk.files tFile.fileEntryIdx).name
        rw [if_pos rfl]
        show (dw.files tFile.fileEntryIdx).name = _
        rw [h5, ha6]
      · show (dw.files tFile.fileEntryIdx).name = _
        rw [h5, ha6]
    · split
      · next hsz =>
        show (if tFile.fileEntryIdx = tFile.fileEntryIdx then
            { dw.files tFile.fileEntryIdx with size := buf.length + tFile.currPos }
          else dw.files tFile.fileEntryIdx).size = buf.length + tFile.currPos
        rw [if_pos rfl]
      · next hsz =>
        show (dw.files tFile.fileEntryIdx).size = (fs.disk.files tFile.fileEntryIdx).size
        rw [h5, ha6]
    · intro i hi
      split
      · show (if i = tFile.fileEntryIdx then
            { dw.files tFile.fileEntryIdx with size := buf.length + tFile.currPos }
          else dw.files i) = fs.disk.files i
        rw [if_neg hi]
        show dw.files i = _
        rw [h5, ha6]
      · show dw.files i = _
        rw [h5, ha6]
    · rw [hfb]
      split
      · exact chainFrom_congr dw _ (ids ++ freeIds.take addl) (ids.getD 0 0)
          (fun b _ => rfl) h6
      · exact h6
    · intro k hk
      unfold chainByte
      have hc := h7 k hk
      split
      · show dw.data _ _ = _
        exact hc
      · show dw.data _ _ = _
        exact hc
    · rw [List.length_append, htklen]
      rw [htklen] at hcapE
      omega
  · -- the write fits the current allocation: nothing is allocated
    have haddl0 : addl = 0 := by
      have hrle : roundUp (buf.length + tFile.currPos) BLOCK_DATA_SIZE ≤
          BLOCK_DATA_SIZE * ids.length := by
        refine roundUp_le_multiple _ _ (by omega) ?_ ?_
        · simp only [BLOCK_DATA_SIZE]
          omega
        · simp only [BLOCK_DATA_SIZE]
          omega
      rw [haddl]
      simp only [BLOCK_DATA_SIZE] at *
      omega
    have htk0 : freeIds.take addl = [] := by
      rw [haddl0]
      simp
    rw [htk0]
    rcases hwl : writeLoop fs.disk tFile.currBlock (tFile.currPos % BLOCK_DATA_SIZE) buf
        (sizeMin (roundUp tFile.currPos BLOCK_DATA_SIZE - tFile.currPos) buf.length) 0
        with ⟨ dw, lbk⟩
    rw [hcb] at hwl
    obtain ⟨ h1, h2, h3, h4, h5, h6, h7⟩ :=
      writeLoop_entry_spec fs.disk ids [] tFile.currPos buf dw lbk hhead hnd hidsne
        (show chainFrom fs.disk (([] : List Nat).getD 0 0) ([] : List Nat) from rfl)
        List.nodup_nil (fun b _ hm => (List.not_mem_nil b) hm)
        hposle2 hbuf
        (by simp only [List.length_nil, Nat.add_zero]; omega)
        (fun _ => rfl) hwl
    have hmain : sfs_write fs fd buf =
        (Int.ofNat buf.length,
         { fs with
             disk := if buf.length + tFile.currPos >
                 (fs.disk.files tFile.fileEntryIdx).size then
                 dw.setFile tFile.fileEntryIdx
                   { dw.files tFile.fileEntryIdx with size := buf.length + tFile.currPos }
               else dw,
             descTable := fun i => if i = fd.toNat then
                 some { tFile with currBlock := lbk, currPos := buf.length + tFile.currPos }
               else fs.descTable i }) := by
      unfold sfs_write
      rw [if_neg hguard, hdesc]
      dsimp only
      rw [if_neg hgrow]
      dsimp only
      rw [hcb, hwl]
    rw [hmain]
    refine ⟨ rfl, rfl, rfl, ?_, ?_, ?_, ?_, ?_, ?_, ?_, ?_, ?_, ?_, ?_⟩
    · split
      · show dw.magic = fs.disk.magic
        exact h2
      · show dw.magic = fs.disk.magic
        exact h2
    · split
      · show dw.nBlocks = fs.disk.nBlocks
        exact h3
      · show dw.nBlocks = fs.disk.nBlocks
        exact h3
    · dsimp only
      rw [if_pos rfl, h1, Nat.add_comm tFile.currPos buf.length]
    · intro i hi
      dsimp only
      rw [if_neg hi]
    · split
      · show (if tFile.fileEntryIdx = tFile.fileEntryIdx then
            { dw.files tFile.fileEntryIdx with size := buf.length + tFile.currPos }
          else dw.files tFile.fileEntryIdx).firstBlock =
            (fs.disk.files tFile.fileEntryIdx).firstBlock
        rw [if_pos rfl]
        show (dw.files tFile.fileEntryIdx).firstBlock = _
        rw [h5]
      · show (dw.files tFile.fileEntryIdx).firstBlock = _
        rw [h5]
    · split
      · show (if tFile.fileEntryIdx = tFile.fileEntryIdx then
            { dw.files tFile.fileEntryIdx with size := buf.length + tFile.currPos }
          else dw.files tFile.fileEntryIdx).name =
            (fs.disk.files tFile.fileEntryIdx).name
        rw [if_pos rfl]
        show (dw.files tFile.fileEntryIdx).name = _
        rw [h5]
      · show (dw.files tFile.fileEntryIdx).name = _
        rw [h5]
    · split
      · next hsz =>
        show (if tFile.fileEntryIdx = tFile.fileEntryIdx then
            { dw.files tFile.fileEntryIdx with size := buf.length + tFile.currPos }
          else dw.files tFile.fileEntryIdx).size = buf.length + tFile.currPos
        rw [if_pos rfl]
      · next hsz =>
        show (dw.files tFile.fileEntryIdx).size = (fs.disk.files tFile.fileEntryIdx).size
        rw [h5]
    · intro i hi
      split
      · show (if i = tFile.fileEntryIdx then
            { dw.files tFile.fileEntryIdx with size := buf.length + tFile.currPos }
          else dw.files i) = fs.disk.files i
        rw [if_neg hi]
        show dw.files i = _
        rw [h5]
      · show dw.files i = _
        rw [h5]
    · rw [hfb]
      split
      · exact chainFrom_congr dw _ (ids ++ ([] : List Nat)) (ids.getD 0 0)
          (fun b _ => rfl) h6
      · exact h6
    · intro k hk
      unfold chainByte
      have hc := h7 k hk
      split
      · show dw.data _ _ = _
        exact hc
      · show dw.data _ _ = _
        exact hc
    · simp only [List.length_append, List.length_nil, Nat.add_zero]
      omega

/-- C5: sfs_write is all-or-nothing.  On a valid open descriptor
(position ≤ size, chain and free list well formed): if the grown
allocation would pass SFS_MAX_FILE_SIZE the call returns -EFBIG with
the whole engine state untouched; if the needed growth blocks cannot
be allocated it returns -ENOSPC with the state untouched; otherwise it
returns len, stores byte k of the buffer at file offset currPos + k of
the (possibly extended) chain, advances the descriptor position to
currPos + len, and raises the directory size to the end position
exactly when that passes the old size, touching no other descriptor
and no other directory entry.  A partial write never occurs. -/
theorem sfs_write_all_or_nothing (fs : FS) (fd : Int) (buf : List Nat) (tFile : FileDesc)
    (ids freeIds newIds : List Nat) (addl : Nat)
    (hfd0 : 0 ≤ fd) (hfd : fd < (OPEN_FILE_LIMIT : Int))
    (hdesc : fs.descTable fd.toNat = some tFile)
    (hch : chainFrom fs.disk (fs.disk.files tFile.fileEntryIdx).firstBlock ids)
    (hnd : ids.Nodup)
    (halloc : BLOCK_DATA_SIZE * ids.length =
      roundUp (fs.disk.files tFile.fileEntryIdx).size BLOCK_DATA_SIZE)
    (hposle : tFile.currPos ≤ (fs.disk.files tFile.fileEntryIdx).size)
    (hcb : tFile.currBlock = ids.getD (posBlockIdx tFile.currPos) 0)
    (hfree : chainFrom fs.disk fs.disk.freelist freeIds)
    (hfnd : freeIds.Nodup)
    (hdisj : ∀ b ∈ ids, b ∉ freeIds)
    (hbuf : buf ≠ [])
    (haddl : addl = (roundUp (buf.length + tFile.currPos) BLOCK_DATA_SIZE -
      roundUp (fs.disk.files tFile.fileEntryIdx).size BLOCK_DATA_SIZE) / BLOCK_DATA_SIZE)
    (hnew : newIds = freeIds.take addl) :
    (buf.length + tFile.currPos >
        roundUp (fs.disk.files tFile.fileEntryIdx).size BLOCK_DATA_SIZE →
      roundUp (buf.length + tFile.currPos) BLOCK_DATA_SIZE > SFS_MAX_FILE_SIZE →
      sfs_write fs fd buf = (-EFBIG, fs)) ∧
    (buf.length + tFile.currPos >
        roundUp (fs.disk.files tFile.fileEntryIdx).size BLOCK_DATA_SIZE →
      roundUp (buf.length + tFile.currPos) BLOCK_DATA_SIZE ≤ SFS_MAX_FILE_SIZE →
      freeIds.length < addl →
      sfs_write fs fd buf = (-ENOSPC, fs)) ∧
    ((buf.length + tFile.currPos ≤
        roundUp (fs.disk.files tFile.fileEntryIdx).size BLOCK_DATA_SIZE ∨
      (roundUp (buf.length + tFile.currPos) BLOCK_DATA_SIZE ≤ SFS_MAX_FILE_SIZE ∧
        addl ≤ freeIds.length)) →
      ((sfs_write fs fd buf).1 = Int.ofNat buf.length ∧
       (sfs_write fs fd buf).2.descTable fd.toNat =
         some { tFile with
                  currBlock :=
                    (ids ++ newIds).getD (posBlockIdx (buf.length + tFile.currPos)) 0,
                  currPos := buf.length + tFile.currPos } ∧
       (∀ i, i ≠ fd.toNat → (sfs_write fs fd buf).2.descTable i = fs.descTable i) ∧
       ((sfs_write fs fd buf).2.disk.files tFile.fileEntryIdx).size =
         (if buf.length + tFile.currPos > (fs.disk.files tFile.fileEntryIdx).size then
           buf.length + tFile.currPos else (fs.disk.files tFile.fileEntryIdx).size) ∧
       ((sfs_write fs fd buf).2.disk.files tFile.fileEntryIdx).firstBlock =
         (fs.disk.files tFile.fileEntryIdx).firstBlock ∧
       (∀ i, i ≠ tFile.fileEntryIdx →
         (sfs_write fs fd buf).2.disk.files i = fs.disk.files i) ∧
       chainFrom (sfs_write fs fd buf).2.disk
         ((fs.disk.files tFile.fileEntryIdx).firstBlock) (ids ++ newIds) ∧
       (∀ k, k < buf.length →
         chainByte (sfs_write fs fd buf).2.disk (ids ++ newIds) (tFile.currPos + k) =
           buf.getD k 0))) := by
  have hguard : ¬ (fd < 0 ∨ fd > (OPEN_FILE_LIMIT : Int)) := by
    simp only [OPEN_FILE_LIMIT] at *
    omega
  refine ⟨ ?_, ?_, ?_⟩
  · intro hgrow hbig
    unfold sfs_write
    rw [if_neg hguard, hdesc]
    dsimp only
    rw [if_pos hgrow, if_pos hbig]
  · intro hgrow hble hshort
    have halfail : allocateBlocks fs.disk addl SFS_BLOCK_TYPE_FILE = (0, fs.disk) :=
      allocateBlocks_fail fs.disk addl SFS_BLOCK_TYPE_FILE freeIds hfree (Or.inl hshort)
    unfold sfs_write
    rw [if_neg hguard, hdesc]
    dsimp only
    rw [if_pos hgrow, if_neg (by omega)]
    rw [← haddl, halfail]
    dsimp only
    rw [if_pos rfl]
  · intro hok
    obtain ⟨ w1, w2, w3, w4, w5, w6, w7, w8, w9, w10, w11, w12, w13, w14⟩ :=
      sfs_write_success fs fd buf tFile ids freeIds newIds addl hfd0 hfd hdesc hch hnd halloc
        hposle hcb hfree hfnd hdisj hbuf haddl hnew hok
    exact ⟨ w1, w6, w7, w10, w8, w11, w12, w13⟩

/-- C5 witness: on the concrete volume with "a" open at descriptor 0,
position 0, size 0, chain [1], free list [2..7], a 3-byte write
satisfies the success condition and returns 3. -/
theorem sfs_write_all_or_nothing_witness :
    ((0 : Int) ≤ 0 ∧ (0 : Int) < (OPEN_FILE_LIMIT : Int) ∧
     fsAfterOpen.descTable (0 : Int).toNat =
       some { fileEntryIdx := 0, startBlock := 1, currBlock := 1, currPos := 0 } ∧
     chainFrom fsAfterOpen.disk ((fsAfterOpen.disk.files 0).firstBlock) [1] ∧
     ([1] : List Nat).Nodup ∧
     BLOCK_DATA_SIZE * ([1] : List Nat).length =
       roundUp (fsAfterOpen.disk.files 0).size BLOCK_DATA_SIZE ∧
     (0 : Nat) ≤ (fsAfterOpen.disk.files 0).size ∧
     (1 : Nat) = ([1] : List Nat).getD (posBlockIdx 0) 0 ∧
     chainFrom fsAfterOpen.disk fsAfterOpen.disk.freelist [2, 3, 4, 5, 6, 7] ∧
     ([2, 3, 4, 5, 6, 7] : List Nat).Nodup ∧
     (∀ b ∈ ([1] : List Nat), b ∉ ([2, 3, 4, 5, 6, 7] : List Nat)) ∧
     ([10, 11, 12] : List Nat) ≠ [] ∧
     (0 : Nat) = (roundUp (([10, 11, 12] : List Nat).length + 0) BLOCK_DATA_SIZE -
       roundUp (fsAfterOpen.disk.files 0).size BLOCK_DATA_SIZE) / BLOCK_DATA_SIZE ∧
     ([] : List Nat) = ([2, 3, 4, 5, 6, 7] : List Nat).take 0 ∧
     ([10, 11, 12] : List Nat).length + (0 : Nat) ≤
       roundUp (fsAfterOpen.disk.files 0).size BLOCK_DATA_SIZE) ∧
    (sfs_write fsAfterOpen 0 [10, 11, 12]).1 = Int.ofNat ([10, 11, 12] : List Nat).length :=
  ⟨by decide,
   ((sfs_write_all_or_nothing fsAfterOpen 0 [10, 11, 12]
       { fileEntryIdx := 0, startBlock := 1, currBlock := 1, currPos := 0 }
       [1] [2, 3, 4, 5, 6, 7] [] 0
       (le_refl 0) (by decide) rfl (by decide) (by decide) (by decide)
       (Nat.zero_le _) rfl (by decide) (by decide) (by decide)
       (List.cons_ne_nil 10 [11, 12]) rfl rfl).2.2 (Or.inl (by decide))).1⟩

/-- sfs_close never touches the disk image or the mounted flag. -/
theorem sfs_close_keeps_disk (fs : FS) (fd : Int) :
    (sfs_close fs fd).disk = fs.disk ∧ (sfs_close fs fd).mounted = fs.mounted := by
  unfold sfs_close
  split
  · exact ⟨ rfl, rfl⟩
  · split
    · exact ⟨ rfl, rfl⟩
    · split
      · exact ⟨ rfl, rfl⟩
      · dsimp only
        split
        · exact ⟨ rfl, rfl⟩
        · exact ⟨ rfl, rfl⟩

/-- sfs_close on a live descriptor clears its slot. -/
theorem sfs_close_clears (fs : FS) (fd : Int) (tF : FileDesc)
    (hguard : ¬ (fd < 0 ∨ fd > (OPEN_FILE_LIMIT : Int)))
    (hdt : fs.descTable fd.toNat = some tF) :
    (sfs_close fs fd).descTable fd.toNat = none := by
  unfold sfs_close
  rw [if_neg hguard, hdt]
  dsimp only
  split
  · show (if fd.toNat = fd.toNat then none else fs.descTable fd.toNat) = none
    rw [if_pos rfl]
  · split
    · show (if fd.toNat = fd.toNat then none else fs.descTable fd.toNat) = none
      rw [if_pos rfl]
    · show (if fd.toNat = fd.toNat then none else fs.descTable fd.toNat) = none
      rw [if_pos rfl]

/-- C6: round trip through the persistence cycle.  A successful write
at position currPos, then close, unmount, mount, re-open of the same
name (no intervening removal or replacement), then a read covering the
file from the start: the read succeeds and the bytes it returns at
offsets currPos + k are exactly the bytes most recently written there. -/
theorem write_persist_read_roundtrip (fs : FS) (fd : Int) (buf nm : List Nat)
    (pagesize : Nat) (tFile : FileDesc) (ids freeIds newIds : List Nat) (addl : Nat)
    (hfd0 : 0 ≤ fd) (hfd : fd < (OPEN_FILE_LIMIT : Int))
    (hdesc : fs.descTable fd.toNat = some tFile)
    (hch : chainFrom fs.disk (fs.disk.files tFile.fileEntryIdx).firstBlock ids)
    (hnd : ids.Nodup)
    (halloc : BLOCK_DATA_SIZE * ids.length =
      roundUp (fs.disk.files tFile.fileEntryIdx).size BLOCK_DATA_SIZE)
    (hposle : tFile.currPos ≤ (fs.disk.files tFile.fileEntryIdx).size)
    (hcb : tFile.currBlock = ids.getD (posBlockIdx tFile.currPos) 0)
    (hfree : chainFrom fs.disk fs.disk.freelist freeIds)
    (hfnd : freeIds.Nodup)
    (hdisj : ∀ b ∈ ids, b ∉ freeIds)
    (hbuf : buf ≠ [])
    (haddl : addl = (roundUp (buf.length + tFile.currPos) BLOCK_DATA_SIZE -
      roundUp (fs.disk.files tFile.fileEntryIdx).size BLOCK_DATA_SIZE) / BLOCK_DATA_SIZE)
    (hnew : newIds = freeIds.take addl)
    (hok : buf.length + tFile.currPos ≤
        roundUp (fs.disk.files tFile.fileEntryIdx).size BLOCK_DATA_SIZE ∨
      (roundUp (buf.length + tFile.currPos) BLOCK_DATA_SIZE ≤ SFS_MAX_FILE_SIZE ∧
        addl ≤ freeIds.length))
    (hmag : fs.disk.magic = SFS_DISK_MAGIC)
    (hdsz : SFS_BLOCK_SIZE * fs.disk.nBlocks ≤ SFS_MAX_DISK_SIZE)
    (hpg : (SFS_BLOCK_SIZE * fs.disk.nBlocks) % pagesize = 0)
    (hnm : ¬ (nm.length + 1 > SFS_FILE_NAME_SIZE_LIMIT))
    (hfind : (List.range FILE_COUNT_LIMIT).find?
        (fun i => ((fs.disk.files i).firstBlock != 0) &&
          (cstrOf (fs.disk.files i).name == nm)) = some tFile.fileEntryIdx) :
    (sfs_write fs fd buf).1 = Int.ofNat buf.length ∧
    (sfs_mount (sfs_unmount (sfs_close (sfs_write fs fd buf).2 fd)).2 pagesize).1 = 0 ∧
    0 ≤ (sfs_open
      (sfs_mount (sfs_unmount (sfs_close (sfs_write fs fd buf).2 fd)).2 pagesize).2 nm).1 ∧
    (sfs_read
      (sfs_open
        (sfs_mount (sfs_unmount (sfs_close (sfs_write fs fd buf).2 fd)).2 pagesize).2 nm).2
      (sfs_open
        (sfs_mount (sfs_unmount (sfs_close (sfs_write fs fd buf).2 fd)).2 pagesize).2 nm).1
      (tFile.currPos + buf.length)).1 = Int.ofNat (tFile.currPos + buf.length) ∧
    (∀ k, k < buf.length →
      (sfs_read
        (sfs_open
          (sfs_mount (sfs_unmount (sfs_close (sfs_write fs fd buf).2 fd)).2 pagesize).2 nm).2
        (sfs_open
          (sfs_mount (sfs_unmount (sfs_close (sfs_write fs fd buf).2 fd)).2 pagesize).2 nm).1
        (tFile.currPos + buf.length)).2.1.getD (tFile.currPos + k) 0 = buf.getD k 0) := by
  obtain ⟨ w1, w2, w3, w4, w5, w6, w7, w8, w9, w10, w11, w12, w13, w14⟩ :=
    sfs_write_success fs fd buf tFile ids freeIds newIds addl hfd0 hfd hdesc hch hnd halloc
      hposle hcb hfree hfnd hdisj hbuf haddl hnew hok
  have hguard : ¬ (fd < 0 ∨ fd > (OPEN_FILE_LIMIT : Int)) := by
    simp only [OPEN_FILE_LIMIT] at *
    omega
  have hidsne : ids ≠ [] := by
    intro he
    rw [he] at halloc
    have := roundUp_pos (fs.disk.files tFile.fileEntryIdx).size BLOCK_DATA_SIZE (by decide)
    simp only [List.length_nil, Nat.mul_zero] at halloc
    omega
  obtain ⟨ hc1, hc2⟩ := sfs_close_keeps_disk (sfs_write fs fd buf).2 fd
  have hc3 : (sfs_close (sfs_write fs fd buf).2 fd).descTable fd.toNat = none :=
    sfs_close_clears _ fd _ hguard w6
  have hfs4 : sfs_mount (sfs_unmount (sfs_close (sfs_write fs fd buf).2 fd)).2 pagesize =
      (0, { sfs_close (sfs_write fs fd buf).2 fd with mounted := true }) := by
    unfold sfs_mount
    rw [if_neg (fun h => Bool.noConfusion h)]
    rw [if_neg (by
      show ¬ (SFS_BLOCK_SIZE * (sfs_close (sfs_write fs fd buf).2 fd).disk.nBlocks >
        SFS_MAX_DISK_SIZE)
      rw [hc1, w5]
      omega)]
    rw [if_neg (by
      show ¬ (SFS_BLOCK_SIZE * (sfs_close (sfs_write fs fd buf).2 fd).disk.nBlocks %
        pagesize ≠ 0)
      rw [hc1, w5]
      exact fun hne => hne hpg)]
    rw [if_neg (by
      show ¬ ((sfs_close (sfs_write fs fd buf).2 fd).disk.magic ≠ SFS_DISK_MAGIC)
      rw [hc1, w4]
      exact fun hne => hne hmag)]
    exact rfl
  have hfind4 : (List.range FILE_COUNT_LIMIT).find?
      (fun i => ((({ sfs_close (sfs_write fs fd buf).2 fd with mounted := true }
          : FS).disk.files i).firstBlock != 0) &&
        (cstrOf (({ sfs_close (sfs_write fs fd buf).2 fd with mounted := true }
          : FS).disk.files i).name == nm)) = some tFile.fileEntryIdx := by
    refine (find?_congr _ _ (List.range FILE_COUNT_LIMIT) ?_).trans hfind
    intro i _
    show ((((sfs_close (sfs_write fs fd buf).2 fd).disk.files i).firstBlock != 0) &&
        (cstrOf ((sfs_close (sfs_write fs fd buf).2 fd).disk.files i).name == nm)) =
      (((fs.disk.files i).firstBlock != 0) && (cstrOf (fs.disk.files i).name == nm))
    rw [hc1]
    by_cases hie : i = tFile.fileEntryIdx
    · subst hie
      rw [w8, w9]
    · rw [w11 i hie]
  have hopen : sfs_open ({ sfs_close (sfs_write fs fd buf).2 fd with mounted := true } : FS) nm =
      addOpenFileEntry ({ sfs_close (sfs_write fs fd buf).2 fd with mounted := true } : FS)
        tFile.fileEntryIdx := by
    unfold sfs_open
    rw [if_neg hnm]
    rw [if_neg (fun h => h rfl)]
    rw [hfind4]
  have hslot : ((List.range OPEN_FILE_LIMIT).find?
      (fun i => ((({ sfs_close (sfs_write fs fd buf).2 fd with mounted := true }
        : FS).descTable i).isNone))).isSome := by
    refine List.find?_isSome.mpr ⟨ fd.toNat, List.mem_range.mpr (by
      simp only [OPEN_FILE_LIMIT] at *
      omega), ?_⟩
    show ((sfs_close (sfs_write fs fd buf).2 fd).descTable fd.toNat).isNone = true
    rw [hc3]
    rfl
  obtain ⟨ fd2, hfd2⟩ := Option.isSome_iff_exists.mp hslot
  have hfd2lt : fd2 < OPEN_FILE_LIMIT :=
    List.mem_range.mp (List.mem_of_find?_eq_some hfd2)
  have hfb4 : ((({ sfs_close (sfs_write fs fd buf).2 fd with mounted := true }
      : FS).disk.files tFile.fileEntryIdx).firstBlock) =
      (fs.disk.files tFile.fileEntryIdx).firstBlock := by
    show ((sfs_close (sfs_write fs fd buf).2 fd).disk.files tFile.fileEntryIdx).firstBlock = _
    rw [hc1, w8]
  have hopen2 : ∃ fs5 : FS,
      sfs_open ({ sfs_close (sfs_write fs fd buf).2 fd with mounted := true } : FS) nm =
        (Int.ofNat fd2, fs5) ∧
      fs5.disk = (sfs_write fs fd buf).2.disk ∧
      fs5.descTable fd2 = some
        { fileEntryIdx := tFile.fileEntryIdx,
          startBlock := (fs.disk.files tFile.fileEntryIdx).firstBlock,
          currBlock := (fs.disk.files tFile.fileEntryIdx).firstBlock, currPos := 0 } := by
    rw [hopen]
    cases hvn : ({ sfs_close (sfs_write fs fd buf).2 fd with mounted := true }
        : FS).openFileTable tFile.fileEntryIdx with
    | some mf =>
      rw [addOpenFileEntry_eq_found _ _ fd2 mf hfd2 hvn]
      refine ⟨ _, rfl, ?_, ?_⟩
      · show (sfs_close (sfs_write fs fd buf).2 fd).disk = _
        exact hc1
      · dsimp only
        rw [if_pos rfl, hfb4]
    | none =>
      rw [addOpenFileEntry_eq_new _ _ fd2 hfd2 hvn]
      refine ⟨ _, rfl, ?_, ?_⟩
      · show (sfs_close (sfs_write fs fd buf).2 fd).disk = _
        exact hc1
      · dsimp only
        rw [if_pos rfl, hfb4]
  obtain ⟨ fs5, ho1, ho2, ho3⟩ := hopen2
  have hL : tFile.currPos + buf.length ≤
      ((sfs_write fs fd buf).2.disk.files tFile.fileEntryIdx).size := by
    rw [w10]
    split
    · omega
    · omega
  have hread : (sfs_read fs5 (Int.ofNat fd2) (tFile.currPos + buf.length)).1 =
        Int.ofNat (tFile.currPos + buf.length) ∧
      (∀ k, k < buf.length →
        (sfs_read fs5 (Int.ofNat fd2) (tFile.currPos + buf.length)).2.1.getD
          (tFile.currPos + k) 0 = buf.getD k 0) := by
    have hguard2 : ¬ ((Int.ofNat fd2) < 0 ∨ (Int.ofNat fd2) > (OPEN_FILE_LIMIT : Int)) := by
      simp only [OPEN_FILE_LIMIT, Int.ofNat_eq_coe] at hfd2lt ⊢
      omega
    obtain ⟨ hr1, hr2⟩ := readLoop_spec (ids ++ newIds) (sfs_write fs fd buf).2.disk
        ((fs.disk.files tFile.fileEntryIdx).firstBlock) 0 (tFile.currPos + buf.length)
        w12 (by
          intro he
          exact hidsne (List.append_eq_nil.mp he).1) (by decide)
        (by simp only [Nat.zero_add]; omega)
    simp only [Nat.sub_zero] at hr1 hr2
    unfold sfs_read
    rw [if_neg hguard2]
    rw [show (Int.ofNat fd2).toNat = fd2 from rfl]
    rw [ho3]
    dsimp only
    rw [ho2]
    rw [show sizeMin (((sfs_write fs fd buf).2.disk.files tFile.fileEntryIdx).size - 0)
        (tFile.currPos + buf.length) = tFile.currPos + buf.length by
      unfold sizeMin
      rw [if_neg (by omega)]]
    rw [Nat.zero_mod]
    rw [show roundUp 0 BLOCK_DATA_SIZE - 0 = BLOCK_DATA_SIZE from by decide]
    rw [hr1]
    constructor
    · rfl
    · intro k hk
      show (((List.range (tFile.currPos + buf.length)).map _).getD (tFile.currPos + k) 0) = _
      rw [getD_map_range _ _ _ (by omega)]
      simp only [Nat.zero_add]
      have hw13 := w13 k hk
      unfold chainByte at hw13
      exact hw13
  refine ⟨ w1, ?_, ?_, ?_, ?_⟩
  · rw [hfs4]
  · rw [hfs4]
    dsimp only
    rw [ho1]
    exact Int.ofNat_nonneg fd2
  · rw [hfs4]
    dsimp only
    rw [ho1]
    exact hread.1
  · intro k hk
    rw [hfs4]
    dsimp only
    rw [ho1]
    exact hread.2 k hk

/-- C6 witness: on the concrete volume with "a" open at descriptor 0,
write [10, 11, 12] at position 0, close, unmount, remount (page size
4096), reopen "a", read 3 bytes: every byte read equals the byte
written at the same offset. -/
theorem write_persist_read_roundtrip_witness :
    ((0 : Int) ≤ 0 ∧ (0 : Int) < (OPEN_FILE_LIMIT : Int) ∧
     fsAfterOpen.descTable (0 : Int).toNat =
       some { fileEntryIdx := 0, startBlock := 1, currBlock := 1, currPos := 0 } ∧
     chainFrom fsAfterOpen.disk ((fsAfterOpen.disk.files 0).firstBlock) [1] ∧
     ([1] : List Nat).Nodup ∧
     BLOCK_DATA_SIZE * ([1] : List Nat).length =
       roundUp (fsAfterOpen.disk.files 0).size BLOCK_DATA_SIZE ∧
     (0 : Nat) ≤ (fsAfterOpen.disk.files 0).size ∧
     (1 : Nat) = ([1] : List Nat).getD (posBlockIdx 0) 0 ∧
     chainFrom fsAfterOpen.disk fsAfterOpen.disk.freelist [2, 3, 4, 5, 6, 7] ∧
     ([2, 3, 4, 5, 6, 7] : List Nat).Nodup ∧
     (∀ b ∈ ([1] : List Nat), b ∉ ([2, 3, 4, 5, 6, 7] : List Nat)) ∧
     ([10, 11, 12] : List Nat) ≠ [] ∧
     (0 : Nat) = (roundUp (([10, 11, 12] : List Nat).length + 0) BLOCK_DATA_SIZE -
       roundUp (fsAfterOpen.disk.files 0).size BLOCK_DATA_SIZE) / BLOCK_DATA_SIZE ∧
     ([] : List Nat) = ([2, 3, 4, 5, 6, 7] : List Nat).take 0 ∧
     ([10, 11, 12] : List Nat).length + (0 : Nat) ≤
       roundUp (fsAfterOpen.disk.files 0).size BLOCK_DATA_SIZE ∧
     fsAfterOpen.disk.magic = SFS_DISK_MAGIC ∧
     SFS_BLOCK_SIZE * fsAfterOpen.disk.nBlocks ≤ SFS_MAX_DISK_SIZE ∧
     (SFS_BLOCK_SIZE * fsAfterOpen.disk.nBlocks) % 4096 = 0 ∧
     ¬ (([97] : List Nat).length + 1 > SFS_FILE_NAME_SIZE_LIMIT) ∧
     (List.range FILE_COUNT_LIMIT).find?
       (fun i => ((fsAfterOpen.disk.files i).firstBlock != 0) &&
         (cstrOf (fsAfterOpen.disk.files i).name == [97])) = some 0) ∧
    ((sfs_write fsAfterOpen 0 [10, 11, 12]).1 =
       Int.ofNat ([10, 11, 12] : List Nat).length ∧
     (sfs_mount (sfs_unmount
       (sfs_close (sfs_write fsAfterOpen 0 [10, 11, 12]).2 0)).2 4096).1 = 0 ∧
     0 ≤ (sfs_open (sfs_mount (sfs_unmount
       (sfs_close (sfs_write fsAfterOpen 0 [10, 11, 12]).2 0)).2 4096).2 [97]).1 ∧
     (sfs_read
       (sfs_open (sfs_mount (sfs_unmount
         (sfs_close (sfs_write fsAfterOpen 0 [10, 11, 12]).2 0)).2 4096).2 [97]).2
       (sfs_open (sfs_mount (sfs_unmount
         (sfs_close (sfs_write fsAfterOpen 0 [10, 11, 12]).2 0)).2 4096).2 [97]).1
       (0 + ([10, 11, 12] : List Nat).length)).1 =
         Int.ofNat (0 + ([10, 11, 12] : List Nat).length) ∧
     (∀ k, k < ([10, 11, 12] : List Nat).length →
       (sfs_read
         (sfs_open (sfs_mount (sfs_unmount
           (sfs_close (sfs_write fsAfterOpen 0 [10, 11, 12]).2 0)).2 4096).2 [97]).2
         (sfs_open (sfs_mount (sfs_unmount
           (sfs_close (sfs_write fsAfterOpen 0 [10, 11, 12]).2 0)).2 4096).2 [97]).1
         (0 + ([10, 11, 12] : List Nat).length)).2.1.getD (0 + k) 0 =
           ([10, 11, 12] : List Nat).getD k 0)) :=
  ⟨by decide,
   write_persist_read_roundtrip fsAfterOpen 0 [10, 11, 12] [97] 4096
     { fileEntryIdx := 0, startBlock := 1, currBlock := 1, currPos := 0 }
     [1] [2, 3, 4, 5, 6, 7] [] 0
     (le_refl 0) (by decide) rfl (by decide) (by decide) (by decide)
     (Nat.zero_le _) rfl (by decide) (by decide) (by decide)
     (List.cons_ne_nil 10 [11, 12]) rfl rfl
     (Or.inl (by decide)) rfl (by decide) rfl (by decide) rfl⟩

/-- C9: after every API call — i.e. in every state reachable from the
pristine engine state by any sequence of sfs_format / sfs_mount /
sfs_unmount / sfs_open / sfs_close / sfs_read / sfs_write / sfs_remove /
sfs_list / sfs_getpos / sfs_seek / sfs_rename calls — for every directory
index i a v-node occupies open-file-table slot i if and only if at least
one allocated descriptor references index i, and in that case its
refCount equals the exact number of descriptors referencing i (so a
refCount is never 0 for an occupied slot). -/
theorem vnode_refcount_invariant (ops : List Op) : refInv (applyOps initFS ops) :=
  (applyOps_wf ops initFS initFS_wf).2.2

/-- C2: the claimed fsck soundness is FALSE on the code.  On the same
successful API sequence (format; open("a"); close; remove("a") on a
4 KiB volume) the checker reports a prev-pointer error on the free
list and exits nonzero, while it does return zero on the intermediate
states.  -/
theorem fsck_nonzero_after_remove :
    (sfs_format initFS 4096 4096).1 = 0 ∧
    (sfs_open fsAfterFormat [97]).1 = 0 ∧
    (sfs_remove fsAfterClose [97]).1 = 0 ∧
    sfs_fsck fsAfterFormat.disk = 0 ∧
    sfs_fsck fsAfterOpen.disk = 0 ∧
    sfs_fsck fsAfterRemove.disk = 1 := by
  decide

end SFS
